import Mathlib

/-! HLMS shader template preprocessor (`OgreHlmsShaderGenerator.cpp`).

A shallow embedding of `Ogre::ShaderGenerator` and theorems about it.

Conventions of the embedding:

* a buffer (`Ogre::String`) is a list of characters, `Str`;
* `Ogre::String::npos` is `none` in an `Option Nat`;
* loops whose iterator jumps are given a fuel argument; `none` is returned when
  the fuel runs out and when the C++ code would read outside a container,
  divide by zero or divide `INT_MIN` by -1;
* `int` values are integers wrapped to 32 bits with `wrapInt32` after each
  arithmetic operation; `size_t` values are natural numbers below `2 ^ 64`.
-/

namespace Ogre

/-- A buffer of bytes, the embedding of `Ogre::String`. -/
abbrev Str := List Char

/-! ## Strings -/

/-- Whether `needle` occurs at the very start of the text `s`. -/
def startsWith : Str → Str → Bool
  | _, [] => true
  | [], _ :: _ => false
  | c :: cs, n :: ns => c == n && startsWith cs ns

/-- Scan for `needle` in `s`; the index of the head of `s` in the whole buffer is `i`. -/
def findAt (needle : Str) : Str → Nat → Option Nat
  | [], i => if needle.isEmpty then some i else none
  | c :: cs, i => if startsWith (c :: cs) needle then some i else findAt needle cs (i + 1)

/-- The call `s.find(needle, pos)` of `std::string`: the least index `i ≥ pos` at which
`needle` occurs in `s`, or `npos`. -/
def strFind (s needle : Str) (pos : Nat) : Option Nat :=
  if s.length < pos then none else findAt needle (s.drop pos) pos

/-- Scan for a byte of `chars` in `s`; the index of the head of `s` is `i`. -/
def findFirstOfAt (chars : Str) : Str → Nat → Option Nat
  | [], _ => none
  | c :: cs, i => if chars.contains c then some i else findFirstOfAt chars cs (i + 1)

/-- The call `s.find_first_of(chars, pos)` of `std::string`. -/
def strFindFirstOf (s chars : Str) (pos : Nat) : Option Nat :=
  findFirstOfAt chars (s.drop pos) pos

/-- The value `(size_t)~0`, which is also `Ogre::String::npos`. -/
def npos : Nat := 2 ^ 64 - 1

/-! ## Integers -/

/-- Largest `int`. -/
def INT_MAX : Int := 2147483647

/-- Smallest `int`. -/
def INT_MIN : Int := -2147483648

/-- Two's complement reduction of an integer to 32 bits. -/
def wrapInt32 (x : Int) : Int := (x + 2147483648) % 4294967296 - 2147483648

/-- Conversion of an `int` to `size_t`. -/
def toSizeT (x : Int) : Nat := (x % 18446744073709551616).toNat

/-- The decimal digit for `d < 10`. -/
def digitChar (d : Nat) : Char := Char.ofNat (48 + d)

/-- Decimal digits of `n`, most significant first, in front of `acc`. -/
def toDigitsFuel : Nat → Nat → Str → Str
  | 0, _, acc => acc
  | fuel + 1, n, acc =>
    if n / 10 = 0 then digitChar (n % 10) :: acc
    else toDigitsFuel fuel (n / 10) (digitChar (n % 10) :: acc)

/-- The text `sprintf` writes for `"%lu"`. -/
def decimalNat (n : Nat) : Str := toDigitsFuel (n + 1) n []

/-- The text `sprintf` writes for `"%i"`. -/
def decimalInt (x : Int) : Str :=
  if x < 0 then '-' :: decimalNat x.natAbs else decimalNat x.natAbs

/-- Whether `c` is one of `'0'` … `'9'`. -/
def isDigit (c : Char) : Bool := 48 ≤ c.toNat && c.toNat ≤ 57

/-- The number a run of decimal digits denotes, continuing from `acc`. -/
def digitsValue : Str → Nat → Nat
  | [], acc => acc
  | c :: cs, acc => digitsValue cs (acc * 10 + (c.toNat - 48))

/-- Whether `c` is white space for `isspace` in the C locale. -/
def isSpaceC (c : Char) : Bool :=
  c == ' ' || c == '\t' || c == '\n' || c == '\r' || c.toNat == 11 || c.toNat == 12

/-- The call `strtol(s, &endPtr, 10)` followed by the conversion of its `long` result to
`int`: `none` when no conversion is performed (`endPtr` equals the start of the text),
otherwise the value of the longest run of digits after optional white space and sign,
clamped to `long` and reduced to 32 bits. -/
def strtol (s : Str) : Option Int :=
  let t := s.dropWhile isSpaceC
  let (neg, u) :=
    match t with
    | '-' :: r => (true, r)
    | '+' :: r => (false, r)
    | r => (false, r)
  let ds := u.takeWhile isDigit
  if ds.isEmpty then none
  else
    let v : Int := digitsValue ds 0
    let w : Int := if neg then -v else v
    let clamped : Int := max (-9223372036854775808) (min 9223372036854775807 w)
    some (wrapInt32 clamped)

/-- Modelled from the spec: `Ogre::StringConverter::parseInt`, which is declared outside
this file. Section 4.2: numeric conversion of argument text uses signed decimal, and on
parse failure the default value is returned. -/
def parseInt (val : Str) (defaultValue : Int) : Int :=
  let (neg, ds) :=
    match val with
    | '-' :: r => (true, r)
    | r => (false, r)
  if ds.isEmpty || !ds.all isDigit then defaultValue
  else
    let v : Int := digitsValue ds 0
    let w : Int := if neg then -v else v
    if INT_MIN ≤ w ∧ w ≤ INT_MAX then w else defaultValue

/-! ## Property and piece maps -/

/-- Modelled from the spec: `PropertyMap`, declared outside this file. Section 3: a mapping
from names to `int`, default 0. Keys are the argument texts themselves (the interning of
`IdString` is taken to be injective). -/
abbrev PropertyMap := Str → Int

/-- Modelled from the spec: `PropertyMap::getProperty`; undefined keys read as 0 because
the empty map is the constant 0. -/
def getProperty (properties : PropertyMap) (key : Str) : Int := properties key

/-- Modelled from the spec: `PropertyMap::setProperty`. -/
def setProperty (properties : PropertyMap) (key : Str) (value : Int) : PropertyMap :=
  fun k => if k = key then value else properties k

/-- The map in which no property is defined. -/
def emptyProperties : PropertyMap := fun _ => 0

/-- Modelled from the spec: `PiecesMap`, declared outside this file. Section 3: a mapping
from names to owned buffers. -/
abbrev PiecesMap := Str → Option Str

/-- The piece library in which no piece is registered. -/
def emptyPieces : PiecesMap := fun _ => none

/-- The assignment `pieces[name] = body`. -/
def insertPiece (pieces : PiecesMap) (name body : Str) : PiecesMap :=
  fun k => if k = name then some body else pieces k

/-! ## SubStringRef -/

/-- Modelled from the spec: `SubStringRef`, declared outside this file. Section 3: a
view `(buffer, start, end)` over a buffer. -/
structure SubStringRef where
  mOriginal : Str
  mStart : Nat
  mEnd : Nat

namespace SubStringRef

/-- Modelled from the spec: the constructor `SubStringRef(original, start)`; the view
runs to the end of the buffer. -/
def fromStart (original : Str) (start : Nat) : SubStringRef :=
  ⟨original, start, original.length⟩

/-- Modelled from the spec: `getStart`. -/
def getStart (s : SubStringRef) : Nat := s.mStart

/-- Modelled from the spec: `getEnd`. -/
def getEnd (s : SubStringRef) : Nat := s.mEnd

/-- Modelled from the spec: `getSize`. -/
def getSize (s : SubStringRef) : Nat := s.mEnd - s.mStart

/-- Modelled from the spec: `setStart`; section 3 keeps `start ≤ len(buffer)`. -/
def setStart (s : SubStringRef) (newStart : Nat) : SubStringRef :=
  { s with mStart := min newStart s.mOriginal.length }

/-- Modelled from the spec: `setEnd`; section 3 keeps `end ≤ len(buffer)`. -/
def setEnd (s : SubStringRef) (newEnd : Nat) : SubStringRef :=
  { s with mEnd := min newEnd s.mOriginal.length }

/-- The bytes between `begin()` and `end()`. -/
def content (s : SubStringRef) : Str :=
  (s.mOriginal.drop s.mStart).take (s.mEnd - s.mStart)

/-- Modelled from the spec: `find(needle, from)`, section 4.1: the offset from the start
of the view of the first occurrence at or after `from`, none when it starts at or after
the end of the view. -/
def find (s : SubStringRef) (value : Str) (pos : Nat) : Option Nat :=
  match strFind s.mOriginal value (s.mStart + pos) with
  | none => none
  | some r => if s.mEnd ≤ r then none else some (r - s.mStart)

/-- Modelled from the spec: `findFirstOf(charset, from)`, section 4.1. -/
def findFirstOf (s : SubStringRef) (chars : Str) (pos : Nat) : Option Nat :=
  match strFindFirstOf s.mOriginal chars (s.mStart + pos) with
  | none => none
  | some r => if s.mEnd ≤ r then none else some (r - s.mStart)

/-- Modelled from the spec: `matchEqual(literal)`, section 4.1: the literal equals the
view exactly. -/
def matchEqual (s : SubStringRef) (stringCompare : Str) : Bool :=
  s.content == stringCompare

end SubStringRef

/-! ## Scanners -/

/-- Whether `c` is one of the four white space bytes the scanners skip. -/
def isWhite (c : Char) : Bool := c == ' ' || c == '\t' || c == '\n' || c == '\r'

/-- The loop of `evaluateExpressionEnd` over the bytes from `it` to `en`; `i` is
`it - begin`. Returns the final `it - begin`, the final `nesting`, and whether
`it != en`. -/
def evaluateExpressionEndLoop : Str → Nat → Int → Nat × Int × Bool
  | [], i, nesting => (i, nesting, false)
  | c :: cs, i, nesting =>
    if 0 ≤ nesting then
      evaluateExpressionEndLoop cs (i + 1)
        (if c = '(' then nesting + 1 else if c = ')' then nesting - 1 else nesting)
    else (i, nesting, true)

/-- The function `ShaderGenerator::evaluateExpressionEnd`: the offset of the parenthesis
that closes the list, or `npos`. -/
def evaluateExpressionEnd (outSubString : SubStringRef) : Option Nat :=
  match evaluateExpressionEndLoop outSubString.content 0 0 with
  | (i, nesting, notAtEnd) => if notAtEnd && decide (nesting < 0) then some (i - 1) else none

/-- The call `outArgs.back().push_back(c)`. -/
def pushBackLast : List Str → Char → List Str
  | [], _ => []
  | [a], c => [a ++ [c]]
  | a :: b :: rest, c => a :: pushBackLast (b :: rest) c

/-- The loop of `evaluateParamArgs` over the bytes of the argument list. -/
def evaluateParamArgsLoop : Str → Nat → List Str → Bool → List Str × Bool
  | [], _, outArgs, syntaxError => (outArgs, syntaxError)
  | c :: cs, expressionState, outArgs, syntaxError =>
    if syntaxError then (outArgs, syntaxError)
    else if c = '(' ∨ c = ')' ∨ c = '@' ∨ c = '&' ∨ c = '|' then
      evaluateParamArgsLoop cs expressionState outArgs true
    else if c = ' ' ∨ c = '\t' ∨ c = '\n' ∨ c = '\r' then
      evaluateParamArgsLoop cs (if expressionState = 1 then 2 else expressionState)
        outArgs syntaxError
    else if c = ',' then
      evaluateParamArgsLoop cs 0 (outArgs ++ [[]]) syntaxError
    else if expressionState = 2 then
      evaluateParamArgsLoop cs expressionState outArgs true
    else
      evaluateParamArgsLoop cs 1 (pushBackLast outArgs c) syntaxError

/-- The function `ShaderGenerator::evaluateParamArgs`. Returns the advanced view, the
arguments and the error flag; when no closing parenthesis is found the view and the
arguments are left as they were. -/
def evaluateParamArgs (outSubString : SubStringRef) (outArgs : List Str) :
    SubStringRef × List Str × Bool :=
  match evaluateExpressionEnd outSubString with
  | none => (outSubString, outArgs, true)
  | some expEnd =>
    let subString : SubStringRef :=
      ⟨outSubString.mOriginal, outSubString.getStart, outSubString.getStart + expEnd⟩
    let r := evaluateParamArgsLoop subString.content 0 [[]] false
    (SubStringRef.fromStart outSubString.mOriginal (outSubString.getStart + expEnd + 1),
      r.1, r.2)

/-- The three block openers of `findBlockEnd`. -/
def blockNames : List Str := ["foreach".toList, "property".toList, "piece".toList]

/-- The inner `for` loop of `findBlockEnd`: the length of the first block name found at
offset 0 of `subString`. -/
def findBlockName (subString : SubStringRef) : List Str → Option Nat
  | [] => none
  | name :: rest =>
    if subString.find name 0 = some 0 then some name.length else findBlockName subString rest

/-- The `while` loop of `findBlockEnd`; `it` and `en` are offsets in the original
buffer. -/
def findBlockEndLoop (buffer : Str) (en : Nat) : Nat → Nat → Int → Option (Nat × Int)
  | 0, _, _ => none
  | fuel + 1, it, nesting =>
    if it = en ∨ nesting < 0 then some (it, nesting)
    else
      match buffer.get? it with
      | none => none
      | some c =>
        if c = '@' then
          let subString := SubStringRef.fromStart buffer (it + 1)
          if subString.find ("end".toList) 0 = some 0 then
            findBlockEndLoop buffer en fuel (it + 3 + 1) (nesting - 1)
          else
            match findBlockName subString blockNames with
            | some len => findBlockEndLoop buffer en fuel (it + 1 + len + 1) (nesting + 1)
            | none => findBlockEndLoop buffer en fuel (it + 1) nesting
        else findBlockEndLoop buffer en fuel (it + 1) nesting

/-- The function `ShaderGenerator::findBlockEnd`. Returns the view with its end moved in
front of the closing `@end` and the error flag. When no closing `@end` is accepted the
view is unchanged and the flag is assigned `false`, as in the source. -/
def findBlockEnd (outSubString : SubStringRef) (syntaxError : Bool) :
    Option (SubStringRef × Bool) :=
  match findBlockEndLoop outSubString.mOriginal outSubString.mEnd
      (outSubString.mOriginal.length + 1) outSubString.mStart 0 with
  | none => none
  | some (it, nesting) =>
    if it ≠ outSubString.mEnd ∧ nesting < 0 then
      some (outSubString.setEnd (it - 4), syntaxError)
    else some (outSubString, false)

/-- The function `ShaderGenerator::copy`: the bytes appended to the output. -/
def copy (inSubString : SubStringRef) (length : Nat) : Str :=
  (inSubString.mOriginal.drop inSubString.mStart).take length

/-- The loop of `ShaderGenerator::repeat`; `itor` and `en` are offsets in the original
buffer and `outBuffer` is the text appended so far. -/
def repeatLoop (buffer : Str) (en : Nat) (passNum : Nat) (counterVar : Str) :
    Nat → Nat → Str → Option Str
  | 0, _, _ => none
  | fuel + 1, itor, outBuffer =>
    if itor = en then some outBuffer
    else
      match buffer.get? itor with
      | none => none
      | some c =>
        if c = '@' ∧ counterVar ≠ [] then
          if (SubStringRef.fromStart buffer (itor + 1)).find counterVar 0 = some 0 then
            repeatLoop buffer en passNum counterVar fuel (itor + (counterVar.length + 1))
              (outBuffer ++ decimalNat passNum)
          else repeatLoop buffer en passNum counterVar fuel (itor + 1) (outBuffer ++ [c])
        else repeatLoop buffer en passNum counterVar fuel (itor + 1) (outBuffer ++ [c])

/-- The function `ShaderGenerator::repeat`: `outBuffer` with one copy of the block
appended, every `@counterVar` replaced by `passNum`. -/
def repeatBlock (outBuffer : Str) (inSubString : SubStringRef) (length passNum : Nat)
    (counterVar : Str) : Option Str :=
  repeatLoop inSubString.mOriginal (inSubString.mStart + length) passNum counterVar
    (length + 1) inSubString.mStart outBuffer

/-! ## Expressions -/

/-- Modelled from the spec: `Expression`, declared outside this file. Section 3: a node
has a token text `value`, a flag `negated` and ordered `children`; its `type` and `result`
are computed by `evaluateExpressionRecursive` and are not stored here. -/
inductive Expression where
  | mk (value : Str) (negated : Bool) (children : List Expression)

/-- Modelled from the spec: the enumeration of node types, section 3. -/
inductive ExpressionType where
  | EXPR_OPERATOR_OR
  | EXPR_OPERATOR_AND
  | EXPR_OBJECT
  | EXPR_VAR
  deriving DecidableEq

namespace Expression

/-- The default constructed node `Expression()`. -/
def empty : Expression := .mk [] false []

/-- The field `value`. -/
def value : Expression → Str
  | .mk v _ _ => v

/-- The field `negated`. -/
def negated : Expression → Bool
  | .mk _ n _ => n

/-- The field `children`. -/
def children : Expression → List Expression
  | .mk _ _ cs => cs

/-- The call `children.push_back(child)`. -/
def pushChild : Expression → Expression → Expression
  | .mk v n cs, child => .mk v n (cs ++ [child])

/-- The assignment `negated = b`. -/
def setNegated : Expression → Bool → Expression
  | .mk v _ cs, b => .mk v b cs

/-- The call `value.push_back(c)`. -/
def pushValue : Expression → Char → Expression
  | .mk v n cs, c => .mk (v ++ [c]) n cs

end Expression

/-- The call `currentExpression->children.back()` followed by an update `f` of that
node. The list is never empty where the source does this. -/
def modifyBack (f : Expression → Expression) : List Expression → List Expression
  | [] => []
  | [a] => [f a]
  | a :: b :: rest => a :: modifyBack f (b :: rest)

/-- The local state of the scanning loop of `evaluateExpression`. The node that
`currentExpression` points to is `current`; `parents` is the stack
`expressionParents`, innermost first, each parent held without the child that is
under construction, which is put back as its last child when the parenthesis closes. -/
structure ScanState where
  current : Expression
  parents : List Expression
  textStarted : Bool
  nextExpressionNegates : Bool
  syntaxError : Bool

/-- The last byte of the value of the last child of `e`, when both exist. -/
def lastValueChar (e : Expression) : Option Char :=
  match e.children.getLast? with
  | none => none
  | some b => b.value.getLast?

/-- One turn of the scanning loop of `evaluateExpression` on the byte `c`. -/
def scanStep (st : ScanState) (c : Char) : ScanState :=
  if c = '(' then
    { current := Expression.empty.setNegated st.nextExpressionNegates
      parents := st.current :: st.parents
      textStarted := false
      nextExpressionNegates := false
      syntaxError := st.syntaxError }
  else if c = ')' then
    match st.parents with
    | [] => { st with syntaxError := true, textStarted := false }
    | p :: ps => { st with current := p.pushChild st.current, parents := ps,
                           textStarted := false }
  else if c = ' ' ∨ c = '\t' ∨ c = '\n' ∨ c = '\r' then
    { st with textStarted := false }
  else if c = '!' then
    { st with nextExpressionNegates := true }
  else
    let cur1 : Expression :=
      if st.textStarted then st.current
      else st.current.pushChild (Expression.empty.setNegated st.nextExpressionNegates)
    let isOp : Bool := c = '&' ∨ c = '|'
    let err : Bool :=
      st.syntaxError || (isOp && (cur1.children.isEmpty || st.nextExpressionNegates))
    let cur2 : Expression :=
      if isOp && !(cur1.children.isEmpty || st.nextExpressionNegates) &&
          (match lastValueChar cur1 with
           | none => false
           | some d => decide (c ≠ d)) then
        cur1.pushChild Expression.empty
      else cur1
    let cur3 : Expression :=
      match cur2 with
      | .mk v n cs => .mk v n (modifyBack (fun e => e.pushValue c) cs)
    { current := cur3
      parents := st.parents
      textStarted := true
      nextExpressionNegates := false
      syntaxError := err }

/-- The scanning loop of `evaluateExpression`: it stops at the first syntax error. -/
def scanLoop : Str → ScanState → ScanState
  | [], st => st
  | c :: cs, st => if st.syntaxError then st else scanLoop cs (scanStep st c)

/-- The first loop of `evaluateExpressionRecursive`: the type given to a node. -/
def exprType (e : Expression) : ExpressionType :=
  if e.value = "&&".toList then ExpressionType.EXPR_OPERATOR_AND
  else if e.value = "||".toList then ExpressionType.EXPR_OPERATOR_OR
  else if !e.children.isEmpty then ExpressionType.EXPR_OBJECT
  else ExpressionType.EXPR_VAR

/-- Whether a type is one of the two operators. -/
def ExpressionType.isOperator (t : ExpressionType) : Bool :=
  t = ExpressionType.EXPR_OPERATOR_OR ∨ t = ExpressionType.EXPR_OPERATOR_AND

/-- The third loop of `evaluateExpressionRecursive`: the fold of the operand results
from left to right, with the running value `retVal` and the latched mode `andMode`. -/
def foldResults : List Expression → List Bool → Bool → Bool → Bool
  | [], _, retVal, _ => retVal
  | _ :: _, [], retVal, _ => retVal
  | e :: es, r :: rs, retVal, andMode =>
    if exprType e = ExpressionType.EXPR_OPERATOR_OR then foldResults es rs retVal false
    else if exprType e = ExpressionType.EXPR_OPERATOR_AND then foldResults es rs retVal true
    else
      let v : Bool := if e.negated then !r else r
      if andMode then foldResults es rs (retVal && v) andMode
      else foldResults es rs (retVal || v) andMode

mutual
/-- The second loop of `evaluateExpressionRecursive`: the field `result` of every node,
in order, and the error flag; the loop stops at the first error. -/
def evaluateOperands (properties : PropertyMap) :
    List Expression → Bool → Bool → List Bool × Bool
  | [], _, syntaxError => ([], syntaxError)
  | exp :: rest, lastExpWasOperator, syntaxError =>
    if syntaxError then ([], syntaxError)
    else
      let t := exprType exp
      if (t.isOperator && lastExpWasOperator) || (!t.isOperator && !lastExpWasOperator) then
        ([], true)
      else if t.isOperator then
        match evaluateOperands properties rest true syntaxError with
        | (rs, err) => (false :: rs, err)
      else if t = ExpressionType.EXPR_VAR then
        match evaluateOperands properties rest false syntaxError with
        | (rs, err) => (decide (getProperty properties exp.value ≠ 0) :: rs, err)
      else
        match evaluateChildren properties exp syntaxError with
        | (r, err1) =>
          match evaluateOperands properties rest false err1 with
          | (rs, err) => (r :: rs, err)
/-- The recursive call `evaluateExpressionRecursive(exp.children, syntaxError, properties)`
of the second loop: the three loops on the children of the node. -/
def evaluateChildren (properties : PropertyMap) : Expression → Bool → Bool × Bool
  | .mk _ _ children, outSyntaxError =>
    match evaluateOperands properties children true outSyntaxError with
    | (results, syntaxError) =>
      (if syntaxError then true else foldResults children results true true, syntaxError)
end

/-- The function `ShaderGenerator::evaluateExpressionRecursive`: the value of the sibling
list and the error flag on return. -/
def evaluateExpressionRecursive (properties : PropertyMap) (expression : List Expression)
    (outSyntaxError : Bool) : Bool × Bool :=
  match evaluateOperands properties expression true outSyntaxError with
  | (results, syntaxError) =>
    (if syntaxError then true else foldResults expression results true true, syntaxError)

/-- The function `ShaderGenerator::evaluateExpression`. Returns the value, the advanced
view and the error flag; when no closing parenthesis is found the view is left as it
was. -/
def evaluateExpression (outSubString : SubStringRef) (properties : PropertyMap) :
    Bool × SubStringRef × Bool :=
  match evaluateExpressionEnd outSubString with
  | none => (false, outSubString, true)
  | some expEnd =>
    let subString : SubStringRef :=
      ⟨outSubString.mOriginal, outSubString.getStart, outSubString.getStart + expEnd⟩
    let st := scanLoop subString.content
      { current := Expression.empty, parents := [], textStarted := false,
        nextExpressionNegates := false, syntaxError := false }
    let syntaxError : Bool := st.syntaxError || !st.parents.isEmpty
    let r : Bool × Bool :=
      if syntaxError then (false, syntaxError)
      else evaluateExpressionRecursive properties [st.current] syntaxError
    (r.1, SubStringRef.fromStart outSubString.mOriginal (outSubString.getStart + expEnd + 1),
      r.2)

/-! ## Property arithmetic -/

/-- The function `setOp`. -/
def setOp (_op1 op2 : Int) : Option Int := some op2

/-- The function `addOp`. -/
def addOp (op1 op2 : Int) : Option Int := some (wrapInt32 (op1 + op2))

/-- The function `subOp`. -/
def subOp (op1 op2 : Int) : Option Int := some (wrapInt32 (op1 - op2))

/-- The function `mulOp`. -/
def mulOp (op1 op2 : Int) : Option Int := some (wrapInt32 (op1 * op2))

/-- The function `divOp`, `op1 / op2` on `int`; the division truncates toward zero. The
expression has no defined value for a zero divisor and for `INT_MIN / -1`, whose quotient
is not an `int`: both are runtime faults, `none`. -/
def divOp (op1 op2 : Int) : Option Int :=
  if op2 = 0 ∨ (op1 = INT_MIN ∧ op2 = -1) then none
  else some (wrapInt32 (Int.tdiv op1 op2))

/-- The function `modOp`, `op1 % op2` on `int`; the remainder has the sign of the
dividend. The expression has no defined value where `op1 / op2` has none, for a zero
divisor and for `INT_MIN % -1`: both are runtime faults, `none`. -/
def modOp (op1 op2 : Int) : Option Int :=
  if op2 = 0 ∨ (op1 = INT_MIN ∧ op2 = -1) then none
  else some (wrapInt32 (Int.tmod op1 op2))

/-- The structure `Operation`; a null `opFunc` is `none`. -/
structure Operation where
  opName : Str
  length : Nat
  opFunc : Option (Int → Int → Option Int)

/-- The table `c_operations`; `sizeof("@pset")` is 6. -/
def c_operations : List Operation :=
  [⟨"pset".toList, 6, some setOp⟩, ⟨"padd".toList, 6, some addOp⟩,
   ⟨"psub".toList, 6, some subOp⟩, ⟨"pmul".toList, 6, some mulOp⟩,
   ⟨"pdiv".toList, 6, some divOp⟩, ⟨"pmod".toList, 6, some modOp⟩]

/-- The table `c_counterOperations`. -/
def c_counterOperations : List Operation :=
  [⟨"counter".toList, 9, none⟩, ⟨"value".toList, 7, none⟩,
   ⟨"set".toList, 5, some setOp⟩, ⟨"add".toList, 5, some addOp⟩,
   ⟨"sub".toList, 5, some subOp⟩, ⟨"mul".toList, 5, some mulOp⟩,
   ⟨"div".toList, 5, some divOp⟩, ⟨"mod".toList, 5, some modOp⟩]

/-- The `for` loop over an operation table: the index of the first operation whose name
equals the view `keywordStr`; `i` is the index of the head of the list. -/
def matchKeyword (keywordStr : SubStringRef) : List Operation → Nat → Option Nat
  | [], _ => none
  | op :: rest, i =>
    if keywordStr.matchEqual op.opName then some i else matchKeyword keywordStr rest (i + 1)

/-- The sentinel `-std::numeric_limits<int>::max()`. -/
def notANumber : Int := -INT_MAX

/-- The arithmetic branch shared by `parseMath` and `parseCounter`: with two or three
arguments, the new property map. -/
def applyOperation (op : Operation) (argValues : List Str) (properties : PropertyMap) :
    Option PropertyMap :=
  match argValues.get? 0 with
  | none => none
  | some dstProperty =>
    let idx : Nat := if argValues.length = 3 then 2 else 1
    match (if argValues.length = 3 then argValues.get? 1 else some dstProperty),
        argValues.get? idx with
    | some srcProperty, some arg =>
      let op1Value := getProperty properties srcProperty
      let parsed := parseInt arg notANumber
      let op2Value := if parsed = notANumber then getProperty properties arg else parsed
      match op.opFunc with
      | none => none
      | some f =>
        match f op1Value op2Value with
        | none => none
        | some result => some (setProperty properties dstProperty result)
    | _, _ => none

/-- What a pass hands back: the error flag it returns, the output buffer and the
property map after the pass. -/
structure PassResult where
  syntaxError : Bool
  outBuffer : Str
  properties : PropertyMap

/-! ## parseMath -/

/-- The keyword search of `parseMath` (it occurs twice in the source, before the main
loop and at the end of each turn): starting from the `@` at offset `pos`, the offset of
the first `@` that is followed by an operation name, and the index of that operation. -/
def parseMathScan (inBuffer : Str) (subString : SubStringRef) :
    Nat → Option Nat → Option (Option Nat × Option Nat)
  | 0, _ => none
  | _ + 1, none => some (none, none)
  | fuel + 1, some pos =>
    let maxSize : Nat :=
      match subString.findFirstOf (" \t(".toList) (pos + 1) with
      | none => subString.getSize
      | some m => m
    let keywordStr : SubStringRef :=
      ⟨inBuffer, subString.getStart + pos + 1, subString.getStart + maxSize⟩
    match matchKeyword keywordStr c_operations 0 with
    | some i => some (some pos, some i)
    | none => parseMathScan inBuffer subString fuel (subString.find ("@".toList) (pos + 1))

/-- The main loop of `parseMath`. -/
def parseMathLoop (inBuffer : Str) :
    Nat → SubStringRef → Option Nat → Option Nat → List Str → PropertyMap → Str → Bool →
      Option (SubStringRef × PassResult)
  | 0, _, _, _, _, _, _, _ => none
  | _ + 1, subString, none, _, _, properties, outBuffer, syntaxError =>
    some (subString, ⟨syntaxError, outBuffer, properties⟩)
  | fuel + 1, subString, some pos, keyword, argValues, properties, outBuffer, syntaxError =>
    if syntaxError then some (subString, ⟨syntaxError, outBuffer, properties⟩)
    else
      match keyword.bind c_operations.get? with
      | none => none
      | some op =>
        let outBuffer1 := outBuffer ++ copy subString pos
        let subString1 := subString.setStart (subString.getStart + pos + op.length)
        match evaluateParamArgs subString1 argValues with
        | (subString2, argValues2, err) =>
          let syntaxError2 : Bool :=
            err || decide (argValues2.length < 2) || decide (argValues2.length > 3)
          match (if syntaxError2 then some properties
                 else applyOperation op argValues2 properties) with
          | none => none
          | some properties2 =>
            match parseMathScan inBuffer subString2 (inBuffer.length + 1)
                (subString2.find ("@".toList) 0) with
            | none => none
            | some (pos2, keyword2) =>
              parseMathLoop inBuffer fuel subString2 pos2 keyword2 argValues2 properties2
                outBuffer1 syntaxError2

/-- The function `ShaderGenerator::parseMath`. -/
def parseMath (inBuffer : Str) (properties : PropertyMap) : Option PassResult :=
  let subString := SubStringRef.fromStart inBuffer 0
  match parseMathScan inBuffer subString (inBuffer.length + 1)
      (subString.find ("@".toList) 0) with
  | none => none
  | some (pos, keyword) =>
    match parseMathLoop inBuffer (inBuffer.length + 1) subString pos keyword [] properties
        [] false with
    | none => none
    | some (subString2, r) =>
      some { r with outBuffer := r.outBuffer ++ copy subString2 subString2.getSize }

/-! ## parseForEach -/

/-- The loop `for (int i = start; i < count; ++i) repeat(...)` of `parseForEach`, with
`n` turns left. -/
def forEachRepeat (blockSubString : SubStringRef) (counterVar : Str) :
    Nat → Int → Str → Option Str
  | 0, _, outBuffer => some outBuffer
  | n + 1, i, outBuffer =>
    match repeatBlock outBuffer blockSubString blockSubString.getSize (toSizeT i)
        counterVar with
    | none => none
    | some outBuffer1 => forEachRepeat blockSubString counterVar n (i + 1) outBuffer1

/-- The bound of `@foreach` given by an argument: the number `strtol` reads, or the
value of the property of that name when the argument does not start with a number. -/
def forEachBound (arg : Str) (properties : PropertyMap) : Int :=
  match strtol arg with
  | some v => v
  | none => getProperty properties arg

/-- The main loop of `parseForEach`. -/
def parseForEachLoop (properties : PropertyMap) :
    Nat → SubStringRef → Option Nat → List Str → Str → Bool →
      Option (SubStringRef × Str × Bool)
  | 0, _, _, _, _, _ => none
  | _ + 1, subString, none, _, outBuffer, syntaxError =>
    some (subString, outBuffer, syntaxError)
  | fuel + 1, subString, some pos, argValues, outBuffer, syntaxError =>
    if syntaxError then some (subString, outBuffer, syntaxError)
    else
      let outBuffer1 := outBuffer ++ copy subString pos
      let subString1 := subString.setStart (subString.getStart + pos + 9)
      match evaluateParamArgs subString1 argValues with
      | (subString2, argValues2, err) =>
        match findBlockEnd subString2 err with
        | none => none
        | some (blockSubString, syntaxError2) =>
          match (if syntaxError2 then some outBuffer1
                 else
                   match argValues2.get? 0, argValues2.get? 1, argValues2.get? 2 with
                   | some counterVar, some arg1, some arg2 =>
                     let start := forEachBound arg1 properties
                     let count := forEachBound arg2 properties
                     forEachRepeat blockSubString counterVar (count - start).toNat start
                       outBuffer1
                   | _, _, _ => none) with
          | none => none
          | some outBuffer2 =>
            let subString3 := subString2.setStart (blockSubString.getEnd + 5)
            parseForEachLoop properties fuel subString3
              (subString3.find ("@foreach".toList) 0) argValues2 outBuffer2 syntaxError2

/-- The function `ShaderGenerator::parseForEach`. -/
def parseForEach (inBuffer : Str) (properties : PropertyMap) : Option PassResult :=
  let subString := SubStringRef.fromStart inBuffer 0
  match parseForEachLoop properties (inBuffer.length + 1) subString
      (subString.find ("@foreach".toList) 0) [] [] false with
  | none => none
  | some (subString2, outBuffer, syntaxError) =>
    some ⟨syntaxError, outBuffer ++ copy subString2 subString2.getSize, properties⟩

/-! ## parseProperties -/

/-- The first loop of `parseProperties`. -/
def parsePropertiesLoop (properties : PropertyMap) :
    Nat → SubStringRef → Option Nat → Str → Bool → Option (SubStringRef × Str × Bool)
  | 0, _, _, _, _ => none
  | _ + 1, subString, none, outBuffer, syntaxError =>
    some (subString, outBuffer, syntaxError)
  | fuel + 1, subString, some pos, outBuffer, syntaxError =>
    if syntaxError then some (subString, outBuffer, syntaxError)
    else
      let outBuffer1 := outBuffer ++ copy subString pos
      let subString1 := subString.setStart (subString.getStart + pos + 10)
      match evaluateExpression subString1 properties with
      | (result, subString2, err) =>
        match findBlockEnd subString2 err with
        | none => none
        | some (blockSubString, syntaxError2) =>
          let outBuffer2 :=
            if result && !syntaxError2 then
              outBuffer1 ++ copy blockSubString blockSubString.getSize
            else outBuffer1
          let subString3 := subString2.setStart (blockSubString.getEnd + 4)
          parsePropertiesLoop properties fuel subString3
            (subString3.find ("@property".toList) 0) outBuffer2 syntaxError2

/-- One pass of `parseProperties` over `inBuffer`, up to the final `copy`: the output
buffer and the error flag before the closing `while` loop. -/
def parsePropertiesPass (inBuffer : Str) (properties : PropertyMap) : Option (Str × Bool) :=
  let subString := SubStringRef.fromStart inBuffer 0
  match parsePropertiesLoop properties (inBuffer.length + 1) subString
      (subString.find ("@property".toList) 0) [] false with
  | none => none
  | some (subString2, outBuffer, syntaxError) =>
    some (outBuffer ++ copy subString2 subString2.getSize, syntaxError)

mutual
/-- The function `ShaderGenerator::parseProperties`, with `fuel` bounding the depth of
its recursion. The buffer it swaps into `inBuffer` is not returned: every caller clears
that buffer before reading it. -/
def parseProperties : Nat → Str → PropertyMap → Option PassResult
  | 0, _, _ => none
  | fuel + 1, inBuffer, properties =>
    match parsePropertiesPass inBuffer properties with
    | none => none
    | some (outBuffer, syntaxError) =>
      parsePropertiesWhile fuel outBuffer syntaxError properties
/-- The closing `while` loop of `parseProperties`, which calls `parseProperties` again on
the output while it holds `@property` and no error was found. -/
def parsePropertiesWhile : Nat → Str → Bool → PropertyMap → Option PassResult
  | 0, outBuffer, syntaxError, properties =>
    if !syntaxError && (strFind outBuffer ("@property".toList) 0).isSome then none
    else some ⟨syntaxError, outBuffer, properties⟩
  | fuel + 1, outBuffer, syntaxError, properties =>
    if !syntaxError && (strFind outBuffer ("@property".toList) 0).isSome then
      match parseProperties fuel outBuffer properties with
      | none => none
      | some r => parsePropertiesWhile fuel r.outBuffer r.syntaxError properties
    else some ⟨syntaxError, outBuffer, properties⟩
end

/-! ## collectPieces -/

/-- The main loop of `collectPieces`. -/
def collectPiecesLoop :
    Nat → SubStringRef → Option Nat → List Str → PiecesMap → Str → Bool →
      Option (SubStringRef × PiecesMap × Str × Bool)
  | 0, _, _, _, _, _, _ => none
  | _ + 1, subString, none, _, pieces, outBuffer, syntaxError =>
    some (subString, pieces, outBuffer, syntaxError)
  | fuel + 1, subString, some pos, argValues, pieces, outBuffer, syntaxError =>
    if syntaxError then some (subString, pieces, outBuffer, syntaxError)
    else
      let outBuffer1 := outBuffer ++ copy subString pos
      let subString1 := subString.setStart (subString.getStart + pos + 7)
      match evaluateParamArgs subString1 argValues with
      | (subString2, argValues2, err) =>
        let syntaxError2 : Bool := err || decide (argValues2.length ≠ 1)
        if syntaxError2 then
          collectPiecesLoop fuel subString2 (subString2.find ("@piece".toList) 0) argValues2
            pieces outBuffer1 syntaxError2
        else
          match argValues2.get? 0 with
          | none => none
          | some pieceName =>
            if (pieces pieceName).isSome then
              collectPiecesLoop fuel subString2 (subString2.find ("@piece".toList) 0)
                argValues2 pieces outBuffer1 true
            else
              match findBlockEnd subString2 syntaxError2 with
              | none => none
              | some (blockSubString, syntaxError3) =>
                let tmpBuffer := copy blockSubString blockSubString.getSize
                let subString3 := subString2.setStart (blockSubString.getEnd + 5)
                collectPiecesLoop fuel subString3 (subString3.find ("@piece".toList) 0)
                  argValues2 (insertPiece pieces pieceName tmpBuffer) outBuffer1 syntaxError3

/-- What `collectPieces` hands back: the error flag, the output buffer and the piece
library after the pass. -/
structure PiecesResult where
  syntaxError : Bool
  outBuffer : Str
  pieces : PiecesMap

/-- The function `ShaderGenerator::collectPieces`. -/
def collectPieces (inBuffer : Str) (pieces : PiecesMap) : Option PiecesResult :=
  let subString := SubStringRef.fromStart inBuffer 0
  match collectPiecesLoop (inBuffer.length + 1) subString
      (subString.find ("@piece".toList) 0) [] pieces [] false with
  | none => none
  | some (subString2, pieces2, outBuffer, syntaxError) =>
    some ⟨syntaxError, outBuffer ++ copy subString2 subString2.getSize, pieces2⟩

/-! ## insertPieces -/

/-- The first loop of `insertPieces`. -/
def insertPiecesLoop (pieces : PiecesMap) :
    Nat → SubStringRef → Option Nat → List Str → Str → Bool →
      Option (SubStringRef × Str × Bool)
  | 0, _, _, _, _, _ => none
  | _ + 1, subString, none, _, outBuffer, syntaxError =>
    some (subString, outBuffer, syntaxError)
  | fuel + 1, subString, some pos, argValues, outBuffer, syntaxError =>
    if syntaxError then some (subString, outBuffer, syntaxError)
    else
      let outBuffer1 := outBuffer ++ copy subString pos
      let subString1 := subString.setStart (subString.getStart + pos + 13)
      match evaluateParamArgs subString1 argValues with
      | (subString2, argValues2, err) =>
        let syntaxError2 : Bool := err || decide (argValues2.length ≠ 1)
        match (if syntaxError2 then some outBuffer1
               else
                 match argValues2.get? 0 with
                 | none => none
                 | some pieceName =>
                   match pieces pieceName with
                   | some body => some (outBuffer1 ++ body)
                   | none => some outBuffer1) with
        | none => none
        | some outBuffer2 =>
          insertPiecesLoop pieces fuel subString2 (subString2.find ("@insertpiece".toList) 0)
            argValues2 outBuffer2 syntaxError2

/-- One pass of `insertPieces` over `inBuffer`, up to the final `copy`. -/
def insertPiecesPass (inBuffer : Str) (pieces : PiecesMap) : Option (Str × Bool) :=
  let subString := SubStringRef.fromStart inBuffer 0
  match insertPiecesLoop pieces (inBuffer.length + 1) subString
      (subString.find ("@insertpiece".toList) 0) [] [] false with
  | none => none
  | some (subString2, outBuffer, syntaxError) =>
    some (outBuffer ++ copy subString2 subString2.getSize, syntaxError)

mutual
/-- The function `ShaderGenerator::insertPieces`, with `fuel` bounding the depth of its
recursion: the error flag and the output buffer. -/
def insertPieces : Nat → Str → PiecesMap → Option (Bool × Str)
  | 0, _, _ => none
  | fuel + 1, inBuffer, pieces =>
    match insertPiecesPass inBuffer pieces with
    | none => none
    | some (outBuffer, syntaxError) => insertPiecesWhile fuel outBuffer syntaxError pieces
/-- The closing `while` loop of `insertPieces`. -/
def insertPiecesWhile : Nat → Str → Bool → PiecesMap → Option (Bool × Str)
  | 0, outBuffer, syntaxError, _ =>
    if !syntaxError && (strFind outBuffer ("@insertpiece".toList) 0).isSome then none
    else some (syntaxError, outBuffer)
  | fuel + 1, outBuffer, syntaxError, pieces =>
    if !syntaxError && (strFind outBuffer ("@insertpiece".toList) 0).isSome then
      match insertPieces fuel outBuffer pieces with
      | none => none
      | some r => insertPiecesWhile fuel r.2 r.1 pieces
    else some (syntaxError, outBuffer)
end

/-! ## parseCounter -/

/-- The keyword test of `parseCounter` (it occurs twice in the source): only the first
`@` of the view is looked at, and `maxSize` is used as `findFirstOf` returns it. -/
def parseCounterScan (inBuffer : Str) (subString : SubStringRef) : Option Nat × Option Nat :=
  match subString.find ("@".toList) 0 with
  | none => (none, none)
  | some pos =>
    let maxSize : Nat :=
      match subString.findFirstOf (" \t(".toList) (pos + 1) with
      | none => npos
      | some m => m
    let keywordStr : SubStringRef :=
      ⟨inBuffer, subString.getStart + pos + 1,
        (subString.getStart + maxSize) % 18446744073709551616⟩
    match matchKeyword keywordStr c_counterOperations 0 with
    | some i => (some pos, some i)
    | none => (none, none)

/-- The main loop of `parseCounter`. -/
def parseCounterLoop (inBuffer : Str) :
    Nat → SubStringRef → Option Nat → Option Nat → List Str → PropertyMap → Str → Bool →
      Option (SubStringRef × PassResult)
  | 0, _, _, _, _, _, _, _ => none
  | _ + 1, subString, none, _, _, properties, outBuffer, syntaxError =>
    some (subString, ⟨syntaxError, outBuffer, properties⟩)
  | fuel + 1, subString, some pos, keyword, argValues, properties, outBuffer, syntaxError =>
    if syntaxError then some (subString, ⟨syntaxError, outBuffer, properties⟩)
    else
      match keyword, keyword.bind c_counterOperations.get? with
      | some kw, some op =>
        let outBuffer1 := outBuffer ++ copy subString pos
        let subString1 := subString.setStart (subString.getStart + pos + op.length)
        match evaluateParamArgs subString1 argValues with
        | (subString2, argValues2, err) =>
          let syntaxError2 : Bool :=
            if kw ≤ 1 then err || decide (argValues2.length ≠ 1)
            else err || decide (argValues2.length < 2) || decide (argValues2.length > 3)
          match (if syntaxError2 then some (outBuffer1, properties)
                 else if argValues2.length = 1 then
                   match argValues2.get? 0 with
                   | none => none
                   | some dstProperty =>
                     let op1Value := getProperty properties dstProperty
                     some (outBuffer1 ++ decimalInt op1Value,
                       if kw = 0 then setProperty properties dstProperty (wrapInt32 (op1Value + 1))
                       else properties)
                 else
                   match applyOperation op argValues2 properties with
                   | none => none
                   | some properties2 => some (outBuffer1, properties2)) with
          | none => none
          | some (outBuffer2, properties2) =>
            match parseCounterScan inBuffer subString2 with
            | (pos2, keyword2) =>
              parseCounterLoop inBuffer fuel subString2 pos2 keyword2 argValues2 properties2
                outBuffer2 syntaxError2
      | _, _ => none

/-- The function `ShaderGenerator::parseCounter`. -/
def parseCounter (inBuffer : Str) (properties : PropertyMap) : Option PassResult :=
  let subString := SubStringRef.fromStart inBuffer 0
  match parseCounterScan inBuffer subString with
  | (pos, keyword) =>
    match parseCounterLoop inBuffer (inBuffer.length + 1) subString pos keyword [] properties
        [] false with
    | none => none
    | some (subString2, r) =>
      some { r with outBuffer := r.outBuffer ++ copy subString2 subString2.getSize }

/-! ## parse -/

/-- The loop of `parse` over the piece files; the error flags of the passes are not
looked at. -/
def parsePieceFiles (fuel : Nat) :
    List Str → PropertyMap → PiecesMap → Option (PropertyMap × PiecesMap)
  | [], properties, pieces => some (properties, pieces)
  | file :: rest, properties, pieces =>
    match parseMath file properties with
    | none => none
    | some r1 =>
      match parseForEach r1.outBuffer r1.properties with
      | none => none
      | some r2 =>
        match parseProperties fuel r2.outBuffer r2.properties with
        | none => none
        | some r3 =>
          match collectPieces r3.outBuffer pieces with
          | none => none
          | some r4 => parsePieceFiles fuel rest r3.properties r4.pieces

/-- The function `ShaderGenerator::parse`: the returned text and the property map
afterwards. The error flags of the passes are not looked at. `fuel` bounds the recursion
of `parseProperties` and `insertPieces`. -/
def parse (fuel : Nat) (inBuffer : Str) (properties : PropertyMap) (pieceFiles : List Str) :
    Option (Str × PropertyMap) :=
  match parsePieceFiles fuel pieceFiles properties emptyPieces with
  | none => none
  | some (properties0, pieces) =>
    match parseMath inBuffer properties0 with
    | none => none
    | some r1 =>
      match parseForEach r1.outBuffer r1.properties with
      | none => none
      | some r2 =>
        match parseProperties fuel r2.outBuffer r2.properties with
        | none => none
        | some r3 =>
          match collectPieces r3.outBuffer pieces with
          | none => none
          | some r4 =>
            match insertPieces fuel r4.outBuffer r4.pieces with
            | none => none
            | some r5 =>
              match parseCounter r5.2 r3.properties with
              | none => none
              | some r6 => some (r6.outBuffer, r6.properties)

/-! ## Vocabulary of the claims -/

/-- Whether `c` may occur in a property or piece name: it is not white space and not one
of `(`, `)`, `!`, `&`, `|`, `@`, `,`. -/
def isNameChar (c : Char) : Bool :=
  !(c == ' ' || c == '\t' || c == '\n' || c == '\r' || c == '(' || c == ')' || c == '!' ||
    c == '&' || c == '|' || c == '@' || c == ',')

/-- A property or piece name: a non-empty text of name bytes. -/
def isName (s : Str) : Bool := !s.isEmpty && s.all isNameChar

/-- Every `@` of the text is followed by a text that satisfies `p`. -/
def atAll (p : Str → Bool) : Str → Bool
  | [] => true
  | c :: rest => (c != '@' || p rest) && atAll p rest

/-- The text does not start with the two bytes that start a name of `c_operations`. -/
def noMathAt : Str → Bool
  | 'p' :: c :: _ => !(c == 's' || c == 'a' || c == 'm' || c == 'd')
  | _ => true

/-- Whether `c` may occur in a property name inside an expression: it is not white space
and not one of `(`, `)`, `!`, `&`, `|`. -/
def isExprNameChar (c : Char) : Bool :=
  !(c == ' ' || c == '\t' || c == '\n' || c == '\r' || c == '(' || c == ')' || c == '!' ||
    c == '&' || c == '|')

/-- A property name inside an expression: a non-empty text of such bytes. -/
def isExprName (s : Str) : Bool := !s.isEmpty && s.all isExprNameChar

/-- A non-empty run of white space. -/
def isSpaces (s : Str) : Bool := !s.isEmpty && s.all isWhite

/-- The expressions of the reference evaluator. A `name` or a `group`, each with an
optional `!` in front, is an operand; `seq left ws1 isAnd ws2 right` is the sibling list
`left`, white space, the operator `&&` or `||`, white space, and one more operand. -/
inductive BoolExpr where
  | name (negated : Bool) (text : Str)
  | group (negated : Bool) (body : BoolExpr)
  | seq (left : BoolExpr) (ws1 : Str) (isAnd : Bool) (ws2 : Str) (right : BoolExpr)

namespace BoolExpr

/-- Whether the expression is a single operand. -/
def isOperand : BoolExpr → Bool
  | seq _ _ _ _ _ => false
  | _ => true

/-- The shape `operand (operator operand)*` at every level, with names made of name bytes
and operators set off by white space. -/
def wellFormed : BoolExpr → Bool
  | name _ text => isExprName text
  | group _ body => body.wellFormed
  | seq left ws1 _ ws2 right =>
    left.wellFormed && isSpaces ws1 && isSpaces ws2 && right.isOperand && right.wellFormed

/-- The text of the expression. -/
def render : BoolExpr → Str
  | name negated text => (if negated then ['!'] else []) ++ text
  | group negated body => (if negated then ['!'] else []) ++ '(' :: (render body ++ [')'])
  | seq left ws1 isAnd ws2 right =>
    render left ++ (ws1 ++ ((if isAnd then "&&".toList else "||".toList) ++ (ws2 ++ render right)))

/-- The reference evaluator, without operator precedence: a name is true when its property
is not 0, a group has the value of its contents, `!` flips its operand, and siblings are
folded from left to right. -/
def eval (properties : PropertyMap) : BoolExpr → Bool
  | name negated text =>
    if negated then !decide (getProperty properties text ≠ 0)
    else decide (getProperty properties text ≠ 0)
  | group negated body => if negated then !(eval properties body) else eval properties body
  | seq left _ isAnd _ right =>
    if isAnd then eval properties left && eval properties right
    else eval properties left || eval properties right

/-- The sibling nodes the scanning loop of `evaluateExpression` builds for the
expression. -/
def nodes : BoolExpr → List Expression
  | name negated text => [.mk text negated []]
  | group negated body => [.mk [] negated (nodes body)]
  | seq left _ isAnd _ right =>
    nodes left ++ (.mk (if isAnd then "&&".toList else "||".toList) false [] :: nodes right)

/-- The field `result` of each sibling node after the second loop of
`evaluateExpressionRecursive`. -/
def results (properties : PropertyMap) : BoolExpr → List Bool
  | name _ text => [decide (getProperty properties text ≠ 0)]
  | group _ body => [eval properties body]
  | seq left _ _ _ right => results properties left ++ (false :: results properties right)

/-- Whether the text of the expression ends with a name. -/
def endsWithName : BoolExpr → Bool
  | name _ _ => true
  | group _ _ => false
  | seq _ _ _ _ right => endsWithName right

/-- The mode latched by the last operator of the expression. -/
def lastMode : BoolExpr → Bool
  | seq _ _ isAnd _ _ => isAnd
  | _ => true

end BoolExpr

/-- The text of an argument list: the arguments joined by a comma and a blank. -/
def argsText : List Str → Str
  | [] => []
  | [a] => a
  | a :: b :: rest => a ++ (", ".toList ++ argsText (b :: rest))

/-- The name of the operation of index `k` in `c_operations`. -/
def mathName (k : Nat) : Str :=
  match c_operations.get? k with
  | some op => op.opName
  | none => []

/-- The arithmetic of the operation of index `k` in `c_operations` on unbounded integers:
the second operand, sum, difference, product, quotient truncated toward zero, and
remainder with the sign of the dividend. -/
def mathFunction (k : Nat) (a b : Int) : Int :=
  match k with
  | 0 => b
  | 1 => a + b
  | 2 => a - b
  | 3 => a * b
  | 4 => Int.tdiv a b
  | _ => Int.tmod a b

/-- Whether `x` is a value of the type `int`. -/
def inInt32 (x : Int) : Prop := INT_MIN ≤ x ∧ x ≤ INT_MAX

/-- The name of the operation of index `k` in `c_counterOperations`. -/
def counterName (k : Nat) : Str :=
  match c_counterOperations.get? k with
  | some op => op.opName
  | none => []

/-- The text ends with `@foreach`, `@property` or `@piece`. -/
def endsWithOpener (text : Str) : Prop :=
  ∃ name ∈ blockNames, ('@' :: name) <:+ text

/-- The number of places of the text at which `needle` occurs. -/
def countOccurrences (needle : Str) : Str → Nat
  | [] => 0
  | c :: cs => (if startsWith (c :: cs) needle then 1 else 0) + countOccurrences needle cs

/-- A part of a structured text: text without directives, or one complete
`@insertpiece(name)` directive. -/
inductive Segment
  | text (t : Str)
  | directive (name : Str)
  deriving DecidableEq

/-- The bytes of a segment. -/
def Segment.render : Segment → Str
  | .text t => t
  | .directive name => "@insertpiece(".toList ++ (name ++ [')'])

/-- The bytes of a list of segments. -/
def renderSegments : List Segment → Str
  | [] => []
  | s :: rest => s.render ++ renderSegments rest

/-- A text segment holds no `@`; a directive names a piece by a name. -/
def Segment.wellFormed : Segment → Bool
  | .text t => !t.contains '@'
  | .directive name => isName name

/-- Every segment of the list is well formed. -/
def segmentsWellFormed (segs : List Segment) : Bool := segs.all Segment.wellFormed

/-- The segments with every directive replaced by the body of the piece it names, by
nothing when no piece has that name. -/
def expandSegments (pieces : PiecesMap) : List Segment → Str
  | [] => []
  | .text t :: rest => t ++ expandSegments pieces rest
  | .directive name :: rest => (pieces name).getD [] ++ expandSegments pieces rest

/-- The same replacement on the level of segments, when `bodySegments name` gives the
segments of the body of the piece `name`. -/
def substituteSegments (pieces : PiecesMap) (bodySegments : Str → List Segment) :
    List Segment → List Segment
  | [] => []
  | .text t :: rest => .text t :: substituteSegments pieces bodySegments rest
  | .directive name :: rest =>
    (if (pieces name).isSome then bodySegments name else []) ++
      substituteSegments pieces bodySegments rest

/-- One more than the largest rank of a registered piece named by a directive of the
list, 0 when no directive names a registered piece. -/
def segmentsLevel (pieces : PiecesMap) (rank : Str → Nat) : List Segment → Nat
  | [] => 0
  | .text _ :: rest => segmentsLevel pieces rank rest
  | .directive name :: rest =>
    max (if (pieces name).isSome then rank name + 1 else 0) (segmentsLevel pieces rank rest)

/-- The piece library is structured and its reference graph has no cycle: the body of
every piece is the text of the well-formed segments `bodySegments` gives for it, and
`rank` decreases from a piece to every registered piece that a directive of its body
names. -/
def structuredPieces (pieces : PiecesMap) (rank : Str → Nat)
    (bodySegments : Str → List Segment) : Prop :=
  ∀ p body, pieces p = some body →
    body = renderSegments (bodySegments p) ∧ segmentsWellFormed (bodySegments p) = true ∧
    ∀ q, Segment.directive q ∈ bodySegments p → (pieces q).isSome = true → rank q < rank p

/-- A piece library with a chain of references: `a` holds `x@insertpiece(b)y` and `b`
holds `z`. -/
def chainPieces : PiecesMap :=
  insertPiece (insertPiece emptyPieces ['b'] ['z']) ['a'] "x@insertpiece(b)y".toList

/-- A rank for `chainPieces`. -/
def chainRank (name : Str) : Nat := if name = ['a'] then 1 else 0

/-- The segments of the bodies of `chainPieces`. -/
def chainBodySegments (name : Str) : List Segment :=
  if name = ['a'] then [.text ['x'], .directive ['b'], .text ['y']]
  else if name = ['b'] then [.text ['z']]
  else []

/-- The text `t` written `n` times in a row. -/
def repeatText : Nat → Str → Str
  | 0, _ => []
  | n + 1, t => t ++ repeatText n t

/-- The texts on which the successive passes of one call of `parseProperties` run, at
most `n` of them: `inBuffer` itself and then, as long as the condition of the closing
`while` loop holds (the pass returned no error and its output holds `@property`), the
output of the pass before, on which the function calls itself. A pass that does not
return ends the list. -/
def parsePropertiesInputs (properties : PropertyMap) : Nat → Str → List Str
  | 0, _ => []
  | n + 1, inBuffer =>
    inBuffer ::
      (match parsePropertiesPass inBuffer properties with
      | none => []
      | some (outBuffer, syntaxError) =>
        if !syntaxError && (strFind outBuffer ("@property".toList) 0).isSome then
          parsePropertiesInputs properties n outBuffer
        else [])

/-- What `parseProperties` returns when the last of its passes ran on the last text of
`inputs`: the error flag and the output of that pass, and nothing when that pass does not
return. -/
def lastPassResult (properties : PropertyMap) (inputs : List Str) : Option PassResult :=
  match inputs.getLast? with
  | none => none
  | some text =>
    (parsePropertiesPass text properties).map fun r => ⟨r.2, r.1, properties⟩

theorem startsWith_cons_ne {c n : Char} (h : c ≠ n) (cs ns : Str) :
    startsWith (c :: cs) (n :: ns) = false := by
  simp [startsWith, h]

theorem startsWith_append_self (n rest : Str) : startsWith (n ++ rest) n = true := by
  induction n with
  | nil => cases rest <;> simp [startsWith]
  | cons a n ih => simp [startsWith, ih]

theorem findAt_atFree (ns : Str) : ∀ (s : Str) (i : Nat), '@' ∉ s →
    findAt ('@' :: ns) s i = none
  | [], i, _ => by simp [findAt]
  | c :: cs, i, h => by
    have hc : c ≠ '@' := fun e => h (by simp [e])
    have hcs : '@' ∉ cs := fun e => h (by simp [e])
    simp [findAt, startsWith_cons_ne hc, findAt_atFree ns cs (i + 1) hcs]

theorem findAt_append_atFree (ns r : Str) : ∀ (p : Str) (i : Nat), '@' ∉ p →
    findAt ('@' :: ns) (p ++ r) i = findAt ('@' :: ns) r (i + p.length)
  | [], i, _ => by simp
  | c :: cs, i, h => by
    have hc : c ≠ '@' := fun e => h (by simp [e])
    have hcs : '@' ∉ cs := fun e => h (by simp [e])
    simp [findAt, startsWith_cons_ne hc, findAt_append_atFree ns r cs (i + 1) hcs]
    congr 1; omega

theorem findAt_hit (n rest : Str) (i : Nat) (hn : n ≠ []) :
    findAt n (n ++ rest) i = some i := by
  cases n with
  | nil => exact absurd rfl hn
  | cons a n =>
    have := startsWith_append_self (a :: n) rest
    simp only [List.cons_append] at this ⊢
    simp [findAt, this]

theorem findAt_ge (n : Str) : ∀ (s : Str) (i r : Nat), findAt n s i = some r → i ≤ r
  | [], i, r, h => by
    simp only [findAt] at h
    split at h <;> simp at h; omega
  | c :: cs, i, r, h => by
    simp only [findAt] at h
    split at h
    · simp at h; omega
    · have := findAt_ge n cs (i + 1) r h; omega

theorem findAt_lt (a : Char) (n : Str) : ∀ (s : Str) (i r : Nat),
    findAt (a :: n) s i = some r → r < i + s.length
  | [], i, r, h => by simp [findAt] at h
  | c :: cs, i, r, h => by
    simp only [findAt] at h
    split at h
    · simp at h; simp; omega
    · have := findAt_lt a n cs (i + 1) r h; simp; omega

theorem findAt_shift (n : Str) : ∀ (s : Str) (i : Nat),
    findAt n s i = (findAt n s 0).map (· + i)
  | [], i => by simp only [findAt]; split <;> simp
  | c :: cs, i => by
    simp only [findAt]
    split
    · simp
    · rw [findAt_shift n cs (i + 1), findAt_shift n cs (0 + 1)]
      cases findAt n cs 0 <;> simp; omega

/-! ## Lemmas on views -/

theorem drop_add_of_drop_eq {buf mid rest : Str} {st : Nat}
    (h : buf.drop st = mid ++ rest) : buf.drop (st + mid.length) = rest := by
  rw [← List.drop_drop, h]; simp

theorem le_length_of_drop_eq {buf mid rest : Str} {st : Nat} (hst : st ≤ buf.length)
    (h : buf.drop st = mid ++ rest) : st + mid.length ≤ buf.length := by
  have := congrArg List.length h
  simp at this; omega

theorem length_of_drop_eq {buf rest : Str} {st : Nat} (hst : st ≤ buf.length)
    (h : buf.drop st = rest) : buf.length = st + rest.length := by
  have := congrArg List.length h
  simp at this; omega

theorem find_fromStart {buf rest : Str} {st : Nat} (a : Char) (n : Str) (hst : st ≤ buf.length)
    (h : buf.drop st = rest) :
    (SubStringRef.fromStart buf st).find (a :: n) 0 = findAt (a :: n) rest 0 := by
  have hl := length_of_drop_eq hst h
  simp only [SubStringRef.find, SubStringRef.fromStart, strFind, Nat.add_zero]
  rw [if_neg (by omega), h, findAt_shift]
  cases hf : findAt (a :: n) rest 0 with
  | none => simp
  | some r =>
    have := findAt_lt a n rest 0 r hf
    simp; omega

theorem setStart_fromStart {buf : Str} {st n : Nat} (hn : n ≤ buf.length) :
    (SubStringRef.fromStart buf st).setStart n = SubStringRef.fromStart buf n := by
  simp [SubStringRef.setStart, SubStringRef.fromStart, hn]

theorem copy_fromStart {buf mid rest : Str} {st : Nat} (h : buf.drop st = mid ++ rest) :
    copy (SubStringRef.fromStart buf st) mid.length = mid := by
  simp [copy, SubStringRef.fromStart, h]

theorem copy_fromStart_all {buf rest : Str} {st : Nat} (hst : st ≤ buf.length)
    (h : buf.drop st = rest) :
    copy (SubStringRef.fromStart buf st) (SubStringRef.fromStart buf st).getSize = rest := by
  have hl := length_of_drop_eq hst h
  simp [copy, SubStringRef.fromStart, SubStringRef.getSize, h, hl]

theorem content_fromStart {buf rest : Str} {st : Nat} (hst : st ≤ buf.length)
    (h : buf.drop st = rest) : (SubStringRef.fromStart buf st).content = rest := by
  have hl := length_of_drop_eq hst h
  simp [SubStringRef.content, SubStringRef.fromStart, h, hl]

/-! ## Passes on text without their directive -/

theorem find_zero_fromStart_zero (buf : Str) (a : Char) (n : Str) :
    (SubStringRef.fromStart buf 0).find (a :: n) 0 = findAt (a :: n) buf 0 :=
  find_fromStart a n (Nat.zero_le _) rfl

theorem copy_all_fromStart_zero (buf : Str) :
    copy (SubStringRef.fromStart buf 0) (SubStringRef.fromStart buf 0).getSize = buf :=
  copy_fromStart_all (Nat.zero_le _) rfl

theorem strFind_zero (s n : Str) : strFind s n 0 = findAt n s 0 := by
  simp [strFind]

theorem parseMath_of_scan_none (buf : Str) (properties : PropertyMap)
    (h : parseMathScan buf (SubStringRef.fromStart buf 0) (buf.length + 1)
      ((SubStringRef.fromStart buf 0).find ("@".toList) 0) = some (none, none)) :
    parseMath buf properties = some ⟨false, buf, properties⟩ := by
  simp only [parseMath, h, parseMathLoop, copy_all_fromStart_zero, List.nil_append]

theorem parseMath_atFree (buf : Str) (properties : PropertyMap) (h : '@' ∉ buf) :
    parseMath buf properties = some ⟨false, buf, properties⟩ := by
  apply parseMath_of_scan_none
  have : (SubStringRef.fromStart buf 0).find ("@".toList) 0 = none := by
    show (SubStringRef.fromStart buf 0).find ('@' :: []) 0 = none
    rw [find_zero_fromStart_zero, findAt_atFree _ _ _ h]
  rw [this]; rfl

theorem parseForEach_of_find_none (buf : Str) (properties : PropertyMap)
    (h : findAt ("@foreach".toList) buf 0 = none) :
    parseForEach buf properties = some ⟨false, buf, properties⟩ := by
  have : (SubStringRef.fromStart buf 0).find ("@foreach".toList) 0 = none := by
    show (SubStringRef.fromStart buf 0).find ('@' :: "foreach".toList) 0 = none
    rw [find_zero_fromStart_zero]; exact h
  simp only [parseForEach, this, parseForEachLoop, copy_all_fromStart_zero, List.nil_append]

theorem parsePropertiesPass_of_find_none (buf : Str) (properties : PropertyMap)
    (h : findAt ("@property".toList) buf 0 = none) :
    parsePropertiesPass buf properties = some (buf, false) := by
  have : (SubStringRef.fromStart buf 0).find ("@property".toList) 0 = none := by
    show (SubStringRef.fromStart buf 0).find ('@' :: "property".toList) 0 = none
    rw [find_zero_fromStart_zero]; exact h
  simp only [parsePropertiesPass, this, parsePropertiesLoop, copy_all_fromStart_zero,
    List.nil_append]

theorem parsePropertiesWhile_of_find_none (fuel : Nat) (buf : Str) (err : Bool)
    (properties : PropertyMap) (h : findAt ("@property".toList) buf 0 = none) :
    parsePropertiesWhile fuel buf err properties = some ⟨err, buf, properties⟩ := by
  cases fuel <;>
    simp only [parsePropertiesWhile, strFind_zero, h, Option.isSome_none, Bool.and_false,
      Bool.false_eq_true, if_false]

theorem parseProperties_of_find_none (fuel : Nat) (buf : Str) (properties : PropertyMap)
    (h : findAt ("@property".toList) buf 0 = none) :
    parseProperties (fuel + 1) buf properties = some ⟨false, buf, properties⟩ := by
  simp only [parseProperties, parsePropertiesPass_of_find_none buf properties h,
    parsePropertiesWhile_of_find_none fuel buf false properties h]

theorem collectPieces_of_find_none (buf : Str) (pieces : PiecesMap)
    (h : findAt ("@piece".toList) buf 0 = none) :
    collectPieces buf pieces = some ⟨false, buf, pieces⟩ := by
  have : (SubStringRef.fromStart buf 0).find ("@piece".toList) 0 = none := by
    show (SubStringRef.fromStart buf 0).find ('@' :: "piece".toList) 0 = none
    rw [find_zero_fromStart_zero]; exact h
  simp only [collectPieces, this, collectPiecesLoop, copy_all_fromStart_zero, List.nil_append]

theorem insertPiecesPass_of_find_none (buf : Str) (pieces : PiecesMap)
    (h : findAt ("@insertpiece".toList) buf 0 = none) :
    insertPiecesPass buf pieces = some (buf, false) := by
  have : (SubStringRef.fromStart buf 0).find ("@insertpiece".toList) 0 = none := by
    show (SubStringRef.fromStart buf 0).find ('@' :: "insertpiece".toList) 0 = none
    rw [find_zero_fromStart_zero]; exact h
  simp only [insertPiecesPass, this, insertPiecesLoop, copy_all_fromStart_zero,
    List.nil_append]

theorem insertPiecesWhile_of_find_none (fuel : Nat) (buf : Str) (err : Bool)
    (pieces : PiecesMap) (h : findAt ("@insertpiece".toList) buf 0 = none) :
    insertPiecesWhile fuel buf err pieces = some (err, buf) := by
  cases fuel <;>
    simp only [insertPiecesWhile, strFind_zero, h, Option.isSome_none, Bool.and_false,
      Bool.false_eq_true, if_false]

theorem insertPieces_of_find_none (fuel : Nat) (buf : Str) (pieces : PiecesMap)
    (h : findAt ("@insertpiece".toList) buf 0 = none) :
    insertPieces (fuel + 1) buf pieces = some (false, buf) := by
  simp only [insertPieces, insertPiecesPass_of_find_none buf pieces h,
    insertPiecesWhile_of_find_none fuel buf false pieces h]

theorem parseCounter_atFree (buf : Str) (properties : PropertyMap) (h : '@' ∉ buf) :
    parseCounter buf properties = some ⟨false, buf, properties⟩ := by
  have : (SubStringRef.fromStart buf 0).find ("@".toList) 0 = none := by
    show (SubStringRef.fromStart buf 0).find ('@' :: []) 0 = none
    rw [find_zero_fromStart_zero, findAt_atFree _ _ _ h]
  simp only [parseCounter, parseCounterScan, this, parseCounterLoop, copy_all_fromStart_zero,
    List.nil_append]

/-- The passes after `parseProperties` leave text without `@` as it is. -/
theorem parse_tail_atFree (fuel : Nat) (buf : Str) (properties : PropertyMap)
    (pieces : PiecesMap) (h : '@' ∉ buf) :
    (match collectPieces buf pieces with
      | none => none
      | some r4 =>
        match insertPieces (fuel + 1) r4.outBuffer r4.pieces with
        | none => none
        | some r5 =>
          match parseCounter r5.2 properties with
          | none => none
          | some r6 => some (r6.outBuffer, r6.properties)) = some (buf, properties) := by
  rw [collectPieces_of_find_none buf pieces (findAt_atFree _ _ _ h)]
  simp only
  rw [insertPieces_of_find_none fuel buf pieces (findAt_atFree _ _ _ h)]
  simp only
  rw [parseCounter_atFree buf properties h]

/-- C1 (pass-through). For every input buffer without an `@` byte, `parse` on the empty
property map and no piece files returns exactly the input, whatever positive bound is
given for the recursion depth. -/
theorem parse_passthrough (fuel : Nat) (input : Str) (h : '@' ∉ input) :
    (parse (fuel + 1) input emptyProperties []).map Prod.fst = some input := by
  simp only [parse, parsePieceFiles, parseMath_atFree input emptyProperties h,
    parseForEach_of_find_none input emptyProperties (findAt_atFree _ _ _ h),
    parseProperties_of_find_none fuel input emptyProperties (findAt_atFree _ _ _ h),
    parse_tail_atFree fuel input emptyProperties emptyPieces h, Option.map_some']

theorem parse_passthrough_witness :
    '@' ∉ "void main() {}".toList ∧
      (parse 1 ("void main() {}".toList) emptyProperties []).map Prod.fst
        = some ("void main() {}".toList) :=
  ⟨by decide, parse_passthrough 0 _ (by decide)⟩

/-! ## The keyword search of parseMath -/

theorem atAll_append_atFree (p : Str → Bool) (r : Str) : ∀ u : Str, '@' ∉ u →
    atAll p (u ++ r) = atAll p r
  | [], _ => rfl
  | c :: cs, h => by
    have hc : c ≠ '@' := fun e => h (by simp [e])
    have hcs : '@' ∉ cs := fun e => h (by simp [e])
    simp [atAll, hc, atAll_append_atFree p r cs hcs]

theorem atAll_of_atFree (p : Str → Bool) (u : Str) (h : '@' ∉ u) : atAll p u = true := by
  have := atAll_append_atFree p [] u h
  simpa [atAll] using this

theorem atAll_at (p : Str → Bool) (t : Str) : atAll p ('@' :: t) = (p t && atAll p t) := by
  simp [atAll]

theorem findAt_at_split : ∀ (s : Str) (i r : Nat), findAt ['@'] s i = some r →
    ∃ u t, s = u ++ '@' :: t ∧ r = i + u.length ∧ '@' ∉ u
  | [], i, r, h => by simp [findAt] at h
  | c :: cs, i, r, h => by
    by_cases hc : c = '@'
    · subst hc
      simp [findAt, startsWith] at h
      exact ⟨[], cs, rfl, by simp [h], by simp⟩
    · have hs : startsWith (c :: cs) ['@'] = false := startsWith_cons_ne hc _ _
      simp only [findAt, hs] at h
      obtain ⟨u, t, e, hr, hu⟩ := findAt_at_split cs (i + 1) r h
      refine ⟨c :: u, t, by simp [e], by simp [hr]; omega, ?_⟩
      simp [hc, hu]
      exact fun e => hc e.symm

theorem noMathAt_take : ∀ (t : Str) (k : Nat), noMathAt t = true → noMathAt (t.take k) = true
  | [], k, _ => by simp [noMathAt]
  | [a], k, _ => by cases k <;> simp [noMathAt]
  | a :: b :: t, 0, _ => by simp [noMathAt]
  | a :: b :: t, 1, _ => by simp [noMathAt]
  | a :: b :: t, k + 2, h => by
    by_cases ha : a = 'p'
    · subst ha; simpa [noMathAt] using h
    · simp only [List.take_succ_cons]
      unfold noMathAt
      split
      · rename_i heq; simp at heq; exact absurd heq.1 ha
      · rfl

theorem matchKeyword_c_operations_none (ks : SubStringRef)
    (h : noMathAt ks.content = true) : matchKeyword ks c_operations 0 = none := by
  have hne : ∀ n : Str, noMathAt n = false → (ks.content == n) = false := by
    intro n hn
    cases hb : (ks.content == n) with
    | false => rfl
    | true =>
      have : ks.content = n := by simpa using hb
      rw [this] at h; rw [h] at hn; cases hn
  simp only [matchKeyword, c_operations, SubStringRef.matchEqual]
  rw [hne _ (by decide), hne _ (by decide), hne _ (by decide), hne _ (by decide),
    hne _ (by decide), hne _ (by decide)]
  simp

theorem find_at_fromStart_none {buf : Str} {st p : Nat}
    (h : findAt ['@'] (buf.drop (st + p)) (st + p) = none) :
    (SubStringRef.fromStart buf st).find ['@'] p = none := by
  simp only [SubStringRef.find, SubStringRef.fromStart, strFind]
  split <;> simp_all

theorem find_at_fromStart_some {buf : Str} {st p r : Nat} (hp : st + p ≤ buf.length)
    (h : findAt ['@'] (buf.drop (st + p)) (st + p) = some r) :
    (SubStringRef.fromStart buf st).find ['@'] p = some (r - st) := by
  have hlt := findAt_lt '@' [] _ _ _ h
  simp only [List.length_drop] at hlt
  simp only [SubStringRef.find, SubStringRef.fromStart, strFind]
  rw [if_neg (by omega), h]
  simp; omega

theorem parseMathScan_none (buf : Str) (st : Nat) :
    ∀ (n p fuel : Nat), buf.length - (st + p) ≤ n → n + 1 ≤ fuel → st + p ≤ buf.length →
      atAll noMathAt (buf.drop (st + p)) = true →
      parseMathScan buf (SubStringRef.fromStart buf st) fuel
        ((SubStringRef.fromStart buf st).find ['@'] p) = some (none, none) := by
  intro n
  induction n with
  | zero =>
    intro p fuel hn hf hp _
    have hd : buf.drop (st + p) = [] := by
      apply List.drop_eq_nil_of_le; omega
    rw [find_at_fromStart_none (by rw [hd]; rfl)]
    obtain ⟨f, rfl⟩ : ∃ f, fuel = f + 1 := ⟨fuel - 1, by omega⟩
    rfl
  | succ n ih =>
    intro p fuel hn hf hp hall
    obtain ⟨f, rfl⟩ : ∃ f, fuel = f + 1 := ⟨fuel - 1, by omega⟩
    cases hfa : findAt ['@'] (buf.drop (st + p)) (st + p) with
    | none => rw [find_at_fromStart_none hfa]; rfl
    | some r =>
      rw [find_at_fromStart_some hp hfa]
      obtain ⟨u, t, e, hr, hu⟩ := findAt_at_split _ _ _ hfa
      have hlt := findAt_lt '@' [] _ _ _ hfa
      simp only [List.length_drop] at hlt
      have hall2 : noMathAt t = true ∧ atAll noMathAt t = true := by
        rw [e, atAll_append_atFree _ _ _ hu, atAll_at] at hall
        simpa using hall
      have ht : buf.drop (r + 1) = t := by
        have h1 : buf.drop (st + p + (u ++ ['@']).length) = t :=
          drop_add_of_drop_eq (by simpa using e)
        have h2 : st + p + (u ++ ['@']).length = r + 1 := by simp; omega
        rw [h2] at h1; exact h1
      have hq : st + (r - st) + 1 = r + 1 := by omega
      simp only [parseMathScan]
      rw [matchKeyword_c_operations_none]
      · simp only
        have := ih (r - st + 1) f (by omega) (by omega) (by omega)
          (by rw [show st + (r - st + 1) = r + 1 by omega, ht]; exact hall2.2)
        exact this
      · simp only [SubStringRef.content, SubStringRef.getStart, SubStringRef.fromStart, hq, ht]
        exact noMathAt_take _ _ hall2.1

/-- The pass `parseMath` leaves a text as it is when no `@` of it is followed by the start
of an operation name. -/
theorem parseMath_of_noMath (buf : Str) (properties : PropertyMap)
    (h : atAll noMathAt buf = true) :
    parseMath buf properties = some ⟨false, buf, properties⟩ := by
  apply parseMath_of_scan_none
  exact parseMathScan_none buf 0 buf.length 0 _ (by omega) (by omega) (by omega) (by simpa using h)

/-! ## The scanning loop of evaluateExpression -/

theorem scanLoop_cons (c : Char) (cs : Str) (st : ScanState) (h : st.syntaxError = false) :
    scanLoop (c :: cs) st = scanLoop cs (scanStep st c) := by
  simp [scanLoop, h]

theorem isEmpty_append_singleton {α : Type} (cs : List α) (x : α) :
    (cs ++ [x]).isEmpty = false := by
  cases cs <;> rfl

theorem modifyBack_append_singleton (f : Expression → Expression) (x : Expression) :
    ∀ cs : List Expression, modifyBack f (cs ++ [x]) = cs ++ [f x]
  | [] => rfl
  | [a] => rfl
  | a :: b :: cs => by
    have := modifyBack_append_singleton f x (b :: cs)
    simp only [List.cons_append] at this ⊢
    simp only [modifyBack, this]

theorem lastValueChar_append_singleton (v : Str) (n : Bool) (cs : List Expression)
    (x : Expression) : lastValueChar (.mk v n (cs ++ [x])) = x.value.getLast? := by
  simp [lastValueChar, Expression.children]

theorem isExprNameChar_ne {c : Char} (h : isExprNameChar c = true) :
    c ≠ '(' ∧ c ≠ ')' ∧ c ≠ ' ' ∧ c ≠ '\t' ∧ c ≠ '\n' ∧ c ≠ '\r' ∧ c ≠ '!' ∧ c ≠ '&' ∧
      c ≠ '|' := by
  simp [isExprNameChar] at h
  tauto

theorem scanStep_name_started (c : Char) (hc : isExprNameChar c = true) (v : Str) (n : Bool)
    (cs : List Expression) (w : Str) (neg : Bool) (parents : List Expression) :
    scanStep ⟨.mk v n (cs ++ [.mk w neg []]), parents, true, false, false⟩ c =
      ⟨.mk v n (cs ++ [.mk (w ++ [c]) neg []]), parents, true, false, false⟩ := by
  obtain ⟨h1, h2, h3, h4, h5, h6, h7, h8, h9⟩ := isExprNameChar_ne hc
  simp [scanStep, h1, h2, h3, h4, h5, h6, h7, h8, h9, modifyBack_append_singleton,
    Expression.pushValue]

theorem scanStep_name_first (c : Char) (hc : isExprNameChar c = true) (v : Str) (n : Bool)
    (cs : List Expression) (ng : Bool) (parents : List Expression) :
    scanStep ⟨.mk v n cs, parents, false, ng, false⟩ c =
      ⟨.mk v n (cs ++ [.mk [c] ng []]), parents, true, false, false⟩ := by
  obtain ⟨h1, h2, h3, h4, h5, h6, h7, h8, h9⟩ := isExprNameChar_ne hc
  simp [scanStep, h1, h2, h3, h4, h5, h6, h7, h8, h9, modifyBack_append_singleton,
    Expression.pushValue, Expression.pushChild, Expression.empty, Expression.setNegated]

theorem scanLoop_name_started (rest : Str) (v : Str) (n : Bool) (cs : List Expression)
    (neg : Bool) (parents : List Expression) :
    ∀ (t w : Str), t.all isExprNameChar = true →
      scanLoop (t ++ rest) ⟨.mk v n (cs ++ [.mk w neg []]), parents, true, false, false⟩ =
        scanLoop rest ⟨.mk v n (cs ++ [.mk (w ++ t) neg []]), parents, true, false, false⟩
  | [], w, _ => by simp
  | c :: t, w, h => by
    simp only [List.all_cons, Bool.and_eq_true] at h
    rw [List.cons_append, scanLoop_cons _ _ _ rfl, scanStep_name_started c h.1,
      scanLoop_name_started rest v n cs neg parents t _ h.2]
    simp

theorem scanLoop_name (rest : Str) (v : Str) (n : Bool) (cs : List Expression)
    (ng : Bool) (parents : List Expression) (t : Str) (ht : isExprName t = true) :
    scanLoop (t ++ rest) ⟨.mk v n cs, parents, false, ng, false⟩ =
      scanLoop rest ⟨.mk v n (cs ++ [.mk t ng []]), parents, true, false, false⟩ := by
  cases t with
  | nil => simp [isExprName] at ht
  | cons c t =>
    simp only [isExprName, List.all_cons, Bool.and_eq_true] at ht
    rw [List.cons_append, scanLoop_cons _ _ _ rfl, scanStep_name_first c ht.2.1,
      scanLoop_name_started rest v n cs ng parents t _ ht.2.2]
    simp

theorem scanStep_white (c : Char) (hc : isWhite c = true) (cur : Expression)
    (parents : List Expression) (ts ng : Bool) :
    scanStep ⟨cur, parents, ts, ng, false⟩ c = ⟨cur, parents, false, ng, false⟩ := by
  simp only [isWhite, Bool.or_eq_true, beq_iff_eq] at hc
  rcases hc with ((rfl | rfl) | rfl) | rfl <;> simp [scanStep]

theorem scanLoop_white (rest : Str) (cur : Expression) (parents : List Expression) (ng : Bool) :
    ∀ (w : Str), w.all isWhite = true →
      scanLoop (w ++ rest) ⟨cur, parents, false, ng, false⟩ =
        scanLoop rest ⟨cur, parents, false, ng, false⟩
  | [], _ => by simp
  | c :: w, h => by
    simp only [List.all_cons, Bool.and_eq_true] at h
    rw [List.cons_append, scanLoop_cons _ _ _ rfl, scanStep_white c h.1,
      scanLoop_white rest cur parents ng w h.2]

theorem scanLoop_spaces (rest : Str) (cur : Expression) (parents : List Expression)
    (ts ng : Bool) (w : Str) (hw : isSpaces w = true) :
    scanLoop (w ++ rest) ⟨cur, parents, ts, ng, false⟩ =
      scanLoop rest ⟨cur, parents, false, ng, false⟩ := by
  cases w with
  | nil => simp [isSpaces] at hw
  | cons c w =>
    simp only [isSpaces, List.all_cons, Bool.and_eq_true] at hw
    rw [List.cons_append, scanLoop_cons _ _ _ rfl, scanStep_white c hw.2.1,
      scanLoop_white rest cur parents ng w hw.2.2]

theorem scanLoop_operator (rest : Str) (v : Str) (n : Bool) (cs : List Expression)
    (parents : List Expression) (isAnd : Bool) :
    scanLoop ((if isAnd then "&&".toList else "||".toList) ++ rest)
        ⟨.mk v n cs, parents, false, false, false⟩ =
      scanLoop rest
        ⟨.mk v n (cs ++ [.mk (if isAnd then "&&".toList else "||".toList) false []]),
          parents, true, false, false⟩ := by
  cases isAnd <;>
    simp [scanLoop, scanStep, modifyBack_append_singleton, lastValueChar_append_singleton,
      Expression.pushValue, Expression.pushChild, Expression.empty, Expression.setNegated,
      Expression.value, Expression.children, isEmpty_append_singleton]

theorem scanLoop_render : ∀ (e : BoolExpr), e.wellFormed = true →
    ∀ (rest : Str) (v : Str) (n : Bool) (cs : List Expression) (parents : List Expression),
      scanLoop (e.render ++ rest) ⟨.mk v n cs, parents, false, false, false⟩ =
        scanLoop rest ⟨.mk v n (cs ++ e.nodes), parents, e.endsWithName, false, false⟩
  | .name negated text, h, rest, v, n, cs, parents => by
    simp only [BoolExpr.wellFormed] at h
    have hbang : scanStep ⟨.mk v n cs, parents, false, false, false⟩ '!' =
        ⟨.mk v n cs, parents, false, true, false⟩ := by simp [scanStep]
    cases negated
    · show scanLoop (text ++ rest) _ = _
      rw [scanLoop_name rest v n cs false parents text h]
      rfl
    · show scanLoop ('!' :: (text ++ rest)) _ = _
      rw [scanLoop_cons _ _ _ rfl, hbang, scanLoop_name rest v n cs true parents text h]
      rfl
  | .group negated body, h, rest, v, n, cs, parents => by
    simp only [BoolExpr.wellFormed] at h
    have ih := scanLoop_render body h (')' :: rest) [] negated [] (.mk v n cs :: parents)
    have hbang : scanStep ⟨.mk v n cs, parents, false, false, false⟩ '!' =
        ⟨.mk v n cs, parents, false, true, false⟩ := by simp [scanStep]
    have hopen : ∀ ng, scanStep ⟨.mk v n cs, parents, false, ng, false⟩ '(' =
        ⟨.mk [] ng [], .mk v n cs :: parents, false, false, false⟩ := by
      intro ng; simp [scanStep, Expression.empty, Expression.setNegated]
    have hclose : ∀ ts, scanStep ⟨.mk [] negated ([] ++ body.nodes), .mk v n cs :: parents,
        ts, false, false⟩ ')' =
        ⟨.mk v n (cs ++ [.mk [] negated body.nodes]), parents, false, false, false⟩ := by
      intro ts; simp [scanStep, Expression.pushChild]
    have hr : ∀ ng, scanLoop ('(' :: (body.render ++ ')' :: rest))
        ⟨.mk v n cs, parents, false, ng, false⟩ =
        scanLoop (body.render ++ ')' :: rest)
          ⟨.mk [] ng [], .mk v n cs :: parents, false, false, false⟩ := by
      intro ng; rw [scanLoop_cons _ _ _ rfl, hopen]
    cases negated
    · have e1 : (BoolExpr.group false body).render ++ rest
          = '(' :: (body.render ++ ')' :: rest) := by simp [BoolExpr.render]
      rw [e1, hr, ih, scanLoop_cons _ _ _ rfl, hclose]
      rfl
    · have e1 : (BoolExpr.group true body).render ++ rest
          = '!' :: '(' :: (body.render ++ ')' :: rest) := by simp [BoolExpr.render]
      rw [e1, scanLoop_cons _ _ _ rfl, hbang, hr, ih, scanLoop_cons _ _ _ rfl, hclose]
      rfl
  | .seq left ws1 isAnd ws2 right, h, rest, v, n, cs, parents => by
    simp only [BoolExpr.wellFormed, Bool.and_eq_true] at h
    obtain ⟨⟨⟨⟨hl, hw1⟩, hw2⟩, _⟩, hr⟩ := h
    simp only [BoolExpr.render, List.append_assoc]
    rw [scanLoop_render left hl, scanLoop_spaces _ _ _ _ _ ws1 hw1, scanLoop_operator,
      scanLoop_spaces _ _ _ _ _ ws2 hw2, scanLoop_render right hr]
    simp [BoolExpr.nodes, BoolExpr.endsWithName]

/-! ## evaluateExpressionRecursive against the reference evaluator -/

theorem exprType_name (t : Str) (neg : Bool) (ht : isExprName t = true) :
    exprType (.mk t neg []) = ExpressionType.EXPR_VAR := by
  have h1 : t ≠ "&&".toList := by
    intro e; rw [e] at ht; simp [isExprName, isExprNameChar] at ht
  have h2 : t ≠ "||".toList := by
    intro e; rw [e] at ht; simp [isExprName, isExprNameChar] at ht
  unfold exprType
  simp only [Expression.value, Expression.children]
  rw [if_neg h1, if_neg h2]
  simp

theorem nodes_ne_nil : ∀ e : BoolExpr, e.nodes ≠ []
  | .name _ _ => by simp [BoolExpr.nodes]
  | .group _ _ => by simp [BoolExpr.nodes]
  | .seq _ _ _ _ _ => by simp [BoolExpr.nodes]

theorem exprType_group (neg : Bool) (b : BoolExpr) :
    exprType (.mk [] neg b.nodes) = ExpressionType.EXPR_OBJECT := by
  have := nodes_ne_nil b
  simp [exprType, Expression.value, Expression.children, this]

theorem exprType_operator (isAnd : Bool) :
    exprType (.mk (if isAnd then "&&".toList else "||".toList) false []) =
      (if isAnd then ExpressionType.EXPR_OPERATOR_AND else ExpressionType.EXPR_OPERATOR_OR) := by
  cases isAnd <;> simp [exprType, Expression.value]

theorem evaluateOperands_operator (properties : PropertyMap) (isAnd : Bool)
    (tail : List Expression) :
    evaluateOperands properties
        (.mk (if isAnd then "&&".toList else "||".toList) false [] :: tail) false false =
      (false :: (evaluateOperands properties tail true false).1,
        (evaluateOperands properties tail true false).2) := by
  rw [evaluateOperands]
  rw [exprType_operator]
  cases isAnd <;> simp [ExpressionType.isOperator]

theorem evaluateOperands_name (properties : PropertyMap) (t : Str) (neg : Bool)
    (ht : isExprName t = true) (tail : List Expression) :
    evaluateOperands properties (.mk t neg [] :: tail) true false =
      (decide (getProperty properties t ≠ 0) :: (evaluateOperands properties tail false false).1,
        (evaluateOperands properties tail false false).2) := by
  rw [evaluateOperands]
  rw [exprType_name t neg ht]
  simp [ExpressionType.isOperator, Expression.value]

theorem evaluateOperands_group (properties : PropertyMap) (neg : Bool) (b : BoolExpr)
    (val : Bool) (hb : evaluateExpressionRecursive properties b.nodes false = (val, false))
    (tail : List Expression) :
    evaluateOperands properties (.mk [] neg b.nodes :: tail) true false =
      (val :: (evaluateOperands properties tail false false).1,
        (evaluateOperands properties tail false false).2) := by
  have hc : evaluateChildren properties (.mk [] neg b.nodes) false = (val, false) := by
    rw [evaluateChildren]; exact hb
  rw [evaluateOperands]
  rw [exprType_group neg b, hc]
  simp [ExpressionType.isOperator]

theorem foldResults_operand (properties : PropertyMap) : ∀ (r : BoolExpr),
    r.isOperand = true → r.wellFormed = true →
    ∀ (acc m : Bool) (tN : List Expression) (tR : List Bool),
      foldResults (r.nodes ++ tN) (r.results properties ++ tR) acc m =
        foldResults tN tR
          (if m then acc && r.eval properties else acc || r.eval properties) m
  | .name neg t, _, h, acc, m, tN, tR => by
    simp only [BoolExpr.wellFormed] at h
    simp only [BoolExpr.nodes, BoolExpr.results, List.singleton_append, foldResults,
      exprType_name t neg h, BoolExpr.eval, Expression.negated]
    cases m <;> cases neg <;> simp
  | .group neg b, _, _, acc, m, tN, tR => by
    simp only [BoolExpr.nodes, BoolExpr.results, List.singleton_append, foldResults,
      exprType_group neg b, BoolExpr.eval, Expression.negated]
    cases m <;> cases neg <;> simp
  | .seq _ _ _ _ _, h, _, _, _, _, _ => by simp [BoolExpr.isOperand] at h

theorem foldResults_render (properties : PropertyMap) : ∀ (e : BoolExpr),
    e.wellFormed = true → ∀ (tN : List Expression) (tR : List Bool),
      foldResults (e.nodes ++ tN) (e.results properties ++ tR) true true =
        foldResults tN tR (e.eval properties) e.lastMode
  | .name neg t, h, tN, tR => by
    rw [foldResults_operand properties (.name neg t) rfl h]
    simp [BoolExpr.lastMode]
  | .group neg b, h, tN, tR => by
    rw [foldResults_operand properties (.group neg b) rfl h]
    simp [BoolExpr.lastMode]
  | .seq l w1 isAnd w2 r, h, tN, tR => by
    simp only [BoolExpr.wellFormed, Bool.and_eq_true] at h
    obtain ⟨⟨⟨⟨hl, _⟩, _⟩, hop⟩, hr⟩ := h
    simp only [BoolExpr.nodes, BoolExpr.results, List.append_assoc, List.cons_append]
    rw [foldResults_render properties l hl]
    have hstep : ∀ (x : List Expression) (y : List Bool) (acc m : Bool),
        foldResults (.mk (if isAnd then "&&".toList else "||".toList) false [] :: x)
          (false :: y) acc m = foldResults x y acc isAnd := by
      intro x y acc m
      rw [foldResults, exprType_operator]
      cases isAnd <;> simp
    rw [hstep, foldResults_operand properties r hop hr]
    simp [BoolExpr.eval, BoolExpr.lastMode]

theorem evaluateOperands_nil (properties : PropertyMap) (b err : Bool) :
    evaluateOperands properties [] b err = ([], err) := by
  rw [evaluateOperands]

theorem evaluateExpressionRecursive_of (properties : PropertyMap) (es : List Expression)
    (rs : List Bool) (h : evaluateOperands properties es true false = (rs, false)) :
    evaluateExpressionRecursive properties es false = (foldResults es rs true true, false) := by
  rw [evaluateExpressionRecursive, h]
  simp

theorem evaluateExpressionRecursive_of_operands (properties : PropertyMap) (e : BoolExpr)
    (h : e.wellFormed = true)
    (h1 : ∀ tail : List Expression,
      evaluateOperands properties (e.nodes ++ tail) true false =
        (e.results properties ++ (evaluateOperands properties tail false false).1,
          (evaluateOperands properties tail false false).2)) :
    evaluateExpressionRecursive properties e.nodes false = (e.eval properties, false) := by
  have h2 := h1 []
  have h3 := foldResults_render properties e h [] []
  simp only [List.append_nil, evaluateOperands_nil] at h2 h3
  rw [evaluateExpressionRecursive_of properties _ _ h2, h3]
  simp [foldResults]

theorem evaluate_render (properties : PropertyMap) : ∀ (e : BoolExpr), e.wellFormed = true →
    (∀ tail : List Expression,
      evaluateOperands properties (e.nodes ++ tail) true false =
        (e.results properties ++ (evaluateOperands properties tail false false).1,
          (evaluateOperands properties tail false false).2)) ∧
    evaluateExpressionRecursive properties e.nodes false = (e.eval properties, false)
  | .name neg t, h => by
    have h1 : ∀ tail : List Expression,
        evaluateOperands properties ((BoolExpr.name neg t).nodes ++ tail) true false =
        ((BoolExpr.name neg t).results properties ++
            (evaluateOperands properties tail false false).1,
          (evaluateOperands properties tail false false).2) := by
      intro tail
      simp only [BoolExpr.wellFormed] at h
      simp only [BoolExpr.nodes, BoolExpr.results, List.singleton_append]
      rw [evaluateOperands_name properties t neg h]
    exact ⟨h1, evaluateExpressionRecursive_of_operands properties _ h h1⟩
  | .group neg b, h => by
    have hb := (evaluate_render properties b (by simpa [BoolExpr.wellFormed] using h)).2
    have h1 : ∀ tail : List Expression,
        evaluateOperands properties ((BoolExpr.group neg b).nodes ++ tail) true false =
        ((BoolExpr.group neg b).results properties ++
            (evaluateOperands properties tail false false).1,
          (evaluateOperands properties tail false false).2) := by
      intro tail
      simp only [BoolExpr.nodes, BoolExpr.results, List.singleton_append]
      rw [evaluateOperands_group properties neg b _ hb]
    exact ⟨h1, evaluateExpressionRecursive_of_operands properties _ h h1⟩
  | .seq l w1 isAnd w2 r, h => by
    have h' := h
    simp only [BoolExpr.wellFormed, Bool.and_eq_true] at h'
    obtain ⟨⟨⟨⟨hl, _⟩, _⟩, _⟩, hr⟩ := h'
    have il := (evaluate_render properties l hl).1
    have ir := (evaluate_render properties r hr).1
    have h1 : ∀ tail : List Expression,
        evaluateOperands properties ((BoolExpr.seq l w1 isAnd w2 r).nodes ++ tail) true false =
        ((BoolExpr.seq l w1 isAnd w2 r).results properties ++
            (evaluateOperands properties tail false false).1,
          (evaluateOperands properties tail false false).2) := by
      intro tail
      simp only [BoolExpr.nodes, BoolExpr.results, List.append_assoc, List.cons_append]
      rw [il, evaluateOperands_operator, ir]
    exact ⟨h1, evaluateExpressionRecursive_of_operands properties _ h h1⟩

/-- The evaluation of the root node built by the scanning loop for a well-formed
expression. -/
theorem evaluateExpressionRecursive_root (properties : PropertyMap) (e : BoolExpr)
    (h : e.wellFormed = true) :
    evaluateExpressionRecursive properties [.mk [] false e.nodes] false =
      (e.eval properties, false) := by
  have hb := (evaluate_render properties e h).2
  have h2 := evaluateOperands_group properties false e _ hb []
  simp only [evaluateOperands_nil] at h2
  rw [evaluateExpressionRecursive_of properties _ _ h2]
  simp [foldResults, exprType_group, Expression.negated]

/-! ## evaluateExpressionEnd -/

theorem evaluateExpressionEndLoop_noParen (rest : Str) :
    ∀ (t : Str) (i : Nat) (n : Int), (∀ c ∈ t, c ≠ '(' ∧ c ≠ ')') → 0 ≤ n →
      evaluateExpressionEndLoop (t ++ rest) i n =
        evaluateExpressionEndLoop rest (i + t.length) n
  | [], i, n, _, _ => by simp
  | c :: t, i, n, h, hn => by
    have hc := h c (by simp)
    have ht : ∀ d ∈ t, d ≠ '(' ∧ d ≠ ')' := fun d hd => h d (by simp [hd])
    rw [List.cons_append, evaluateExpressionEndLoop, if_pos hn, if_neg hc.1, if_neg hc.2,
      evaluateExpressionEndLoop_noParen rest t (i + 1) n ht hn]
    congr 1
    simp only [List.length_cons]; omega

theorem noParen_of_exprName {t : Str} (h : t.all isExprNameChar = true) :
    ∀ c ∈ t, c ≠ '(' ∧ c ≠ ')' := by
  intro c hc
  have := isExprNameChar_ne (List.all_eq_true.mp h c hc)
  exact ⟨this.1, this.2.1⟩

theorem noParen_of_white {t : Str} (h : t.all isWhite = true) :
    ∀ c ∈ t, c ≠ '(' ∧ c ≠ ')' := by
  intro c hc
  have := List.all_eq_true.mp h c hc
  simp only [isWhite, Bool.or_eq_true, beq_iff_eq] at this
  rcases this with ((rfl | rfl) | rfl) | rfl <;> decide

theorem evaluateExpressionEndLoop_render : ∀ (e : BoolExpr), e.wellFormed = true →
    ∀ (rest : Str) (i : Nat) (n : Int), 0 ≤ n →
      evaluateExpressionEndLoop (e.render ++ rest) i n =
        evaluateExpressionEndLoop rest (i + e.render.length) n
  | .name neg t, h, rest, i, n, hn => by
    simp only [BoolExpr.wellFormed, isExprName, Bool.and_eq_true] at h
    apply evaluateExpressionEndLoop_noParen rest _ i n _ hn
    intro c hc
    cases neg
    · exact noParen_of_exprName h.2 c (by simpa [BoolExpr.render] using hc)
    · simp only [BoolExpr.render, if_true, List.singleton_append, List.mem_cons] at hc
      rcases hc with rfl | hc
      · decide
      · exact noParen_of_exprName h.2 c hc
  | .group neg b, h, rest, i, n, hn => by
    simp only [BoolExpr.wellFormed] at h
    have ih := evaluateExpressionEndLoop_render b h (')' :: rest) (i + 1) (n + 1) (by omega)
    have hopen : ∀ j, evaluateExpressionEndLoop ('(' :: (b.render ++ ')' :: rest)) j n =
        evaluateExpressionEndLoop (b.render ++ ')' :: rest) (j + 1) (n + 1) := by
      intro j; rw [evaluateExpressionEndLoop, if_pos hn]; simp
    have hclose : ∀ j, evaluateExpressionEndLoop (')' :: rest) j (n + 1) =
        evaluateExpressionEndLoop rest (j + 1) n := by
      intro j
      rw [evaluateExpressionEndLoop, if_pos (by omega)]; simp
    cases neg
    · have e1 : (BoolExpr.group false b).render ++ rest = '(' :: (b.render ++ ')' :: rest) := by
        simp [BoolExpr.render]
      rw [e1, hopen, ih, hclose]
      congr 1
      simp [BoolExpr.render]; omega
    · have e1 : (BoolExpr.group true b).render ++ rest
          = '!' :: '(' :: (b.render ++ ')' :: rest) := by simp [BoolExpr.render]
      have hbang : evaluateExpressionEndLoop ('!' :: '(' :: (b.render ++ ')' :: rest)) i n =
          evaluateExpressionEndLoop ('(' :: (b.render ++ ')' :: rest)) (i + 1) n := by
        rw [evaluateExpressionEndLoop, if_pos hn]; simp
      have ih2 := evaluateExpressionEndLoop_render b h (')' :: rest) (i + 1 + 1) (n + 1)
        (by omega)
      rw [e1, hbang, hopen, ih2, hclose]
      congr 1
      simp [BoolExpr.render]; omega
  | .seq l w1 isAnd w2 r, h, rest, i, n, hn => by
    simp only [BoolExpr.wellFormed, isSpaces, Bool.and_eq_true] at h
    obtain ⟨⟨⟨⟨hl, hw1⟩, hw2⟩, _⟩, hr⟩ := h
    have hop : ∀ c ∈ (if isAnd then "&&".toList else "||".toList), c ≠ '(' ∧ c ≠ ')' := by
      cases isAnd <;> decide
    simp only [BoolExpr.render, List.append_assoc]
    rw [evaluateExpressionEndLoop_render l hl _ _ _ hn,
      evaluateExpressionEndLoop_noParen _ w1 _ _ (noParen_of_white hw1.2) hn,
      evaluateExpressionEndLoop_noParen _ _ _ _ hop hn,
      evaluateExpressionEndLoop_noParen _ w2 _ _ (noParen_of_white hw2.2) hn,
      evaluateExpressionEndLoop_render r hr _ _ _ hn]
    simp only [List.length_append]
    congr 1; omega

/-- The closing parenthesis is found after a text `t` over which the loop of
`evaluateExpressionEnd` keeps its nesting, when at least one byte follows. -/
theorem evaluateExpressionEnd_of_loop {buf t rest : Str} {st : Nat} (hst : st ≤ buf.length)
    (hbuf : buf.drop st = t ++ ')' :: rest) (hrest : rest ≠ [])
    (hloop : evaluateExpressionEndLoop (t ++ ')' :: rest) 0 0 =
      evaluateExpressionEndLoop (')' :: rest) (0 + t.length) 0) :
    evaluateExpressionEnd (SubStringRef.fromStart buf st) = some t.length := by
  rw [evaluateExpressionEnd, content_fromStart hst hbuf, hloop]
  cases rest with
  | nil => exact absurd rfl hrest
  | cons c rest => simp [evaluateExpressionEndLoop]

/-! ## evaluateExpression -/

/-- The function `evaluateExpression` on the text of a well-formed expression that is
closed by `)` with at least one byte after it. -/
theorem evaluateExpression_render (e : BoolExpr) (properties : PropertyMap)
    (buf rest : Str) (st : Nat) (he : e.wellFormed = true) (hst : st ≤ buf.length)
    (hbuf : buf.drop st = e.render ++ ')' :: rest) (hrest : rest ≠ []) :
    evaluateExpression (SubStringRef.fromStart buf st) properties =
      (e.eval properties, SubStringRef.fromStart buf (st + e.render.length + 1), false) := by
  have hend : evaluateExpressionEnd (SubStringRef.fromStart buf st) = some e.render.length :=
    evaluateExpressionEnd_of_loop hst hbuf hrest
      (evaluateExpressionEndLoop_render e he _ 0 0 (le_refl _))
  have hcontent : (⟨buf, st, st + e.render.length⟩ : SubStringRef).content = e.render := by
    simp [SubStringRef.content, hbuf]
  have hscan := scanLoop_render e he [] [] false [] []
  simp only [List.append_nil, List.nil_append, scanLoop] at hscan
  rw [evaluateExpression, hend]
  simp only [SubStringRef.fromStart, SubStringRef.getStart, hcontent, Expression.empty, hscan]
  simp [evaluateExpressionRecursive_root properties e he]

/-- C2 (no operator precedence). For every well-formed expression `e` (names, optional
`!` in front of an operand, parenthesised groups, `&&` and `||` set off by white space,
every level of the shape operand (operator operand)*) whose text stands at the start of
the view and whose closing `)` is followed by at least one byte, `evaluateExpression`
reports no syntax error, moves the view behind the closing `)` and returns the value of
the reference evaluator `BoolExpr.eval`, which folds siblings strictly from left to
right. -/
theorem evaluateExpression_eq_reference (e : BoolExpr) (properties : PropertyMap)
    (buf rest : Str) (st : Nat) (he : e.wellFormed = true) (hst : st ≤ buf.length)
    (hbuf : buf.drop st = e.render ++ ')' :: rest) (hrest : rest ≠ []) :
    evaluateExpression (SubStringRef.fromStart buf st) properties =
      (e.eval properties, SubStringRef.fromStart buf (st + e.render.length + 1), false) :=
  evaluateExpression_render e properties buf rest st he hst hbuf hrest

theorem evaluateExpression_eq_reference_witness :
    (BoolExpr.seq
        (BoolExpr.seq (BoolExpr.name false ['a']) [' '] false [' '] (BoolExpr.name false ['b']))
        [' '] true [' '] (BoolExpr.name false ['c'])).wellFormed = true ∧
      0 ≤ ("a || b && c)x".toList).length ∧
      ("a || b && c)x".toList).drop 0 =
        (BoolExpr.seq
          (BoolExpr.seq (BoolExpr.name false ['a']) [' '] false [' '] (BoolExpr.name false ['b']))
          [' '] true [' '] (BoolExpr.name false ['c'])).render ++ ')' :: ['x'] ∧
      ['x'] ≠ [] ∧
      evaluateExpression (SubStringRef.fromStart ("a || b && c)x".toList) 0)
          (setProperty emptyProperties ['a'] 1) =
        ((BoolExpr.seq
          (BoolExpr.seq (BoolExpr.name false ['a']) [' '] false [' '] (BoolExpr.name false ['b']))
          [' '] true [' '] (BoolExpr.name false ['c'])).eval (setProperty emptyProperties ['a'] 1),
         SubStringRef.fromStart ("a || b && c)x".toList)
          (0 + (BoolExpr.seq
            (BoolExpr.seq (BoolExpr.name false ['a']) [' '] false [' ']
              (BoolExpr.name false ['b']))
            [' '] true [' '] (BoolExpr.name false ['c'])).render.length + 1), false) :=
  ⟨by decide, by decide, by decide, by decide,
    evaluateExpression_eq_reference _ _ _ ['x'] 0 (by decide) (by decide) (by decide)
      (by decide)⟩

/-! ## findBlockEnd on a block without nested directives -/

theorem get?_of_drop_eq {buf rest : Str} {it : Nat} {c : Char}
    (h : buf.drop it = c :: rest) : buf.get? it = some c := by
  have := List.head?_drop buf it
  rw [h] at this
  simpa [List.get?_eq_getElem?] using this.symm

theorem drop_succ_of_drop_eq {buf rest : Str} {it : Nat} {c : Char}
    (h : buf.drop it = c :: rest) : buf.drop (it + 1) = rest := by
  have h1 : buf.drop it = [c] ++ rest := by simpa using h
  have := drop_add_of_drop_eq h1
  simpa using this

theorem lt_length_of_drop_eq {buf rest : Str} {it : Nat} {c : Char}
    (h : buf.drop it = c :: rest) : it < buf.length := by
  by_contra hn
  rw [List.drop_eq_nil_of_le (by omega)] at h
  cases h

theorem findBlockEndLoop_atFree (buf S : Str) :
    ∀ (B : Str) (it fuel : Nat), buf.drop it = B ++ ("@end".toList ++ S) → '@' ∉ B →
      B.length + 2 ≤ fuel →
      findBlockEndLoop buf buf.length fuel it 0 = some (it + B.length + 4, -1)
  | [], it, fuel, h, _, hf => by
    obtain ⟨f, rfl⟩ : ∃ f, fuel = f + 1 + 1 := ⟨fuel - 2, by simp at hf; omega⟩
    have h' : buf.drop it = '@' :: ("end".toList ++ S) := h
    have hlt := lt_length_of_drop_eq h'
    have hfind : (SubStringRef.fromStart buf (it + 1)).find ("end".toList) 0 = some 0 := by
      show (SubStringRef.fromStart buf (it + 1)).find ('e' :: "nd".toList) 0 = some 0
      rw [find_fromStart 'e' _ (by omega) (drop_succ_of_drop_eq h')]
      exact findAt_hit ("end".toList) S 0 (by decide)
    rw [findBlockEndLoop, if_neg (by omega), get?_of_drop_eq h']
    simp only [if_true, hfind]
    rw [findBlockEndLoop, if_pos (by omega)]
    simp
  | b :: B, it, fuel, h, hB, hf => by
    obtain ⟨f, rfl⟩ : ∃ f, fuel = f + 1 := ⟨fuel - 1, by simp at hf; omega⟩
    have hb : b ≠ '@' := fun e => hB (by simp [e])
    have hB' : '@' ∉ B := fun e => hB (by simp [e])
    have h' : buf.drop it = b :: (B ++ ("@end".toList ++ S)) := h
    have hlt := lt_length_of_drop_eq h'
    rw [findBlockEndLoop, if_neg (by omega), get?_of_drop_eq h']
    simp only [hb, if_false]
    rw [findBlockEndLoop_atFree buf S B (it + 1) f (drop_succ_of_drop_eq h') hB'
      (by simp at hf; omega)]
    simp; omega

/-- On a block body without `@` that is closed by `@end` with at least one byte after it,
`findBlockEnd` moves the end of the view in front of `@end` and keeps the error flag. -/
theorem findBlockEnd_atFree {buf B S : Str} {st : Nat} (err : Bool) (hst : st ≤ buf.length)
    (h : buf.drop st = B ++ ("@end".toList ++ S)) (hB : '@' ∉ B) (hS : S ≠ []) :
    findBlockEnd (SubStringRef.fromStart buf st) err = some (⟨buf, st, st + B.length⟩, err) := by
  have hl := length_of_drop_eq hst h
  simp only [List.length_append] at hl
  have hS' : 0 < S.length := List.length_pos.mpr hS
  have h4 : ("@end".toList).length = 4 := rfl
  have hloop := findBlockEndLoop_atFree buf S B st (buf.length + 1) h hB (by omega)
  simp only [findBlockEnd, SubStringRef.fromStart, hloop, SubStringRef.setEnd]
  rw [if_pos ⟨by omega, by omega⟩]
  simp; omega

/-! ## One conditional block -/

theorem parsePropertiesPass_single (e : BoolExpr) (properties : PropertyMap) (P B S : Str)
    (he : e.wellFormed = true) (hP : '@' ∉ P) (hB : '@' ∉ B) (hS : '@' ∉ S) (hSne : S ≠ []) :
    parsePropertiesPass
        (P ++ ("@property(".toList ++ (e.render ++ ')' :: (B ++ ("@end".toList ++ S)))))
        properties =
      some (P ++ ((if e.eval properties then B else []) ++ S), false) := by
  generalize hbuf : P ++ ("@property(".toList ++ (e.render ++ ')' :: (B ++ ("@end".toList ++ S))))
    = buf
  have h0 : buf.drop 0 = P ++ ("@property(".toList ++ (e.render ++ ')' ::
      (B ++ ("@end".toList ++ S)))) := by rw [← hbuf]; rfl
  have hlen : buf.length = P.length + (10 + (e.render.length + (1 + (B.length + (4 + S.length))))) := by
    have h10 : ("@property(".toList).length = 10 := rfl
    have h4 : ("@end".toList).length = 4 := rfl
    rw [← hbuf]
    simp only [List.length_append, List.length_cons, h10, h4]
    omega
  have hSpos : 0 < S.length := List.length_pos.mpr hSne
  have h1 : buf.drop (P.length + 10) = e.render ++ ')' :: (B ++ ("@end".toList ++ S)) := by
    have a := drop_add_of_drop_eq h0
    have b := drop_add_of_drop_eq a
    simpa using b
  have h2 : buf.drop (P.length + 10 + e.render.length + 1) = B ++ ("@end".toList ++ S) := by
    have a := drop_add_of_drop_eq h1
    exact drop_succ_of_drop_eq a
  have h3 : buf.drop (P.length + 10 + e.render.length + 1 + B.length + 4) = S := by
    have a := drop_add_of_drop_eq h2
    have b := drop_add_of_drop_eq a
    simpa using b
  have hfind : (SubStringRef.fromStart buf 0).find ("@property".toList) 0 = some P.length := by
    show (SubStringRef.fromStart buf 0).find ('@' :: "property".toList) 0 = some P.length
    rw [find_zero_fromStart_zero, ← hbuf, findAt_append_atFree _ _ _ _ hP]
    have := findAt_hit ("@property".toList)
      ('(' :: (e.render ++ ')' :: (B ++ ("@end".toList ++ S)))) (0 + P.length) (by decide)
    rw [Nat.zero_add] at this ⊢
    exact this
  have hcopy : copy (SubStringRef.fromStart buf 0) P.length = P := copy_fromStart h0
  have hset1 : (SubStringRef.fromStart buf 0).setStart
      ((SubStringRef.fromStart buf 0).getStart + P.length + 10)
      = SubStringRef.fromStart buf (P.length + 10) := by
    rw [setStart_fromStart (by simp [SubStringRef.getStart, SubStringRef.fromStart]; omega)]
    simp [SubStringRef.getStart, SubStringRef.fromStart]
  have heval := evaluateExpression_render e properties buf (B ++ ("@end".toList ++ S))
    (P.length + 10) he (by omega) h1 (by simp)
  have hblock := findBlockEnd_atFree false
    (show P.length + 10 + e.render.length + 1 ≤ buf.length by omega) h2 hB hSne
  have hcopyB : copy (⟨buf, P.length + 10 + e.render.length + 1,
      P.length + 10 + e.render.length + 1 + B.length⟩ : SubStringRef)
      (SubStringRef.getSize ⟨buf, P.length + 10 + e.render.length + 1,
      P.length + 10 + e.render.length + 1 + B.length⟩) = B := by
    simp [copy, SubStringRef.getSize, h2]
  have hset2 : (SubStringRef.fromStart buf (P.length + 10 + e.render.length + 1)).setStart
      (SubStringRef.getEnd ⟨buf, P.length + 10 + e.render.length + 1,
        P.length + 10 + e.render.length + 1 + B.length⟩ + 4)
      = SubStringRef.fromStart buf (P.length + 10 + e.render.length + 1 + B.length + 4) := by
    rw [setStart_fromStart (by simp [SubStringRef.getEnd]; omega)]
    simp [SubStringRef.getEnd]
  have hfind2 : (SubStringRef.fromStart buf
      (P.length + 10 + e.render.length + 1 + B.length + 4)).find ("@property".toList) 0
      = none := by
    show (SubStringRef.fromStart buf _).find ('@' :: "property".toList) 0 = none
    rw [find_fromStart _ _ (by omega) h3, findAt_atFree _ _ _ hS]
  have hcopyS := copy_fromStart_all
    (show P.length + 10 + e.render.length + 1 + B.length + 4 ≤ buf.length by omega) h3
  obtain ⟨k, hk⟩ : ∃ k, buf.length = k + 1 := ⟨buf.length - 1, by omega⟩
  rw [parsePropertiesPass, hfind, parsePropertiesLoop]
  simp only [Bool.false_eq_true, if_false, hcopy, hset1, heval, hblock, hset2, hfind2, hk,
    parsePropertiesLoop]
  rw [hcopyB, hcopyS]
  cases e.eval properties <;> simp

/-! ## A buffer with one conditional block through the driver -/

theorem findAt_none_of_atAll (ns : Str) :
    ∀ (s : Str) (i : Nat), atAll (fun t => !startsWith t ns) s = true →
      findAt ('@' :: ns) s i = none
  | [], i, _ => by simp [findAt]
  | c :: cs, i, h => by
    simp only [atAll, Bool.and_eq_true, Bool.or_eq_true, bne_iff_ne, ne_eq,
      Bool.not_eq_true'] at h
    have hs : startsWith (c :: cs) ('@' :: ns) = false := by
      by_cases hc : c = '@'
      · subst hc
        rcases h.1 with h1 | h1
        · exact absurd rfl h1
        · simp [startsWith, h1]
      · exact startsWith_cons_ne hc _ _
    simp only [findAt, hs]
    exact findAt_none_of_atAll ns cs (i + 1) h.2

theorem atFree_of_isName {f : Str} (h : isName f = true) : '@' ∉ f := by
  intro hmem
  simp only [isName, Bool.and_eq_true] at h
  have := List.all_eq_true.mp h.2 '@' hmem
  simp [isNameChar] at this

theorem isExprName_of_isName {f : Str} (h : isName f = true) : isExprName f = true := by
  simp only [isName, Bool.and_eq_true] at h
  simp only [isExprName, Bool.and_eq_true]
  refine ⟨h.1, List.all_eq_true.mpr fun c hc => ?_⟩
  have := List.all_eq_true.mp h.2 c hc
  simp only [isNameChar, isExprNameChar] at this ⊢
  simp only [Bool.not_eq_true', Bool.or_eq_false_iff] at this ⊢
  tauto

/-- A conditional block on a name: every `@` of the buffer is followed by text that
satisfies `p`, when the texts behind the two `@` do. -/
theorem atAll_conditional (p : Str → Bool) (f P B S : Str) (hf : '@' ∉ f) (hP : '@' ∉ P)
    (hB : '@' ∉ B) (hS : '@' ∉ S)
    (h1 : p ("property(".toList ++ (f ++ ')' :: (B ++ ("@end".toList ++ S)))) = true)
    (h2 : p ("end".toList ++ S) = true) :
    atAll p (P ++ ("@property(".toList ++ (f ++ ')' :: (B ++ ("@end".toList ++ S))))) = true := by
  have e1 : "@property(".toList ++ (f ++ ')' :: (B ++ ("@end".toList ++ S)))
      = '@' :: ("property(".toList ++ (f ++ ')' :: (B ++ ("@end".toList ++ S)))) := rfl
  have e2 : "property(".toList ++ (f ++ ')' :: (B ++ ("@end".toList ++ S)))
      = ("property(".toList ++ f ++ ')' :: B) ++ '@' :: ("end".toList ++ S) := by
    simp
  have hfree : '@' ∉ ("property(".toList ++ f ++ ')' :: B) := by
    simp only [List.mem_append, List.mem_cons, not_or]
    exact ⟨⟨by decide, hf⟩, by decide, hB⟩
  rw [atAll_append_atFree _ _ _ hP, e1, atAll_at, h1, e2, atAll_append_atFree _ _ _ hfree,
    atAll_at, h2, atAll_append_atFree _ _ ("end".toList) (by decide), atAll_of_atFree _ _ hS]
  rfl

/-- The passes of `parse` from `parseForEach` on, for a buffer that holds one conditional
block on a name and no other `@`. -/
theorem parse_conditional_tail (fuel : Nat) (f P B S : Str) (properties : PropertyMap)
    (pieces : PiecesMap) (hf : isName f = true) (hP : '@' ∉ P) (hB : '@' ∉ B) (hS : '@' ∉ S)
    (hSne : S ≠ []) :
    (match parseForEach (P ++ ("@property(".toList ++ (f ++ ')' :: (B ++ ("@end".toList ++ S)))))
        properties with
      | none => none
      | some r2 =>
        match parseProperties (fuel + 1) r2.outBuffer r2.properties with
        | none => none
        | some r3 =>
          match collectPieces r3.outBuffer pieces with
          | none => none
          | some r4 =>
            match insertPieces (fuel + 1) r4.outBuffer r4.pieces with
            | none => none
            | some r5 =>
              match parseCounter r5.2 r3.properties with
              | none => none
              | some r6 => some (r6.outBuffer, r6.properties)) =
      some (P ++ ((if getProperty properties f ≠ 0 then B else []) ++ S), properties) := by
  have hfa := atFree_of_isName hf
  have hforeach : findAt ("@foreach".toList)
      (P ++ ("@property(".toList ++ (f ++ ')' :: (B ++ ("@end".toList ++ S))))) 0 = none :=
    findAt_none_of_atAll _ _ _
      (atAll_conditional _ f P B S hfa hP hB hS (by simp [startsWith]) (by simp [startsWith]))
  have hpass := parsePropertiesPass_single (.name false f) properties P B S
    (isExprName_of_isName hf) hP hB hS hSne
  have hout : '@' ∉ P ++ ((if getProperty properties f ≠ 0 then B else []) ++ S) := by
    split <;> simp [hP, hB, hS]
  have hev : BoolExpr.eval properties (.name false f) = decide (getProperty properties f ≠ 0) := by
    simp [BoolExpr.eval]
  have hpass2 : parsePropertiesPass
      (P ++ ("@property(".toList ++ (f ++ ')' :: (B ++ ("@end".toList ++ S))))) properties =
      some (P ++ ((if getProperty properties f ≠ 0 then B else []) ++ S), false) := by
    have : (BoolExpr.name false f).render = f := by simp [BoolExpr.render]
    rw [this, hev] at hpass
    rw [hpass]
    simp
  rw [parseForEach_of_find_none _ _ hforeach]
  simp only [parseProperties, hpass2]
  rw [parsePropertiesWhile_of_find_none _ _ _ _ (findAt_atFree _ _ _ hout)]
  exact parse_tail_atFree fuel _ properties pieces hout

/-- C3 (conditional inclusion). For every property name `f`, every property map and all
texts `P`, `B`, `S` without `@`, `S` not empty, `parse` on
`P ++ "@property(f)" ++ B ++ "@end" ++ S` with no piece files returns `P ++ B ++ S` when
the property `f` is not 0 and `P ++ S` when it is 0. -/
theorem parse_conditional (fuel : Nat) (f P B S : Str) (properties : PropertyMap)
    (hf : isName f = true) (hP : '@' ∉ P) (hB : '@' ∉ B) (hS : '@' ∉ S) (hSne : S ≠ []) :
    (parse (fuel + 1) (P ++ ("@property(".toList ++ (f ++ ')' :: (B ++ ("@end".toList ++ S)))))
        properties []).map Prod.fst =
      some (if getProperty properties f ≠ 0 then P ++ (B ++ S) else P ++ S) := by
  have hmath : atAll noMathAt
      (P ++ ("@property(".toList ++ (f ++ ')' :: (B ++ ("@end".toList ++ S))))) = true :=
    atAll_conditional _ f P B S (atFree_of_isName hf) hP hB hS (by simp [noMathAt])
      (by simp [noMathAt])
  simp only [parse, parsePieceFiles, parseMath_of_noMath _ _ hmath]
  rw [parse_conditional_tail fuel f P B S properties emptyPieces hf hP hB hS hSne]
  split <;> simp

theorem parse_conditional_witness :
    isName ['f'] = true ∧ '@' ∉ ['A'] ∧ '@' ∉ ['B'] ∧ '@' ∉ ['C'] ∧ ['C'] ≠ [] ∧
      (parse 1 (['A'] ++ ("@property(".toList ++ (['f'] ++ ')' :: (['B'] ++ ("@end".toList ++ ['C'])))))
        (setProperty emptyProperties ['f'] 1) []).map Prod.fst =
      some (if getProperty (setProperty emptyProperties ['f'] 1) ['f'] ≠ 0
        then ['A'] ++ (['B'] ++ ['C']) else ['A'] ++ ['C']) :=
  ⟨by decide, by decide, by decide, by decide, by decide,
    parse_conditional 0 ['f'] ['A'] ['B'] ['C'] _ (by decide) (by decide) (by decide)
      (by decide) (by decide)⟩

/-! ## Decimal texts -/

theorem toDigitsFuel_eq : ∀ (n fuel : Nat) (acc : Str), n < fuel →
    toDigitsFuel fuel n acc = toDigitsFuel (n + 1) n [] ++ acc := by
  intro n
  induction n using Nat.strong_induction_on with
  | _ n ih =>
    intro fuel acc hf
    obtain ⟨f, rfl⟩ : ∃ f, fuel = f + 1 := ⟨fuel - 1, by omega⟩
    by_cases h0 : n / 10 = 0
    · simp [toDigitsFuel, h0]
    · have hlt : n / 10 < n := Nat.div_lt_self (by omega) (by omega)
      simp only [toDigitsFuel, h0, if_false]
      rw [ih (n / 10) hlt f _ (by omega), ih (n / 10) hlt n _ hlt]
      simp

theorem decimalNat_eq (n : Nat) :
    decimalNat n =
      if n / 10 = 0 then [digitChar (n % 10)]
      else decimalNat (n / 10) ++ [digitChar (n % 10)] := by
  by_cases h0 : n / 10 = 0
  · simp [decimalNat, toDigitsFuel, h0]
  · have hlt : n / 10 < n := Nat.div_lt_self (by omega) (by omega)
    show toDigitsFuel (n + 1) n [] = _
    rw [toDigitsFuel]
    simp only [h0, if_false]
    rw [toDigitsFuel_eq (n / 10) n _ hlt]
    rfl

theorem digitChar_toNat (d : Nat) (h : d < 10) : (digitChar d).toNat = 48 + d := by
  interval_cases d <;> rfl

theorem isDigit_digitChar (d : Nat) (h : d < 10) : isDigit (digitChar d) = true := by
  simp [isDigit, digitChar_toNat d h]; omega

theorem digitsValue_append_singleton (c : Char) : ∀ (ds : Str) (a : Nat),
    digitsValue (ds ++ [c]) a = digitsValue ds a * 10 + (c.toNat - 48)
  | [], a => by simp [digitsValue]
  | d :: ds, a => by
    show digitsValue (ds ++ [c]) _ = digitsValue ds _ * 10 + _
    rw [digitsValue_append_singleton c ds]

theorem decimalNat_spec (n : Nat) :
    decimalNat n ≠ [] ∧ (decimalNat n).all isDigit = true ∧ digitsValue (decimalNat n) 0 = n := by
  induction n using Nat.strong_induction_on with
  | _ n ih =>
    have hd := isDigit_digitChar (n % 10) (Nat.mod_lt _ (by omega))
    have hv := digitChar_toNat (n % 10) (Nat.mod_lt _ (by omega))
    rw [decimalNat_eq]
    by_cases h0 : n / 10 = 0
    · simp only [h0, if_true]
      refine ⟨by simp, by simp [hd], ?_⟩
      simp only [digitsValue, hv]
      omega
    · have hlt : n / 10 < n := Nat.div_lt_self (by omega) (by omega)
      obtain ⟨_, h2, h3⟩ := ih (n / 10) hlt
      simp only [h0, if_false]
      refine ⟨by simp, by simp [h2, hd], ?_⟩
      rw [digitsValue_append_singleton, h3, hv]
      omega

theorem isNameChar_of_isDigit {c : Char} (h : isDigit c = true) : isNameChar c = true := by
  simp only [isDigit, Bool.and_eq_true, decide_eq_true_eq] at h
  have hne : ∀ d : Char, d.toNat < 48 ∨ 57 < d.toNat → c ≠ d := by
    intro d hd e; subst e; omega
  simp only [isNameChar, Bool.not_eq_true', Bool.or_eq_false_iff, beq_eq_false_iff_ne, ne_eq]
  refine ⟨⟨⟨⟨⟨⟨⟨⟨⟨⟨?_, ?_⟩, ?_⟩, ?_⟩, ?_⟩, ?_⟩, ?_⟩, ?_⟩, ?_⟩, ?_⟩, ?_⟩ <;>
    exact hne _ (by decide)

theorem isName_decimalInt (x : Int) : isName (decimalInt x) = true := by
  obtain ⟨h1, h2, _⟩ := decimalNat_spec x.natAbs
  have hall : (decimalNat x.natAbs).all isNameChar = true :=
    List.all_eq_true.mpr fun c hc => isNameChar_of_isDigit (List.all_eq_true.mp h2 c hc)
  unfold decimalInt isName
  split
  · simp only [List.isEmpty_cons, Bool.not_false, Bool.true_and, List.all_cons, hall,
      Bool.and_true]
    decide
  · cases hd : decimalNat x.natAbs with
    | nil => exact absurd hd h1
    | cons c cs => rw [hd] at hall; simpa using hall

theorem parseInt_digits (ds : Str) (d : Int) (hne : ds ≠ []) (hall : ds.all isDigit = true)
    (hr : (digitsValue ds 0 : Int) ≤ INT_MAX) : parseInt ds d = digitsValue ds 0 := by
  cases ds with
  | nil => exact absurd rfl hne
  | cons c cs =>
    have hc : c ≠ '-' := by
      intro e
      rw [e] at hall
      simp [isDigit] at hall
    have hlo : INT_MIN ≤ (digitsValue (c :: cs) 0 : Int) := by
      have : (0 : Int) ≤ (digitsValue (c :: cs) 0 : Int) := Int.ofNat_nonneg _
      simp only [INT_MIN]; omega
    unfold parseInt
    split
    rename_i x neg u heq
    split at heq
    · rename_i r h2
      simp only [List.cons.injEq] at h2
      exact absurd h2.1 hc
    · cases heq
      simp [hall, hlo, hr]

theorem parseInt_minus_digits (ds : Str) (d : Int) (hne : ds ≠ [])
    (hall : ds.all isDigit = true) (hr : INT_MIN ≤ -(digitsValue ds 0 : Int)) :
    parseInt ('-' :: ds) d = -(digitsValue ds 0 : Int) := by
  have hempty : ds.isEmpty = false := by
    cases ds with
    | nil => exact absurd rfl hne
    | cons c cs => rfl
  have hhi : -(digitsValue ds 0 : Int) ≤ INT_MAX := by
    have : (0 : Int) ≤ (digitsValue ds 0 : Int) := Int.ofNat_nonneg _
    simp only [INT_MAX]; omega
  simp [parseInt, hempty, hall, hr, hhi]

theorem parseInt_decimalInt (x d : Int) (h1 : INT_MIN ≤ x) (h2 : x ≤ INT_MAX) :
    parseInt (decimalInt x) d = x := by
  obtain ⟨hne, hall, hval⟩ := decimalNat_spec x.natAbs
  unfold decimalInt
  split
  · have e : -((digitsValue (decimalNat x.natAbs) 0 : Nat) : Int) = x := by rw [hval]; omega
    rw [parseInt_minus_digits _ d hne hall (by rw [e]; exact h1), e]
  · have e : ((digitsValue (decimalNat x.natAbs) 0 : Nat) : Int) = x := by rw [hval]; omega
    rw [parseInt_digits _ d hne hall (by rw [e]; exact h2), e]

/-! ## evaluateParamArgs on a list of names -/

theorem pushBackLast_append_singleton (cur : Str) (c : Char) :
    ∀ done : List Str, pushBackLast (done ++ [cur]) c = done ++ [cur ++ [c]]
  | [] => rfl
  | [a] => rfl
  | a :: b :: done => by
    have := pushBackLast_append_singleton cur c (b :: done)
    simp only [List.cons_append] at this ⊢
    simp only [pushBackLast, this]

theorem isNameChar_ne {c : Char} (h : isNameChar c = true) :
    c ≠ '(' ∧ c ≠ ')' ∧ c ≠ '@' ∧ c ≠ '&' ∧ c ≠ '|' ∧ c ≠ ' ' ∧ c ≠ '\t' ∧ c ≠ '\n' ∧
      c ≠ '\r' ∧ c ≠ ',' := by
  simp [isNameChar] at h
  tauto

theorem evaluateParamArgsLoop_step_name (c : Char) (hc : isNameChar c = true) (cs : Str)
    (st : Nat) (hst : st ≤ 1) (done : List Str) (cur : Str) :
    evaluateParamArgsLoop (c :: cs) st (done ++ [cur]) false =
      evaluateParamArgsLoop cs 1 (done ++ [cur ++ [c]]) false := by
  obtain ⟨h1, h2, h3, h4, h5, h6, h7, h8, h9, h10⟩ := isNameChar_ne hc
  have hst2 : st ≠ 2 := by omega
  rw [evaluateParamArgsLoop]
  simp [h1, h2, h3, h4, h5, h6, h7, h8, h9, h10, hst2, pushBackLast_append_singleton]

theorem evaluateParamArgsLoop_started (rest : Str) (done : List Str) :
    ∀ (a cur : Str), a.all isNameChar = true →
      evaluateParamArgsLoop (a ++ rest) 1 (done ++ [cur]) false =
        evaluateParamArgsLoop rest 1 (done ++ [cur ++ a]) false
  | [], cur, _ => by simp
  | c :: a, cur, h => by
    simp only [List.all_cons, Bool.and_eq_true] at h
    rw [List.cons_append, evaluateParamArgsLoop_step_name c h.1 _ 1 (le_refl _),
      evaluateParamArgsLoop_started rest done a _ h.2]
    simp

theorem evaluateParamArgsLoop_name (rest : Str) (done : List Str) (a : Str)
    (ha : isName a = true) :
    evaluateParamArgsLoop (a ++ rest) 0 (done ++ [[]]) false =
      evaluateParamArgsLoop rest 1 (done ++ [a]) false := by
  cases a with
  | nil => simp [isName] at ha
  | cons c a =>
    simp only [isName, List.all_cons, Bool.and_eq_true] at ha
    rw [List.cons_append, evaluateParamArgsLoop_step_name c ha.2.1 _ 0 (by omega),
      evaluateParamArgsLoop_started rest done a _ ha.2.2]
    simp

theorem evaluateParamArgsLoop_separator (rest : Str) (st : Nat) (args : List Str) :
    evaluateParamArgsLoop (", ".toList ++ rest) st args false =
      evaluateParamArgsLoop rest 0 (args ++ [[]]) false := by
  show evaluateParamArgsLoop (',' :: ' ' :: rest) st args false = _
  rw [evaluateParamArgsLoop]
  simp only [Bool.false_eq_true, if_false]
  rw [if_neg (by decide), if_neg (by decide)]
  simp only [if_true]
  rw [evaluateParamArgsLoop]
  simp

theorem evaluateParamArgsLoop_argsText : ∀ (as : List Str), as ≠ [] →
    (∀ a ∈ as, isName a = true) → ∀ done : List Str,
      evaluateParamArgsLoop (argsText as) 0 (done ++ [[]]) false = (done ++ as, false)
  | [], h, _, _ => absurd rfl h
  | [a], _, h, done => by
    have := evaluateParamArgsLoop_name [] done a (h a (by simp))
    simp only [List.append_nil] at this
    simp only [argsText, this, evaluateParamArgsLoop]
  | a :: b :: rest, _, h, done => by
    have ih := evaluateParamArgsLoop_argsText (b :: rest) (by simp)
      (fun x hx => h x (by simp at hx ⊢; tauto)) (done ++ [a])
    simp only [argsText]
    rw [evaluateParamArgsLoop_name _ done a (h a (by simp)), evaluateParamArgsLoop_separator, ih]
    simp

theorem noParen_argsText : ∀ (as : List Str), (∀ a ∈ as, isName a = true) →
    ∀ c ∈ argsText as, c ≠ '(' ∧ c ≠ ')'
  | [], _, c, hc => by simp [argsText] at hc
  | [a], h, c, hc => by
    have ha := h a (by simp)
    simp only [isName, Bool.and_eq_true] at ha
    have := isNameChar_ne (List.all_eq_true.mp ha.2 c (by simpa [argsText] using hc))
    exact ⟨this.1, this.2.1⟩
  | a :: b :: rest, h, c, hc => by
    have ha := h a (by simp)
    simp only [isName, Bool.and_eq_true] at ha
    simp only [argsText, List.mem_append] at hc
    rcases hc with hc | hc | hc
    · have := isNameChar_ne (List.all_eq_true.mp ha.2 c hc)
      exact ⟨this.1, this.2.1⟩
    · have : c = ',' ∨ c = ' ' := by simpa using hc
      rcases this with rfl | rfl <;> decide
    · exact noParen_argsText (b :: rest) (fun x hx => h x (by simp at hx ⊢; tauto)) c hc

/-- The function `evaluateParamArgs` on a list of names joined by `", "` and closed by `)`
with at least one byte after it. -/
theorem evaluateParamArgs_argsText {buf rest : Str} {st : Nat} (as old : List Str)
    (has : as ≠ []) (hnames : ∀ a ∈ as, isName a = true) (hst : st ≤ buf.length)
    (hbuf : buf.drop st = argsText as ++ ')' :: rest) (hrest : rest ≠ []) :
    evaluateParamArgs (SubStringRef.fromStart buf st) old =
      (SubStringRef.fromStart buf (st + (argsText as).length + 1), as, false) := by
  have hend : evaluateExpressionEnd (SubStringRef.fromStart buf st)
      = some (argsText as).length :=
    evaluateExpressionEnd_of_loop hst hbuf hrest
      (evaluateExpressionEndLoop_noParen _ _ 0 0 (noParen_argsText as hnames) (le_refl _))
  have hcontent : (⟨buf, st, st + (argsText as).length⟩ : SubStringRef).content
      = argsText as := by
    simp [SubStringRef.content, hbuf]
  have hloop := evaluateParamArgsLoop_argsText as has hnames []
  simp only [List.nil_append] at hloop
  rw [evaluateParamArgs, hend]
  simp only [SubStringRef.fromStart, SubStringRef.getStart, hcontent, hloop]

/-! ## One directive of parseMath -/

theorem findFirstOfAt_skip (chars rest : Str) (d : Char) (hd : chars.contains d = true) :
    ∀ (name : Str) (i : Nat), (∀ c ∈ name, chars.contains c = false) →
      findFirstOfAt chars (name ++ d :: rest) i = some (i + name.length)
  | [], i, _ => by
    rw [List.nil_append, findFirstOfAt, if_pos hd]
    simp
  | c :: name, i, h => by
    have hc := h c (by simp)
    rw [List.cons_append, findFirstOfAt, if_neg (by rw [hc]; exact Bool.false_ne_true),
      findFirstOfAt_skip chars rest d hd name (i + 1) (fun x hx => h x (by simp [hx]))]
    simp only [List.length_cons, Option.some.injEq]; omega

theorem mathName_spec (k : Nat) (hk : k < 6) :
    ∃ op, c_operations.get? k = some op ∧ op.opName = mathName k ∧ op.length = 6 ∧
      (mathName k).length = 4 ∧
      (∀ c ∈ mathName k, (" \t(".toList).contains c = false) := by
  interval_cases k <;> exact ⟨_, rfl, rfl, rfl, rfl, by decide⟩

theorem matchKeyword_mathName (ks : SubStringRef) (k : Nat) (hk : k < 6)
    (h : ks.content = mathName k) : matchKeyword ks c_operations 0 = some k := by
  interval_cases k <;>
    simp only [matchKeyword, c_operations, SubStringRef.matchEqual, h] <;> decide

theorem wrapInt32_of_inInt32 {x : Int} (h : inInt32 x) : wrapInt32 x = x := by
  obtain ⟨h1, h2⟩ := h
  simp only [INT_MIN, INT_MAX] at h1 h2
  unfold wrapInt32
  omega

theorem parseMathLoop_none (buf : Str) (fuel : Nat) (hfuel : 0 < fuel) (sub : SubStringRef)
    (kw : Option Nat) (args : List Str) (properties : PropertyMap) (out : Str) (err : Bool) :
    parseMathLoop buf fuel sub none kw args properties out err =
      some (sub, ⟨err, out, properties⟩) := by
  cases fuel with
  | zero => omega
  | succ n => rfl

/-- One well-formed directive of `parseMath`, after text without `@` and before a
non-empty text in which no `@` starts an operation name: the directive is removed, the
rest is copied, and the property map is the one `applyOperation` gives. -/
theorem parseMath_directive (k : Nat) (hk : k < 6) (op : Operation)
    (hop : c_operations.get? k = some op) (as : List Str) (h2 : 2 ≤ as.length)
    (h3 : as.length ≤ 3) (hnames : ∀ a ∈ as, isName a = true) (P S : Str)
    (properties properties2 : PropertyMap) (hP : '@' ∉ P) (hS : atAll noMathAt S = true)
    (hSne : S ≠ []) (happly : applyOperation op as properties = some properties2) :
    parseMath (P ++ '@' :: (mathName k ++ '(' :: (argsText as ++ ')' :: S))) properties =
      some ⟨false, P ++ S, properties2⟩ := by
  obtain ⟨op', hop', hname, hlen, hnl, hnc⟩ := mathName_spec k hk
  rw [hop] at hop'
  cases hop'
  generalize hbuf : P ++ '@' :: (mathName k ++ '(' :: (argsText as ++ ')' :: S)) = buf
  have h0 : buf.drop 0 = P ++ '@' :: (mathName k ++ '(' :: (argsText as ++ ')' :: S)) := by
    rw [← hbuf]; rfl
  have hSpos : 0 < S.length := List.length_pos.mpr hSne
  have hlen' : buf.length = P.length + (1 + (4 + (1 + ((argsText as).length + (1 + S.length))))) := by
    rw [← hbuf]
    simp only [List.length_append, List.length_cons, hnl]
    omega
  have hd1 : buf.drop (P.length + 1) = mathName k ++ '(' :: (argsText as ++ ')' :: S) := by
    have a := drop_add_of_drop_eq h0
    simp only [Nat.zero_add] at a
    exact drop_succ_of_drop_eq a
  have hd2 : buf.drop (P.length + 6) = argsText as ++ ')' :: S := by
    have a := drop_add_of_drop_eq hd1
    rw [hnl] at a
    exact drop_succ_of_drop_eq a
  have hd3 : buf.drop (P.length + 6 + (argsText as).length + 1) = S := by
    have a := drop_add_of_drop_eq hd2
    exact drop_succ_of_drop_eq a
  have hfind : (SubStringRef.fromStart buf 0).find ("@".toList) 0 = some P.length := by
    show (SubStringRef.fromStart buf 0).find ('@' :: []) 0 = some P.length
    rw [find_zero_fromStart_zero, ← hbuf, findAt_append_atFree _ _ _ _ hP]
    simp [findAt, startsWith]
  have hffo : (SubStringRef.fromStart buf 0).findFirstOf (" \t(".toList) (P.length + 1)
      = some (P.length + 5) := by
    simp only [SubStringRef.findFirstOf, SubStringRef.fromStart, strFindFirstOf, Nat.zero_add,
      hd1]
    rw [findFirstOfAt_skip _ _ '(' (by decide) _ _ hnc, hnl]
    simp; omega
  have hcontent : (⟨buf, (SubStringRef.fromStart buf 0).getStart + P.length + 1,
      (SubStringRef.fromStart buf 0).getStart + (P.length + 5)⟩ : SubStringRef).content
      = mathName k := by
    simp only [SubStringRef.content, SubStringRef.fromStart, SubStringRef.getStart,
      Nat.zero_add, hd1]
    rw [show P.length + 5 - (P.length + 1) = (mathName k).length by rw [hnl]; omega]
    simp
  have hscan1 : parseMathScan buf (SubStringRef.fromStart buf 0) (buf.length + 1)
      (some P.length) = some (some P.length, some k) := by
    rw [parseMathScan]
    simp only [hffo, matchKeyword_mathName _ k hk hcontent]
  have hcopy : copy (SubStringRef.fromStart buf 0) P.length = P := copy_fromStart h0
  have hset1 : (SubStringRef.fromStart buf 0).setStart
      ((SubStringRef.fromStart buf 0).getStart + P.length + op.length)
      = SubStringRef.fromStart buf (P.length + 6) := by
    rw [setStart_fromStart (by simp [SubStringRef.getStart, SubStringRef.fromStart, hlen]; omega)]
    simp [SubStringRef.getStart, SubStringRef.fromStart, hlen]
  have hargs := evaluateParamArgs_argsText as [] (by intro e; rw [e] at h2; simp at h2) hnames
    (show P.length + 6 ≤ buf.length by omega) hd2 hSne
  have hscan2 : parseMathScan buf
      (SubStringRef.fromStart buf (P.length + 6 + (argsText as).length + 1)) (buf.length + 1)
      ((SubStringRef.fromStart buf (P.length + 6 + (argsText as).length + 1)).find
        ("@".toList) 0) = some (none, none) :=
    parseMathScan_none buf _ buf.length 0 _ (by omega) (by omega) (by omega)
      (by rw [Nat.add_zero, hd3]; exact hS)
  have hcopyS := copy_fromStart_all
    (show P.length + 6 + (argsText as).length + 1 ≤ buf.length by omega) hd3
  have hsize : (decide (as.length < 2) || decide (as.length > 3)) = false := by
    simp; omega
  rw [parseMath, hfind, hscan1]
  simp only
  rw [parseMathLoop]
  simp only [Bool.false_eq_true, if_false, Option.bind, hop, hcopy, hset1, hargs,
    Bool.false_or, hsize, happly, hscan2, parseMathLoop_none buf buf.length (by omega)]
  rw [hcopyS]
  simp

/-! ## parseMath semantics -/

theorem opFunc_mathFunction (k : Nat) (hk : k < 6) (op : Operation)
    (hop : c_operations.get? k = some op) (a b : Int) (hzero : 4 ≤ k → b ≠ 0)
    (hmin : k = 5 → ¬ (a = -2147483648 ∧ b = -1))
    (hres : inInt32 (mathFunction k a b)) :
    ∃ f, op.opFunc = some f ∧ f a b = some (mathFunction k a b) := by
  interval_cases k <;> (simp only [c_operations, List.get?, Option.some.injEq] at hop; subst hop)
  · exact ⟨_, rfl, rfl⟩
  · exact ⟨_, rfl, congrArg some (wrapInt32_of_inInt32 hres)⟩
  · exact ⟨_, rfl, congrArg some (wrapInt32_of_inInt32 hres)⟩
  · exact ⟨_, rfl, congrArg some (wrapInt32_of_inInt32 hres)⟩
  · exact ⟨_, rfl, by
      have hne : ¬ (b = 0 ∨ (a = INT_MIN ∧ b = -1)) := by
        rintro (h | ⟨h1, h2⟩)
        · exact hzero (by omega) h
        · rw [h1, h2] at hres
          revert hres
          unfold inInt32 mathFunction INT_MIN INT_MAX
          decide
      simp only [divOp, if_neg hne]
      exact congrArg some (wrapInt32_of_inInt32 hres)⟩
  · exact ⟨_, rfl, by
      have hne : ¬ (b = 0 ∨ (a = INT_MIN ∧ b = -1)) := by
        rintro (h | h)
        · exact hzero (by omega) h
        · exact hmin rfl h
      simp only [modOp, if_neg hne]
      exact congrArg some (wrapInt32_of_inInt32 hres)⟩

/-- The second operand a directive of `parseMath` reads from the argument text `arg`:
the number `n` when `arg` is its decimal text and `n` is an `int` other than the sentinel,
the current value of the property `arg` when `arg` is not read as a number. -/
theorem operand_value (arg : Str) (n : Int) (properties : PropertyMap)
    (harg : (arg = decimalInt n ∧ inInt32 n ∧ n ≠ -2147483647) ∨
      (parseInt arg notANumber = notANumber ∧ n = getProperty properties arg)) :
    (if parseInt arg notANumber = notANumber then getProperty properties arg
      else parseInt arg notANumber) = n := by
  rcases harg with ⟨rfl, hr, hne⟩ | ⟨hp, hn⟩
  · rw [parseInt_decimalInt n _ hr.1 hr.2, if_neg]
    simpa [notANumber, INT_MAX] using hne
  · rw [if_pos hp, hn]

theorem applyOperation_args (k : Nat) (hk : k < 6) (op : Operation)
    (hop : c_operations.get? k = some op) (dst : Str) (src : Option Str) (arg : Str) (n : Int)
    (properties : PropertyMap)
    (harg : (arg = decimalInt n ∧ inInt32 n ∧ n ≠ -2147483647) ∨
      (parseInt arg notANumber = notANumber ∧ n = getProperty properties arg))
    (hzero : 4 ≤ k → n ≠ 0)
    (hmin : k = 5 → ¬ (getProperty properties (src.getD dst) = -2147483648 ∧ n = -1))
    (hres : inInt32 (mathFunction k (getProperty properties (src.getD dst)) n)) :
    applyOperation op (dst :: (src.toList ++ [arg])) properties =
      some (setProperty properties dst
        (mathFunction k (getProperty properties (src.getD dst)) n)) := by
  obtain ⟨f, hf, hfv⟩ := opFunc_mathFunction k hk op hop
    (getProperty properties (src.getD dst)) n hzero hmin hres
  have hv := operand_value arg n properties harg
  cases src with
  | none =>
    simp only [Option.getD] at hfv
    simp [applyOperation, hf, hv, hfv]
  | some s =>
    simp only [Option.getD] at hfv
    simp [applyOperation, hf, hv, hfv]

/-- C6 (parseMath semantics), amended. For each of the six operations, all names `dst`
and optional `src`, all texts `P` without `@` and non-empty `S` without `@`: when the last
argument is the decimal text of an `int` `n` other than -2147483647, or a name that is not
read as a number and whose property has the value `n`, with `n` not 0 for `pdiv` and
`pmod`, the operands of `pmod` not -2147483648 and -1, and the result an `int` (which
keeps the operands of `pdiv` from being -2147483648 and -1), `parseMath` reports no error,
outputs `P ++ S` and changes the property map only at `dst`, to the result of the
operation on the value of `src` (of `dst` in the two-argument form) and `n`. -/
theorem parseMath_semantics (k : Nat) (hk : k < 6) (dst : Str) (src : Option Str) (arg : Str)
    (n : Int) (P S : Str) (properties : PropertyMap) (hdst : isName dst = true)
    (hsrc : ∀ s, src = some s → isName s = true)
    (harg : (arg = decimalInt n ∧ inInt32 n ∧ n ≠ -2147483647) ∨
      (isName arg = true ∧ parseInt arg notANumber = notANumber ∧
        n = getProperty properties arg))
    (hzero : 4 ≤ k → n ≠ 0)
    (hmin : k = 5 → ¬ (getProperty properties (src.getD dst) = -2147483648 ∧ n = -1))
    (hres : inInt32 (mathFunction k (getProperty properties (src.getD dst)) n))
    (hP : '@' ∉ P) (hS : '@' ∉ S) (hSne : S ≠ []) :
    parseMath
        (P ++ '@' :: (mathName k ++ '(' :: (argsText (dst :: (src.toList ++ [arg])) ++ ')' :: S)))
        properties =
      some ⟨false, P ++ S,
        setProperty properties dst
          (mathFunction k (getProperty properties (src.getD dst)) n)⟩ := by
  obtain ⟨op, hop, _⟩ := mathName_spec k hk
  have hargName : isName arg = true := by
    rcases harg with ⟨rfl, _, _⟩ | ⟨h, _, _⟩
    · exact isName_decimalInt n
    · exact h
  have harg' : (arg = decimalInt n ∧ inInt32 n ∧ n ≠ -2147483647) ∨
      (parseInt arg notANumber = notANumber ∧ n = getProperty properties arg) := by
    rcases harg with h | ⟨_, h2, h3⟩
    · exact Or.inl h
    · exact Or.inr ⟨h2, h3⟩
  have hnames : ∀ a ∈ dst :: (src.toList ++ [arg]), isName a = true := by
    intro a ha
    simp only [List.mem_cons, List.mem_append, Option.mem_toList, Option.mem_def,
      List.mem_singleton, List.not_mem_nil, or_false] at ha
    rcases ha with rfl | h | rfl
    · exact hdst
    · exact hsrc a h
    · exact hargName
  have hlen2 : 2 ≤ (dst :: (src.toList ++ [arg])).length := by
    cases src <;> simp
  have hlen3 : (dst :: (src.toList ++ [arg])).length ≤ 3 := by
    cases src <;> simp
  exact parseMath_directive k hk op hop _ hlen2 hlen3 hnames P S properties _ hP
    (atAll_of_atFree _ _ hS) hSne
    (applyOperation_args k hk op hop dst src arg n properties harg' hzero hmin hres)

theorem parseMath_semantics_witness :
    isName ['a'] = true ∧ isName ['b'] = true ∧ inInt32 3 ∧ (3 : Int) ≠ -2147483647 ∧
      ¬ (getProperty (setProperty emptyProperties ['b'] 7) ((some ['b']).getD ['a'])
          = -2147483648 ∧ (3 : Int) = -1) ∧
      inInt32 (mathFunction 5 (getProperty (setProperty emptyProperties ['b'] 7) ['b']) 3) ∧
      '@' ∉ ['x'] ∧ '@' ∉ ['y'] ∧ ['y'] ≠ [] ∧
      parseMath
          (['x'] ++ '@' :: (mathName 5 ++ '(' ::
            (argsText (['a'] :: ((some ['b']).toList ++ [decimalInt 3])) ++ ')' :: ['y'])))
          (setProperty emptyProperties ['b'] 7) =
        some ⟨false, ['x'] ++ ['y'],
          setProperty (setProperty emptyProperties ['b'] 7) ['a']
            (mathFunction 5 (getProperty (setProperty emptyProperties ['b'] 7)
              ((some ['b']).getD ['a'])) 3)⟩ :=
  ⟨by decide, by decide, by unfold inInt32 INT_MIN INT_MAX; decide, by decide,
    fun h => absurd h.2 (by decide),
    by unfold inInt32 INT_MIN INT_MAX; decide, by decide, by decide, by decide,
    parseMath_semantics 5 (by decide) ['a'] (some ['b']) (decimalInt 3) 3 ['x'] ['y']
      (setProperty emptyProperties ['b'] 7) (by decide)
      (fun s hs => by cases hs; decide)
      (Or.inl ⟨rfl, by unfold inInt32 INT_MIN INT_MAX; decide, by decide⟩)
      (fun _ => by decide) (fun _ h => absurd h.2 (by decide))
      (by unfold inInt32 INT_MIN INT_MAX; decide) (by decide) (by decide)
      (by decide)⟩

set_option maxRecDepth 100000 in
/-- C6 as stated fails for the literal -2147483647, which is an `int`: on the empty
property map `@pset(x, -2147483647)` does not set `x` to -2147483647 but leaves it at 0,
because the code takes that number for its not-a-number sentinel and reads the property
named `-2147483647` instead. It also fails for `@pmod(x, -1)` with `x` at -2147483648:
the remainder 0 is an `int` and the divisor is not 0, but `op1 % op2` has no defined
value there and the pass does not return. -/
theorem parseMath_semantics_counterexample :
    inInt32 (mathFunction 5 (-2147483648) (-1)) ∧
    (parseMath
        ([] ++ '@' :: (mathName 5 ++ '(' ::
          (argsText (['x'] :: ((none : Option Str).toList ++ [decimalInt (-1)]))
            ++ ')' :: [' ']))) (setProperty emptyProperties ['x'] (-2147483648))).isNone
      = true ∧
    inInt32 (-2147483647) ∧ isName ['x'] = true ∧ '@' ∉ ([] : Str) ∧ '@' ∉ [' '] ∧
      (parseMath
          ([] ++ '@' :: (mathName 0 ++ '(' ::
            (argsText (['x'] :: ((none : Option Str).toList ++ [decimalInt (-2147483647)]))
              ++ ')' :: [' ']))) emptyProperties).map
        (fun r => (r.syntaxError, r.outBuffer, getProperty r.properties ['x'])) =
        some (false, [' '], 0) ∧
      ¬ (parseMath
          ([] ++ '@' :: (mathName 0 ++ '(' ::
            (argsText (['x'] :: ((none : Option Str).toList ++ [decimalInt (-2147483647)]))
              ++ ')' :: [' ']))) emptyProperties =
        some ⟨false, [] ++ [' '],
          setProperty emptyProperties ['x']
            (mathFunction 0 (getProperty emptyProperties ((none : Option Str).getD ['x']))
              (-2147483647))⟩) :=
  ⟨by unfold inInt32 INT_MIN INT_MAX; decide, by decide,
    by unfold inInt32 INT_MIN INT_MAX; decide, by decide, by decide, by decide, by decide,
    fun h => by
      have h2 := congrArg (Option.map fun r => getProperty r.properties ['x']) h
      revert h2
      decide⟩

/-! ## insertPieces -/

theorem insertPiecesLoop_none (pieces : PiecesMap) (fuel : Nat) (hfuel : 0 < fuel)
    (sub : SubStringRef) (args : List Str) (out : Str) (err : Bool) :
    insertPiecesLoop pieces fuel sub none args out err = some (sub, out, err) := by
  cases fuel with
  | zero => omega
  | succ n => rfl

theorem insertPiecesPass_single (pieces : PiecesMap) (n P S : Str) (hn : isName n = true)
    (hP : '@' ∉ P) (hS : '@' ∉ S) (hSne : S ≠ []) :
    insertPiecesPass (P ++ ("@insertpiece(".toList ++ (n ++ ')' :: S))) pieces =
      some (P ++ ((pieces n).getD [] ++ S), false) := by
  generalize hbuf : P ++ ("@insertpiece(".toList ++ (n ++ ')' :: S)) = buf
  have h0 : buf.drop 0 = P ++ ("@insertpiece(".toList ++ (n ++ ')' :: S)) := by
    rw [← hbuf]; rfl
  have hSpos : 0 < S.length := List.length_pos.mpr hSne
  have h13 : ("@insertpiece(".toList).length = 13 := rfl
  have hlen : buf.length = P.length + (13 + (n.length + (1 + S.length))) := by
    rw [← hbuf]
    simp only [List.length_append, List.length_cons, h13]
    omega
  have h1 : buf.drop (P.length + 13) = argsText [n] ++ ')' :: S := by
    have a := drop_add_of_drop_eq h0
    have b := drop_add_of_drop_eq a
    simpa [argsText] using b
  have hal : (argsText [n]).length = n.length := rfl
  have h2 : buf.drop (P.length + 13 + (argsText [n]).length + 1) = S := by
    have a := drop_add_of_drop_eq h1
    exact drop_succ_of_drop_eq a
  have hfind : (SubStringRef.fromStart buf 0).find ("@insertpiece".toList) 0
      = some P.length := by
    show (SubStringRef.fromStart buf 0).find ('@' :: "insertpiece".toList) 0 = some P.length
    rw [find_zero_fromStart_zero, ← hbuf, findAt_append_atFree _ _ _ _ hP]
    have := findAt_hit ("@insertpiece".toList) ('(' :: (n ++ ')' :: S)) (0 + P.length)
      (by decide)
    rw [Nat.zero_add] at this ⊢
    exact this
  have hcopy : copy (SubStringRef.fromStart buf 0) P.length = P := copy_fromStart h0
  have hset1 : (SubStringRef.fromStart buf 0).setStart
      ((SubStringRef.fromStart buf 0).getStart + P.length + 13)
      = SubStringRef.fromStart buf (P.length + 13) := by
    rw [setStart_fromStart (by simp [SubStringRef.getStart, SubStringRef.fromStart]; omega)]
    simp [SubStringRef.getStart, SubStringRef.fromStart]
  have hargs := evaluateParamArgs_argsText [n] [] (by simp) (by simpa using hn)
    (show P.length + 13 ≤ buf.length by omega) h1 hSne
  have hfind2 : (SubStringRef.fromStart buf
      (P.length + 13 + (argsText [n]).length + 1)).find ("@insertpiece".toList) 0 = none := by
    show (SubStringRef.fromStart buf _).find ('@' :: "insertpiece".toList) 0 = none
    rw [find_fromStart _ _ (by omega) h2, findAt_atFree _ _ _ hS]
  have hcopyS := copy_fromStart_all
    (show P.length + 13 + (argsText [n]).length + 1 ≤ buf.length by omega) h2
  rw [insertPiecesPass, hfind, insertPiecesLoop]
  simp only [Bool.false_eq_true, if_false, hcopy, hset1, hargs, List.length_singleton,
    ne_eq, not_true_eq_false, decide_False, Bool.or_self, List.get?, hfind2]
  cases hp : pieces n with
  | none =>
    simp only [insertPiecesLoop_none pieces buf.length (by omega), hcopyS]
    simp
  | some body =>
    simp only [insertPiecesLoop_none pieces buf.length (by omega), hcopyS]
    simp

/-- C9 (insertPieces substitution). For every piece library whose bodies hold no `@`,
every name `n` and all texts `P` and non-empty `S` without `@`, `insertPieces` on
`P ++ "@insertpiece(n)" ++ S` reports no error and outputs `P ++ pieces[n] ++ S` when `n`
is registered and `P ++ S` when it is not, whatever positive bound is given for the
recursion depth. -/
theorem insertPieces_substitution (fuel : Nat) (pieces : PiecesMap) (n P S : Str)
    (hpieces : ∀ m body, pieces m = some body → '@' ∉ body) (hn : isName n = true)
    (hP : '@' ∉ P) (hS : '@' ∉ S) (hSne : S ≠ []) :
    insertPieces (fuel + 1) (P ++ ("@insertpiece(".toList ++ (n ++ ')' :: S))) pieces =
      some (false,
        match pieces n with
        | some body => P ++ (body ++ S)
        | none => P ++ S) := by
  have hout : '@' ∉ P ++ ((pieces n).getD [] ++ S) := by
    cases hp : pieces n with
    | none => simp [hP, hS]
    | some body => simp [hP, hS, hpieces n body hp]
  rw [insertPieces, insertPiecesPass_single pieces n P S hn hP hS hSne]
  simp only
  rw [insertPiecesWhile_of_find_none _ _ _ _ (findAt_atFree _ _ _ hout)]
  cases pieces n <;> simp

theorem insertPieces_substitution_witness :
    isName "greet".toList = true ∧ '@' ∉ ['X'] ∧ '@' ∉ ['Y'] ∧ ['Y'] ≠ [] ∧
      insertPieces 1 (['X'] ++ ("@insertpiece(".toList ++ ("greet".toList ++ ')' :: ['Y'])))
          (insertPiece emptyPieces "greet".toList "hi".toList) =
        some (false,
          match insertPiece emptyPieces "greet".toList "hi".toList "greet".toList with
          | some body => ['X'] ++ (body ++ ['Y'])
          | none => ['X'] ++ ['Y']) :=
  ⟨by decide, by decide, by decide, by decide,
    insertPieces_substitution 0 _ _ ['X'] ['Y']
      (fun m body h => by
        simp only [insertPiece, emptyPieces] at h
        split at h
        · cases h; decide
        · cases h)
      (by decide) (by decide) (by decide) (by decide)⟩

/-! ## Property arithmetic before a conditional block -/

/-- The driver on `@pset(f, arg)` followed by a conditional block on `f`, for an argument
text `arg` that `parseMath` reads as the value `n`. -/
theorem parse_pset_conditional (fuel : Nat) (f arg P B S : Str) (n : Int)
    (properties : PropertyMap) (hf : isName f = true) (hargName : isName arg = true)
    (harg : (arg = decimalInt n ∧ inInt32 n ∧ n ≠ -2147483647) ∨
      (parseInt arg notANumber = notANumber ∧ n = getProperty properties arg))
    (hn : inInt32 n) (hP : '@' ∉ P) (hB : '@' ∉ B) (hS : '@' ∉ S) (hSne : S ≠ []) :
    parse (fuel + 1)
        ("@pset(".toList ++ (f ++ (", ".toList ++ (arg ++ ')' ::
          (P ++ ("@property(".toList ++ (f ++ ')' :: (B ++ ("@end".toList ++ S)))))))))
        properties [] =
      some (if n ≠ 0 then P ++ (B ++ S) else P ++ S, setProperty properties f n) := by
  have hmath : atAll noMathAt
      (P ++ ("@property(".toList ++ (f ++ ')' :: (B ++ ("@end".toList ++ S))))) = true :=
    atAll_conditional _ f P B S (atFree_of_isName hf) hP hB hS (by simp [noMathAt])
      (by simp [noMathAt])
  have hnames : ∀ a ∈ [f, arg], isName a = true := by
    intro a ha
    simp only [List.mem_cons, List.mem_singleton, List.not_mem_nil, or_false] at ha
    rcases ha with rfl | rfl
    · exact hf
    · exact hargName
  have happly := applyOperation_args 0 (by decide) ⟨"pset".toList, 6, some setOp⟩ rfl f none
    arg n properties harg (fun h => by omega) (fun h => by omega) hn
  have hpm := parseMath_directive 0 (by decide) ⟨"pset".toList, 6, some setOp⟩ rfl
    [f, arg] (by simp) (by simp) hnames []
    (P ++ ("@property(".toList ++ (f ++ ')' :: (B ++ ("@end".toList ++ S)))))
    properties _ (by simp) hmath (by simp) happly
  have hin : "@pset(".toList ++ (f ++ (", ".toList ++ (arg ++ ')' ::
      (P ++ ("@property(".toList ++ (f ++ ')' :: (B ++ ("@end".toList ++ S))))))))
      = [] ++ '@' :: (mathName 0 ++ '(' :: (argsText [f, arg] ++ ')' ::
        (P ++ ("@property(".toList ++ (f ++ ')' :: (B ++ ("@end".toList ++ S))))))) := by
    simp [mathName, c_operations, argsText]
  have hget : getProperty (setProperty properties f (mathFunction 0
      (getProperty properties ((none : Option Str).getD f)) n)) f = n := by
    simp [getProperty, setProperty, mathFunction]
  have hset : setProperty properties f (mathFunction 0
      (getProperty properties ((none : Option Str).getD f)) n) = setProperty properties f n := rfl
  simp only [List.nil_append] at hpm hin
  rw [hin]
  simp only [parse, parsePieceFiles, hpm]
  rw [parse_conditional_tail fuel f P B S _ emptyPieces hf hP hB hS hSne, hget, hset]
  split <;> simp

/-- C10 (pass ordering), amended. For every property name `f`, every `int` `x` other than
-2147483647 written in decimal, every initial property map and all texts `P`, `B`, `S`
without `@`, `S` not empty, `parse` on
`"@pset(f, x)" ++ P ++ "@property(f)" ++ B ++ "@end" ++ S` with no piece files returns
`P ++ B ++ S` when `x` is not 0 and `P ++ S` when it is 0, whatever the initial value of
`f`, and the property map afterwards is the initial one with `f` set to `x`. -/
theorem parse_pset_then_property (fuel : Nat) (f P B S : Str) (x : Int)
    (properties : PropertyMap) (hf : isName f = true) (hx : inInt32 x)
    (hx2 : x ≠ -2147483647) (hP : '@' ∉ P) (hB : '@' ∉ B) (hS : '@' ∉ S) (hSne : S ≠ []) :
    parse (fuel + 1)
        ("@pset(".toList ++ (f ++ (", ".toList ++ (decimalInt x ++ ')' ::
          (P ++ ("@property(".toList ++ (f ++ ')' :: (B ++ ("@end".toList ++ S)))))))))
        properties [] =
      some (if x ≠ 0 then P ++ (B ++ S) else P ++ S, setProperty properties f x) :=
  parse_pset_conditional fuel f (decimalInt x) P B S x properties hf (isName_decimalInt x)
    (Or.inl ⟨rfl, hx, hx2⟩) hx hP hB hS hSne

theorem parse_pset_then_property_witness :
    isName ['f'] = true ∧ inInt32 5 ∧ (5 : Int) ≠ -2147483647 ∧ '@' ∉ ['A'] ∧ '@' ∉ ['B'] ∧
      '@' ∉ ['C'] ∧ ['C'] ≠ [] ∧
      parse 1
          ("@pset(".toList ++ (['f'] ++ (", ".toList ++ (decimalInt 5 ++ ')' ::
            (['A'] ++ ("@property(".toList ++ (['f'] ++ ')' ::
              (['B'] ++ ("@end".toList ++ ['C'])))))))))
          emptyProperties [] =
        some (if (5 : Int) ≠ 0 then ['A'] ++ (['B'] ++ ['C']) else ['A'] ++ ['C'],
          setProperty emptyProperties ['f'] 5) :=
  ⟨by decide, by unfold inInt32 INT_MIN INT_MAX; decide, by decide, by decide, by decide,
    by decide, by decide,
    parse_pset_then_property 0 ['f'] ['A'] ['B'] ['C'] 5 emptyProperties (by decide)
      (by unfold inInt32 INT_MIN INT_MAX; decide) (by decide) (by decide) (by decide)
      (by decide) (by decide)⟩

/-- C10 as stated fails for the literal -2147483647: on the empty property map
`@pset(f, -2147483647)A@property(f)B@endC` returns `AC`, not `ABC`, and leaves `f` at 0,
because `parseMath` takes that number for its not-a-number sentinel and reads the
property named `-2147483647`. -/
theorem parse_pset_then_property_counterexample :
    inInt32 (-2147483647) ∧ (-2147483647 : Int) ≠ 0 ∧ isName ['f'] = true ∧
      parse 1
          ("@pset(".toList ++ (['f'] ++ (", ".toList ++ (decimalInt (-2147483647) ++ ')' ::
            (['A'] ++ ("@property(".toList ++ (['f'] ++ ')' ::
              (['B'] ++ ("@end".toList ++ ['C'])))))))))
          emptyProperties [] =
        some (['A'] ++ ['C'], setProperty emptyProperties ['f'] 0) ∧
      ['A'] ++ ['C'] ≠ ['A'] ++ (['B'] ++ ['C']) ∧
      getProperty (setProperty emptyProperties ['f'] 0) ['f'] ≠ -2147483647 :=
  ⟨by unfold inInt32 INT_MIN INT_MAX; decide, by decide, by decide,
    parse_pset_conditional 0 ['f'] (decimalInt (-2147483647)) ['A'] ['B'] ['C'] 0
      emptyProperties (by decide) (isName_decimalInt _)
      (Or.inr ⟨parseInt_decimalInt _ _ (by unfold INT_MIN; decide) (by unfold INT_MAX; decide),
        rfl⟩)
      (by unfold inInt32 INT_MIN INT_MAX; decide) (by decide) (by decide) (by decide)
      (by decide),
    by decide, by decide⟩

/-! ## The code at the inputs where it departs from the specification -/

set_option maxRecDepth 100000 in
/-- C5: what the code does on the example of the claim. The closing `)` of the third
`@counter(k)` is the last byte of the buffer and is not accepted: the pass reports a
syntax error, the output is `1011k)` and `k` ends at 12; with one more byte after the last
directive the three values are written and `k` ends at 13. -/
theorem parseCounter_examples :
    (parseCounter "@counter(k)@counter(k)@counter(k)".toList
        (setProperty emptyProperties ['k'] 10)).map
        (fun r => (r.syntaxError, r.outBuffer, getProperty r.properties ['k'])) =
      some (true, "1011k)".toList, 12) ∧
    (parseCounter "@counter(k)@counter(k)@counter(k) ".toList
        (setProperty emptyProperties ['k'] 10)).map
        (fun r => (r.syntaxError, r.outBuffer, getProperty r.properties ['k'])) =
      some (false, "101112 ".toList, 13) := by
  refine ⟨?_, ?_⟩ <;> decide

set_option maxRecDepth 100000 in
/-- C8: what `collectPieces` does on `P ++ "@piece(n)" ++ B ++ "@end" ++ S`. The first
byte after `@end` is dropped from the output; and when `@end` is the last text of the
buffer it is not accepted, so the registered body is `B@end`. -/
theorem collectPieces_examples :
    (collectPieces "A@piece(n)B@endCD".toList emptyPieces).map
        (fun r => (r.syntaxError, r.outBuffer, r.pieces ['n'])) =
      some (false, "AD".toList, some ['B']) ∧
    (collectPieces "A@piece(n)B@end".toList emptyPieces).map
        (fun r => (r.syntaxError, r.outBuffer, r.pieces ['n'])) =
      some (false, ['A'], some ("B@end".toList)) := by
  refine ⟨?_, ?_⟩ <;> decide

set_option maxRecDepth 100000 in
/-- C7: what `parse` does on the example of the claim. The `@end` that closes the piece is
the last text of the piece file and is not accepted by `findBlockEnd`, which assigns
`false` to the error flag: the registered body is `hi@end` and the result is `Xhi@endY`.
With one more byte after `@end` in the piece file the result is `XhiY`. -/
theorem parse_pieces_examples :
    (parse 1 "X@insertpiece(greet)Y".toList emptyProperties
        ["@piece(greet)hi@end".toList]).map Prod.fst = some ("Xhi@endY".toList) ∧
    (collectPieces "@piece(greet)hi@end".toList emptyPieces).map
        (fun r => (r.syntaxError, r.pieces "greet".toList)) =
      some (false, some ("hi@end".toList)) ∧
    (parse 1 "X@insertpiece(greet)Y".toList emptyProperties
        ["@piece(greet)hi@end\n".toList]).map Prod.fst = some ("XhiY".toList) := by
  refine ⟨?_, ?_, ?_⟩ <;> decide

set_option maxRecDepth 100000 in
/-- C12: what the code does on a block opener without matching `@end`. `findBlockEnd`
reaches the end of the buffer with nesting 0 and returns the flag false, also when the flag
was true on entry; `parseProperties`, `parseForEach` and `collectPieces` then take the rest
of the buffer as the block body and return no error. -/
theorem findBlockEnd_unclosed_examples :
    (findBlockEnd (SubStringRef.fromStart "abc".toList 0) false).map
        (fun r => (r.1.mStart, r.1.mEnd, r.2)) = some (0, 3, false) ∧
    (findBlockEnd (SubStringRef.fromStart "abc".toList 0) true).map
        (fun r => (r.1.mStart, r.1.mEnd, r.2)) = some (0, 3, false) ∧
    (parseProperties 3 "@property(a)b".toList (setProperty emptyProperties ['a'] 1)).map
        (fun r => (r.syntaxError, r.outBuffer)) = some (false, "b".toList) ∧
    (parseForEach "@foreach(i, 0, 2)x".toList emptyProperties).map
        (fun r => (r.syntaxError, r.outBuffer)) = some (false, "xx".toList) ∧
    (collectPieces "@piece(n)x".toList emptyPieces).map
        (fun r => (r.syntaxError, r.outBuffer, r.pieces ['n'])) =
      some (false, [], some ['x']) := by
  refine ⟨?_, ?_, ?_, ?_, ?_⟩ <;> decide

set_option maxRecDepth 100000 in
/-- C15: what `evaluateExpression` does on ill-formed expressions. Two adjacent operands,
two adjacent operators and a leading operator are reported; a trailing operator is not:
`a &&` and `a ||` evaluate to the value of `a` with no error, also inside a group, and
`@property(a &&)` keeps its block with no error. -/
theorem evaluateExpression_illformed_examples :
    (evaluateExpression (SubStringRef.fromStart "a b)x".toList 0) emptyProperties).2.2
      = true ∧
    (evaluateExpression (SubStringRef.fromStart "a && || b)x".toList 0) emptyProperties).2.2
      = true ∧
    (evaluateExpression (SubStringRef.fromStart "&& a)x".toList 0) emptyProperties).2.2
      = true ∧
    ((evaluateExpression (SubStringRef.fromStart "a &&)x".toList 0)
        (setProperty emptyProperties ['a'] 1)).1,
     (evaluateExpression (SubStringRef.fromStart "a &&)x".toList 0)
        (setProperty emptyProperties ['a'] 1)).2.2) = (true, false) ∧
    ((evaluateExpression (SubStringRef.fromStart "a ||)x".toList 0) emptyProperties).1,
     (evaluateExpression (SubStringRef.fromStart "a ||)x".toList 0) emptyProperties).2.2)
      = (false, false) ∧
    (evaluateExpression (SubStringRef.fromStart "(a &&) || b)x".toList 0)
        emptyProperties).2.2 = false ∧
    (parseProperties 3 "@property(a &&)B@end ".toList
        (setProperty emptyProperties ['a'] 1)).map
        (fun r => (r.syntaxError, r.outBuffer)) = some (false, "B ".toList) := by
  refine ⟨?_, ?_, ?_, ?_, ?_, ?_, ?_⟩ <;> decide

set_option maxRecDepth 100000 in
/-- C16: what `parseForEach` does on a wrong number of arguments. With four arguments the
first three are used and no error is returned; with two arguments or one the pass reads
`argValues[2]` (or `argValues[1]`), which is not there: the read is outside the vector and
the model returns `none`. -/
theorem parseForEach_arity_examples :
    (parseForEach "@foreach(i, 0, 2, 9)x@end ".toList emptyProperties).map
        (fun r => (r.syntaxError, r.outBuffer)) = some (false, "xx".toList) ∧
    (parseForEach "@foreach(i, 3)x@end ".toList emptyProperties).isNone = true ∧
    (parseForEach "@foreach(i)x@end ".toList emptyProperties).isNone = true := by
  refine ⟨?_, ?_, ?_⟩ <;> decide

theorem evaluateParamArgsLoop_flagged (cs : Str) (st : Nat) (args : List Str) :
    (evaluateParamArgsLoop cs st args true).2 = true := by
  cases cs <;> simp [evaluateParamArgsLoop]

theorem evaluateParamArgsLoop_forbidden (c : Char)
    (hbad : c = '(' ∨ c = ')' ∨ c = '@' ∨ c = '&' ∨ c = '|') :
    ∀ (cs : Str) (st : Nat) (args : List Str) (err : Bool), c ∈ cs →
      (evaluateParamArgsLoop cs st args err).2 = true := by
  intro cs
  induction cs with
  | nil => intro st args err h; simp at h
  | cons d ds ih =>
    intro st args err h
    unfold evaluateParamArgsLoop
    split
    · rename_i herr; simpa using herr
    · split
      · exact evaluateParamArgsLoop_flagged _ _ _
      · rename_i hd
        have hmem : c ∈ ds := by
          rcases List.mem_cons.1 h with h1 | h1
          · exact absurd (h1 ▸ hbad) hd
          · exact h1
        split
        · exact ih _ _ _ hmem
        · split
          · exact ih _ _ _ hmem
          · split
            · exact evaluateParamArgsLoop_flagged _ _ _
            · exact ih _ _ _ hmem

/-- C14: argument purity. When `evaluateExpressionEnd` finds no parenthesis that closes
the list, `evaluateParamArgs` sets the syntax-error flag; when it finds one at offset
`expEnd` and one of the bytes `(`, `)`, `@`, `&`, `|` occurs among the `expEnd` bytes
before it, `evaluateParamArgs` sets the syntax-error flag. -/
theorem evaluateParamArgs_purity (outSubString : SubStringRef) (outArgs : List Str) :
    (evaluateExpressionEnd outSubString = none →
      (evaluateParamArgs outSubString outArgs).2.2 = true) ∧
    (∀ (expEnd : Nat) (c : Char), evaluateExpressionEnd outSubString = some expEnd →
      c ∈ (outSubString.mOriginal.drop outSubString.mStart).take expEnd →
      (c = '(' ∨ c = ')' ∨ c = '@' ∨ c = '&' ∨ c = '|') →
      (evaluateParamArgs outSubString outArgs).2.2 = true) := by
  constructor
  · intro h
    simp only [evaluateParamArgs, h]
  · intro expEnd c h hc hbad
    simp only [evaluateParamArgs, h]
    apply evaluateParamArgsLoop_forbidden c hbad
    simpa [SubStringRef.content, SubStringRef.getStart] using hc

/-- C14 at the list `a@b)x`: the closing parenthesis is at offset 3 and `@` stands before
it. -/
theorem evaluateParamArgs_purity_witness :
    evaluateExpressionEnd (SubStringRef.fromStart "a@b)x".toList 0) = some 3 ∧
    (evaluateParamArgs (SubStringRef.fromStart "a@b)x".toList 0) []).2.2 = true :=
  ⟨by decide,
   (evaluateParamArgs_purity (SubStringRef.fromStart "a@b)x".toList 0) []).2 3 '@'
     (by decide) (by decide) (by decide)⟩

theorem collectPiecesLoop_flagged (fuel : Nat) (subString : SubStringRef) (pos : Option Nat)
    (argValues : List Str) (pieces : PiecesMap) (outBuffer : Str) :
    collectPiecesLoop (fuel + 1) subString pos argValues pieces outBuffer true =
      some (subString, pieces, outBuffer, true) := by
  cases pos <;> simp [collectPiecesLoop]

theorem collectPiecesLoop_duplicate (fuel : Nat) (subString subString2 : SubStringRef)
    (pos : Nat) (argValues : List Str) (pieceName body : Str) (pieces : PiecesMap)
    (outBuffer : Str)
    (hargs : evaluateParamArgs (subString.setStart (subString.getStart + pos + 7)) argValues
      = (subString2, [pieceName], false))
    (hdup : pieces pieceName = some body) :
    collectPiecesLoop (fuel + 2) subString (some pos) argValues pieces outBuffer false =
      some (subString2, pieces, outBuffer ++ copy subString pos, true) := by
  rw [collectPiecesLoop]
  simp only [Bool.false_eq_true, if_false, hargs, List.length_singleton, ne_eq,
    not_true_eq_false, decide_False, Bool.or_self, List.get?_cons_zero, hdup,
    Option.isSome_some, if_true]
  exact collectPiecesLoop_flagged _ _ _ _ _ _

theorem collectPieces_duplicate_first (P pieceName body rest : Str) (pieces : PiecesMap)
    (hP : '@' ∉ P) (hname : isName pieceName = true) (hrest : rest ≠ [])
    (hdup : pieces pieceName = some body) :
    collectPieces (P ++ "@piece(".toList ++ pieceName ++ ')' :: rest) pieces =
      some ⟨true, P ++ rest, pieces⟩ := by
  generalize hb : P ++ "@piece(".toList ++ pieceName ++ ')' :: rest = buf
  have hbuf : buf.drop 0 = P ++ ("@piece(".toList ++ (argsText [pieceName] ++ ')' :: rest)) := by
    rw [← hb]; simp [argsText]
  have hlen : buf.length = P.length + 7 + pieceName.length + 1 + rest.length := by
    rw [← hb]; simp; omega
  have hfind : (SubStringRef.fromStart buf 0).find ("@piece".toList) 0 = some P.length := by
    show (SubStringRef.fromStart buf 0).find ('@' :: "piece".toList) 0 = some P.length
    rw [find_fromStart '@' _ (Nat.zero_le _) hbuf, findAt_append_atFree _ _ _ _ hP]
    have := findAt_hit ("@piece".toList) ('(' :: (argsText [pieceName] ++ ')' :: rest))
      (0 + P.length) (by simp)
    simpa using this
  have hd1 : buf.drop (0 + P.length + 7) = argsText [pieceName] ++ ')' :: rest := by
    have h1 := drop_add_of_drop_eq hbuf
    have h2 : buf.drop (0 + P.length) = "@piece(".toList ++ (argsText [pieceName] ++ ')' :: rest) :=
      h1
    exact drop_add_of_drop_eq h2
  have hargs := evaluateParamArgs_argsText [pieceName] [] (by simp)
    (by intro a ha; simp at ha; rw [ha]; exact hname)
    (show 0 + P.length + 7 ≤ buf.length by omega) hd1 hrest
  have hd2 : buf.drop (0 + P.length + 7 + (argsText [pieceName]).length + 1) = rest := by
    have h1 : buf.drop (0 + P.length + 7) = (argsText [pieceName] ++ [')']) ++ rest := by
      rw [hd1]; simp
    have := drop_add_of_drop_eq h1
    simpa [Nat.add_assoc] using this
  have hset : (SubStringRef.fromStart buf 0).setStart
      ((SubStringRef.fromStart buf 0).getStart + P.length + 7)
      = SubStringRef.fromStart buf (0 + P.length + 7) := by
    rw [setStart_fromStart (by simp only [SubStringRef.getStart, SubStringRef.fromStart]; omega)]
    simp [SubStringRef.getStart, SubStringRef.fromStart]
  have hloop := collectPiecesLoop_duplicate (buf.length - 1) (SubStringRef.fromStart buf 0)
    (SubStringRef.fromStart buf (0 + P.length + 7 + (argsText [pieceName]).length + 1))
    P.length [] pieceName body pieces [] (by rw [hset]; exact hargs) hdup
  have hfuel : buf.length + 1 = buf.length - 1 + 2 := by omega
  have hcopy : copy (SubStringRef.fromStart buf 0) P.length = P := copy_fromStart hbuf
  have hall := copy_fromStart_all
    (show 0 + P.length + 7 + (argsText [pieceName]).length + 1 ≤ buf.length by
      simp only [argsText]; omega) hd2
  rw [collectPieces]
  simp only [hfind]
  rw [hfuel, hloop]
  simp only [hall, hcopy, List.nil_append]

/-- C13: a duplicate piece is an error and leaves the piece library as it was. Let the name
`pieceName` be in the library `pieces` (from an earlier directive of the same buffer, from
a piece file, or from before the call). Whenever the loop of `collectPieces` is at an
`@piece` directive whose argument list is read as the single name `pieceName`, it stops
with the error flag set and the library `pieces` unchanged, and these are the flag and the
library that `collectPieces` returns; in particular, on a buffer whose first `@piece`
directive names `pieceName`, `collectPieces` returns the error flag set, the library it was
given, and the text without the head of the directive. -/
theorem collectPieces_duplicate (pieces : PiecesMap) (pieceName body : Str)
    (hdup : pieces pieceName = some body) :
    (∀ (fuel : Nat) (subString subString2 : SubStringRef) (pos : Nat)
        (argValues : List Str) (outBuffer : Str),
      evaluateParamArgs (subString.setStart (subString.getStart + pos + 7)) argValues
        = (subString2, [pieceName], false) →
      collectPiecesLoop (fuel + 2) subString (some pos) argValues pieces outBuffer false =
        some (subString2, pieces, outBuffer ++ copy subString pos, true)) ∧
    (∀ (P rest : Str), '@' ∉ P → isName pieceName = true → rest ≠ [] →
      collectPieces (P ++ "@piece(".toList ++ pieceName ++ ')' :: rest) pieces =
        some ⟨true, P ++ rest, pieces⟩) :=
  ⟨fun fuel subString subString2 pos argValues outBuffer hargs =>
      collectPiecesLoop_duplicate fuel subString subString2 pos argValues pieceName body
        pieces outBuffer hargs hdup,
   fun P rest hP hname hrest =>
      collectPieces_duplicate_first P pieceName body rest pieces hP hname hrest hdup⟩

set_option maxRecDepth 100000 in
/-- C13 at the library that holds `n` with body `A`, on the buffer `x@piece(n)B@end `; and
the same name defined twice in one buffer: the first body stays. -/
theorem collectPieces_duplicate_witness :
    insertPiece emptyPieces ['n'] ['A'] ['n'] = some ['A'] ∧
    collectPieces ("x".toList ++ "@piece(".toList ++ ['n'] ++ ')' :: "B@end ".toList)
        (insertPiece emptyPieces ['n'] ['A']) =
      some ⟨true, "x".toList ++ "B@end ".toList, insertPiece emptyPieces ['n'] ['A']⟩ ∧
    (collectPieces "@piece(n)A@end @piece(n)B@end ".toList emptyPieces).map
        (fun r => (r.syntaxError, r.outBuffer, r.pieces ['n'])) =
      some (true, "B@end ".toList, some ['A']) :=
  ⟨by decide,
   (collectPieces_duplicate (insertPiece emptyPieces ['n'] ['A']) ['n'] ['A']
      (by decide)).2 "x".toList "B@end ".toList (by decide) (by decide) (by decide),
   by decide⟩

/-! ## One directive of parseMath with any number of arguments -/

/-- One directive of `parseMath` with any number of arguments, after text without `@` and
before a non-empty text in which no `@` starts an operation name: with fewer than two or
more than three arguments the directive is removed and the error flag is set; otherwise
the property map is the one `applyOperation` gives, and a fault of `applyOperation` is a
fault of the pass. -/
theorem parseMath_directive_any (k : Nat) (hk : k < 6) (op : Operation)
    (hop : c_operations.get? k = some op) (as : List Str) (has : as ≠ [])
    (hnames : ∀ a ∈ as, isName a = true) (P S : Str)
    (properties : PropertyMap) (hP : '@' ∉ P) (hS : atAll noMathAt S = true)
    (hSne : S ≠ []) :
    parseMath (P ++ '@' :: (mathName k ++ '(' :: (argsText as ++ ')' :: S))) properties =
      (if (decide (as.length < 2) || decide (as.length > 3)) = true then some properties
        else applyOperation op as properties).map
        (fun p2 => ⟨decide (as.length < 2) || decide (as.length > 3), P ++ S, p2⟩) := by
  obtain ⟨op', hop', hname, hlen, hnl, hnc⟩ := mathName_spec k hk
  rw [hop] at hop'
  cases hop'
  generalize hbuf : P ++ '@' :: (mathName k ++ '(' :: (argsText as ++ ')' :: S)) = buf
  have h0 : buf.drop 0 = P ++ '@' :: (mathName k ++ '(' :: (argsText as ++ ')' :: S)) := by
    rw [← hbuf]; rfl
  have hSpos : 0 < S.length := List.length_pos.mpr hSne
  have hlen' : buf.length = P.length + (1 + (4 + (1 + ((argsText as).length + (1 + S.length))))) := by
    rw [← hbuf]
    simp only [List.length_append, List.length_cons, hnl]
    omega
  have hd1 : buf.drop (P.length + 1) = mathName k ++ '(' :: (argsText as ++ ')' :: S) := by
    have a := drop_add_of_drop_eq h0
    simp only [Nat.zero_add] at a
    exact drop_succ_of_drop_eq a
  have hd2 : buf.drop (P.length + 6) = argsText as ++ ')' :: S := by
    have a := drop_add_of_drop_eq hd1
    rw [hnl] at a
    exact drop_succ_of_drop_eq a
  have hd3 : buf.drop (P.length + 6 + (argsText as).length + 1) = S := by
    have a := drop_add_of_drop_eq hd2
    exact drop_succ_of_drop_eq a
  have hfind : (SubStringRef.fromStart buf 0).find ("@".toList) 0 = some P.length := by
    show (SubStringRef.fromStart buf 0).find ('@' :: []) 0 = some P.length
    rw [find_zero_fromStart_zero, ← hbuf, findAt_append_atFree _ _ _ _ hP]
    simp [findAt, startsWith]
  have hffo : (SubStringRef.fromStart buf 0).findFirstOf (" \t(".toList) (P.length + 1)
      = some (P.length + 5) := by
    simp only [SubStringRef.findFirstOf, SubStringRef.fromStart, strFindFirstOf, Nat.zero_add,
      hd1]
    rw [findFirstOfAt_skip _ _ '(' (by decide) _ _ hnc, hnl]
    simp; omega
  have hcontent : (⟨buf, (SubStringRef.fromStart buf 0).getStart + P.length + 1,
      (SubStringRef.fromStart buf 0).getStart + (P.length + 5)⟩ : SubStringRef).content
      = mathName k := by
    simp only [SubStringRef.content, SubStringRef.fromStart, SubStringRef.getStart,
      Nat.zero_add, hd1]
    rw [show P.length + 5 - (P.length + 1) = (mathName k).length by rw [hnl]; omega]
    simp
  have hscan1 : parseMathScan buf (SubStringRef.fromStart buf 0) (buf.length + 1)
      (some P.length) = some (some P.length, some k) := by
    rw [parseMathScan]
    simp only [hffo, matchKeyword_mathName _ k hk hcontent]
  have hcopy : copy (SubStringRef.fromStart buf 0) P.length = P := copy_fromStart h0
  have hset1 : (SubStringRef.fromStart buf 0).setStart
      ((SubStringRef.fromStart buf 0).getStart + P.length + op.length)
      = SubStringRef.fromStart buf (P.length + 6) := by
    rw [setStart_fromStart (by simp [SubStringRef.getStart, SubStringRef.fromStart, hlen]; omega)]
    simp [SubStringRef.getStart, SubStringRef.fromStart, hlen]
  have hargs := evaluateParamArgs_argsText as [] has hnames
    (show P.length + 6 ≤ buf.length by omega) hd2 hSne
  have hscan2 : parseMathScan buf
      (SubStringRef.fromStart buf (P.length + 6 + (argsText as).length + 1)) (buf.length + 1)
      ((SubStringRef.fromStart buf (P.length + 6 + (argsText as).length + 1)).find
        ("@".toList) 0) = some (none, none) :=
    parseMathScan_none buf _ buf.length 0 _ (by omega) (by omega) (by omega)
      (by rw [Nat.add_zero, hd3]; exact hS)
  have hcopyS := copy_fromStart_all
    (show P.length + 6 + (argsText as).length + 1 ≤ buf.length by omega) hd3
  rw [parseMath, hfind, hscan1]
  simp only
  rw [parseMathLoop]
  simp only [Bool.false_eq_true, if_false, Option.bind, hop, hcopy, hset1, hargs,
    Bool.false_or]
  cases hm : (if (decide (as.length < 2) || decide (as.length > 3)) = true then some properties
      else applyOperation op as properties) with
  | none => simp only [Option.map_none']
  | some p2 =>
    simp only [hscan2, parseMathLoop_none buf buf.length (by omega), Option.map_some']
    rw [hcopyS]
    simp

/-! ## One directive of parseCounter -/

theorem counterName_spec (k : Nat) (hk : k < 8) :
    ∃ op, c_counterOperations.get? k = some op ∧ op.opName = counterName k ∧
      op.length = (counterName k).length + 2 ∧
      (∀ c ∈ counterName k, (" \t(".toList).contains c = false) := by
  interval_cases k <;> exact ⟨_, rfl, rfl, rfl, by decide⟩

theorem matchKeyword_counterName (ks : SubStringRef) (k : Nat) (hk : k < 8)
    (h : ks.content = counterName k) : matchKeyword ks c_counterOperations 0 = some k := by
  interval_cases k <;>
    simp only [matchKeyword, c_counterOperations, SubStringRef.matchEqual, h] <;> decide

theorem parseCounterLoop_none (buf : Str) (fuel : Nat) (hfuel : 0 < fuel) (sub : SubStringRef)
    (kw : Option Nat) (args : List Str) (properties : PropertyMap) (out : Str) (err : Bool) :
    parseCounterLoop buf fuel sub none kw args properties out err =
      some (sub, ⟨err, out, properties⟩) := by
  cases fuel with
  | zero => omega
  | succ n => rfl

theorem parseCounterScan_atFree {buf S : Str} {st : Nat} (hst : st ≤ buf.length)
    (h : buf.drop st = S) (hS : '@' ∉ S) :
    parseCounterScan buf (SubStringRef.fromStart buf st) = (none, none) := by
  have : (SubStringRef.fromStart buf st).find ("@".toList) 0 = none := by
    show (SubStringRef.fromStart buf st).find ('@' :: []) 0 = none
    rw [find_fromStart '@' _ hst h, findAt_atFree _ _ _ hS]
  simp only [parseCounterScan, this]

/-- One directive of `parseCounter` with any number of arguments, after text without `@`
and before a non-empty text without `@`, in a buffer shorter than 2^64 bytes. -/
theorem parseCounter_directive_any (k : Nat) (hk : k < 8) (op : Operation)
    (hop : c_counterOperations.get? k = some op) (as : List Str) (has : as ≠ [])
    (hnames : ∀ a ∈ as, isName a = true) (P S : Str)
    (properties : PropertyMap) (hP : '@' ∉ P) (hS : '@' ∉ S) (hSne : S ≠ [])
    (hsmall : (P ++ '@' :: (counterName k ++ '(' :: (argsText as ++ ')' :: S))).length
      < 18446744073709551616) :
    parseCounter (P ++ '@' :: (counterName k ++ '(' :: (argsText as ++ ')' :: S))) properties =
      match (if (if k ≤ 1 then decide (as.length ≠ 1)
                  else decide (as.length < 2) || decide (as.length > 3)) = true
             then some (P, properties)
             else if as.length = 1 then
               match as.get? 0 with
               | none => none
               | some dstProperty =>
                 some (P ++ decimalInt (getProperty properties dstProperty),
                   if k = 0 then setProperty properties dstProperty
                     (wrapInt32 (getProperty properties dstProperty + 1))
                   else properties)
             else
               match applyOperation op as properties with
               | none => none
               | some properties2 => some (P, properties2)) with
      | none => none
      | some (outBuffer2, properties2) =>
        some ⟨if k ≤ 1 then decide (as.length ≠ 1)
              else decide (as.length < 2) || decide (as.length > 3),
          outBuffer2 ++ S, properties2⟩ := by
  obtain ⟨op', hop', hname, hlen, hnc⟩ := counterName_spec k hk
  rw [hop] at hop'
  cases hop'
  generalize hbuf : P ++ '@' :: (counterName k ++ '(' :: (argsText as ++ ')' :: S)) = buf
    at hsmall ⊢
  have h0 : buf.drop 0 = P ++ '@' :: (counterName k ++ '(' :: (argsText as ++ ')' :: S)) := by
    rw [← hbuf]; rfl
  have hSpos : 0 < S.length := List.length_pos.mpr hSne
  have hlen' : buf.length = P.length + (1 + ((counterName k).length +
      (1 + ((argsText as).length + (1 + S.length))))) := by
    rw [← hbuf]
    simp only [List.length_append, List.length_cons]
    omega
  have hd1 : buf.drop (P.length + 1) = counterName k ++ '(' :: (argsText as ++ ')' :: S) := by
    have a := drop_add_of_drop_eq h0
    simp only [Nat.zero_add] at a
    exact drop_succ_of_drop_eq a
  have hd2 : buf.drop (P.length + 1 + (counterName k).length + 1) = argsText as ++ ')' :: S := by
    have a := drop_add_of_drop_eq hd1
    exact drop_succ_of_drop_eq a
  have hd3 : buf.drop (P.length + 1 + (counterName k).length + 1 + (argsText as).length + 1)
      = S := by
    have a := drop_add_of_drop_eq hd2
    exact drop_succ_of_drop_eq a
  have hfind : (SubStringRef.fromStart buf 0).find ("@".toList) 0 = some P.length := by
    show (SubStringRef.fromStart buf 0).find ('@' :: []) 0 = some P.length
    rw [find_zero_fromStart_zero, ← hbuf, findAt_append_atFree _ _ _ _ hP]
    simp [findAt, startsWith]
  have hffo : (SubStringRef.fromStart buf 0).findFirstOf (" \t(".toList) (P.length + 1)
      = some (P.length + 1 + (counterName k).length) := by
    simp only [SubStringRef.findFirstOf, SubStringRef.fromStart, strFindFirstOf, Nat.zero_add,
      hd1]
    rw [findFirstOfAt_skip _ _ '(' (by decide) _ _ hnc]
    simp; omega
  have hmod : ((SubStringRef.fromStart buf 0).getStart + (P.length + 1 + (counterName k).length))
      % 18446744073709551616 = P.length + 1 + (counterName k).length := by
    simp only [SubStringRef.getStart, SubStringRef.fromStart, Nat.zero_add]
    exact Nat.mod_eq_of_lt (by omega)
  have hcontent : (⟨buf, (SubStringRef.fromStart buf 0).getStart + P.length + 1,
      P.length + 1 + (counterName k).length⟩ : SubStringRef).content
      = counterName k := by
    simp only [SubStringRef.content, SubStringRef.fromStart, SubStringRef.getStart,
      Nat.zero_add, hd1]
    rw [show P.length + 1 + (counterName k).length - (P.length + 1) = (counterName k).length
      by omega]
    simp
  have hscan1 : parseCounterScan buf (SubStringRef.fromStart buf 0)
      = (some P.length, some k) := by
    rw [parseCounterScan]
    simp only [hfind, hffo, hmod, matchKeyword_counterName _ k hk hcontent]
  have hcopy : copy (SubStringRef.fromStart buf 0) P.length = P := copy_fromStart h0
  have hset1 : (SubStringRef.fromStart buf 0).setStart
      ((SubStringRef.fromStart buf 0).getStart + P.length + op.length)
      = SubStringRef.fromStart buf (P.length + 1 + (counterName k).length + 1) := by
    rw [setStart_fromStart (by simp [SubStringRef.getStart, SubStringRef.fromStart, hlen]; omega)]
    simp only [SubStringRef.getStart, SubStringRef.fromStart, hlen, Nat.zero_add]
    congr 1
    omega
  have hargs := evaluateParamArgs_argsText as [] has hnames
    (show P.length + 1 + (counterName k).length + 1 ≤ buf.length by omega) hd2 hSne
  have hscan2 := parseCounterScan_atFree
    (show P.length + 1 + (counterName k).length + 1 + (argsText as).length + 1 ≤ buf.length
      by omega) hd3 hS
  have hcopyS := copy_fromStart_all
    (show P.length + 1 + (counterName k).length + 1 + (argsText as).length + 1 ≤ buf.length
      by omega) hd3
  rw [parseCounter, hscan1]
  simp only
  simp only [parseCounterLoop, Bool.false_eq_true, if_false, Option.bind, hop, hcopy, hset1,
    hargs, Bool.false_or, List.nil_append]
  rw [hscan2]
  simp only [parseCounterLoop_none buf buf.length (by omega)]
  by_cases herr : (if k ≤ 1 then decide (as.length ≠ 1)
      else decide (as.length < 2) || decide (as.length > 3)) = true
  · simp only [herr, if_true, hcopyS]
  · simp only [herr, if_false]
    by_cases h1 : as.length = 1
    · simp only [h1, if_true]
      cases hg : as.get? 0 with
      | none => rfl
      | some d => simp only [Bool.false_eq_true, if_false, hcopyS]
    · simp only [h1, if_false]
      cases ha : applyOperation op as properties with
      | none => rfl
      | some p2 => simp only [Bool.false_eq_true, if_false, hcopyS]

/-! ## The driver after a pass that reports an error -/

theorem atAll_single (p : Str → Bool) (U V : Str) (hU : '@' ∉ U) (hV : '@' ∉ V)
    (h : p V = true) : atAll p (U ++ '@' :: V) = true := by
  rw [atAll_append_atFree _ _ _ hU, atAll_at, h, atAll_of_atFree _ _ hV]
  rfl

theorem parseCounter_counter (name P S : Str) (properties : PropertyMap)
    (hname : isName name = true) (hP : '@' ∉ P) (hS : '@' ∉ S) (hSne : S ≠ [])
    (hsmall : (P ++ '@' :: (counterName 0 ++ '(' :: (argsText [name] ++ ')' :: S))).length
      < 18446744073709551616) :
    parseCounter (P ++ '@' :: (counterName 0 ++ '(' :: (argsText [name] ++ ')' :: S)))
        properties =
      some ⟨false, P ++ decimalInt (getProperty properties name) ++ S,
        setProperty properties name (wrapInt32 (getProperty properties name + 1))⟩ := by
  rw [parseCounter_directive_any 0 (by decide) ⟨"counter".toList, 9, none⟩ rfl [name]
    (by simp) (by intro a ha; simp at ha; rw [ha]; exact hname) P S properties hP hS hSne
    hsmall]
  simp

/-- The driver on `@pset` with a single argument followed by `@counter(k)`. -/
theorem parse_pset_error_counter (fuel : Nat) (x k P M S : Str) (properties : PropertyMap)
    (hx : isName x = true) (hk : isName k = true) (hP : '@' ∉ P) (hM : '@' ∉ M)
    (hS : '@' ∉ S) (hSne : S ≠ [])
    (hsmall : (P ++ ("@pset(".toList ++ (x ++ ')' :: (M ++ ("@counter(".toList ++
      (k ++ ')' :: S)))))).length < 18446744073709551616) :
    (parseMath (P ++ ("@pset(".toList ++ (x ++ ')' :: (M ++ ("@counter(".toList ++
        (k ++ ')' :: S)))))) properties).map (fun r => (r.syntaxError, r.outBuffer)) =
      some (true, P ++ (M ++ ("@counter(".toList ++ (k ++ ')' :: S)))) ∧
    parse (fuel + 1) (P ++ ("@pset(".toList ++ (x ++ ')' :: (M ++ ("@counter(".toList ++
        (k ++ ')' :: S)))))) properties [] =
      some (P ++ (M ++ (decimalInt (getProperty properties k) ++ S)),
        setProperty properties k (wrapInt32 (getProperty properties k + 1))) := by
  have hkfree := atFree_of_isName hk
  have hV : '@' ∉ counterName 0 ++ '(' :: (argsText [k] ++ ')' :: S) := by
    simp only [counterName, c_counterOperations, List.get?, argsText, List.mem_append,
      List.mem_cons, not_or]
    exact ⟨by decide, by decide, hkfree, by decide, hS⟩
  have hPM : '@' ∉ P ++ M := by
    simp only [List.mem_append, not_or]; exact ⟨hP, hM⟩
  have hin : P ++ ("@pset(".toList ++ (x ++ ')' :: (M ++ ("@counter(".toList ++
      (k ++ ')' :: S))))) = P ++ '@' :: (mathName 0 ++ '(' :: (argsText [x] ++ ')' ::
        (M ++ '@' :: (counterName 0 ++ '(' :: (argsText [k] ++ ')' :: S))))) := by
    simp [mathName, c_operations, counterName, c_counterOperations, argsText]
  have hout : P ++ (M ++ '@' :: (counterName 0 ++ '(' :: (argsText [k] ++ ')' :: S)))
      = (P ++ M) ++ '@' :: (counterName 0 ++ '(' :: (argsText [k] ++ ')' :: S)) := by
    simp
  have hout2 : P ++ (M ++ ("@counter(".toList ++ (k ++ ')' :: S)))
      = (P ++ M) ++ '@' :: (counterName 0 ++ '(' :: (argsText [k] ++ ')' :: S)) := by
    simp [counterName, c_counterOperations, argsText]
  have hpm := parseMath_directive_any 0 (by decide) ⟨"pset".toList, 6, some setOp⟩ rfl [x]
    (by simp) (by intro a ha; simp at ha; rw [ha]; exact hx) P
    (M ++ '@' :: (counterName 0 ++ '(' :: (argsText [k] ++ ')' :: S))) properties hP
    (atAll_single _ _ _ hM hV (by simp [counterName, c_counterOperations, noMathAt]))
    (by simp)
  simp only [List.length_singleton, Nat.one_lt_ofNat, decide_True, Bool.true_or, if_true,
    Option.map_some'] at hpm
  have hsmall2 : ((P ++ M) ++ '@' :: (counterName 0 ++ '(' :: (argsText [k] ++ ')' :: S))).length
      < 18446744073709551616 := by
    have e : ((P ++ M) ++ '@' :: (counterName 0 ++ '(' :: (argsText [k] ++ ')' :: S))).length
        ≤ (P ++ ("@pset(".toList ++ (x ++ ')' :: (M ++ ("@counter(".toList ++
          (k ++ ')' :: S)))))).length := by
      simp [counterName, c_counterOperations, argsText]
      omega
    omega
  have hpc := parseCounter_counter k (P ++ M) S properties hk hPM hS hSne hsmall2
  have hnone : ∀ ns : Str, startsWith (counterName 0 ++ '(' :: (argsText [k] ++ ')' :: S)) ns
      = false → findAt ('@' :: ns)
        ((P ++ M) ++ '@' :: (counterName 0 ++ '(' :: (argsText [k] ++ ')' :: S))) 0 = none := by
    intro ns h
    exact findAt_none_of_atAll ns _ 0 (atAll_single _ _ _ hPM hV (by simp [h]))
  rw [hin]
  refine ⟨by rw [hpm, hout2, hout]; rfl, ?_⟩
  simp only [parse, parsePieceFiles, hpm]
  rw [hout,
    parseForEach_of_find_none _ _ (hnone ("foreach".toList)
      (by simp [counterName, c_counterOperations, startsWith]))]
  simp only
  rw [parseProperties_of_find_none fuel _ _ (hnone ("property".toList)
      (by simp [counterName, c_counterOperations, startsWith]))]
  simp only
  rw [collectPieces_of_find_none _ _ (hnone ("piece".toList)
      (by simp [counterName, c_counterOperations, startsWith]))]
  simp only
  rw [insertPieces_of_find_none fuel _ _ (hnone ("insertpiece".toList)
      (by simp [counterName, c_counterOperations, startsWith]))]
  simp only
  rw [hpc]
  simp

/-- C11, amended. The driver does not look at the error flag of a pass: after a pass
reports a syntax error on the main buffer, the later passes still run on its output. For
all names `x` and `k`, all texts `P`, `M`, `S` without `@`, `S` not empty, and every
property map, on the buffer `P ++ "@pset(x)" ++ M ++ "@counter(k)" ++ S` (shorter than 2^64
bytes) `parseMath` returns the error flag set and the text
`P ++ M ++ "@counter(k)" ++ S`, and `parse` with no piece files returns
`P ++ M ++ v ++ S`, where `v` is the decimal text of the value of `k`, and a property map
in which `k` is one more than before. -/
theorem parse_continues_after_error (fuel : Nat) (x k P M S : Str) (properties : PropertyMap)
    (hx : isName x = true) (hk : isName k = true) (hP : '@' ∉ P) (hM : '@' ∉ M)
    (hS : '@' ∉ S) (hSne : S ≠ [])
    (hsmall : (P ++ ("@pset(".toList ++ (x ++ ')' :: (M ++ ("@counter(".toList ++
      (k ++ ')' :: S)))))).length < 18446744073709551616) :
    (parseMath (P ++ ("@pset(".toList ++ (x ++ ')' :: (M ++ ("@counter(".toList ++
        (k ++ ')' :: S)))))) properties).map (fun r => (r.syntaxError, r.outBuffer)) =
      some (true, P ++ (M ++ ("@counter(".toList ++ (k ++ ')' :: S)))) ∧
    parse (fuel + 1) (P ++ ("@pset(".toList ++ (x ++ ')' :: (M ++ ("@counter(".toList ++
        (k ++ ')' :: S)))))) properties [] =
      some (P ++ (M ++ (decimalInt (getProperty properties k) ++ S)),
        setProperty properties k (wrapInt32 (getProperty properties k + 1))) :=
  parse_pset_error_counter fuel x k P M S properties hx hk hP hM hS hSne hsmall

theorem parse_continues_after_error_witness :
    isName ['x'] = true ∧ isName ['k'] = true ∧ '@' ∉ ['A'] ∧ '@' ∉ ['B'] ∧ '@' ∉ ['C'] ∧
    (parseMath (['A'] ++ ("@pset(".toList ++ (['x'] ++ ')' :: (['B'] ++ ("@counter(".toList ++
        (['k'] ++ ')' :: ['C'])))))) emptyProperties).map
        (fun r => (r.syntaxError, r.outBuffer)) =
      some (true, ['A'] ++ (['B'] ++ ("@counter(".toList ++ (['k'] ++ ')' :: ['C'])))) ∧
    parse 1 (['A'] ++ ("@pset(".toList ++ (['x'] ++ ')' :: (['B'] ++ ("@counter(".toList ++
        (['k'] ++ ')' :: ['C'])))))) emptyProperties [] =
      some (['A'] ++ (['B'] ++ (decimalInt (getProperty emptyProperties ['k']) ++ ['C'])),
        setProperty emptyProperties ['k']
          (wrapInt32 (getProperty emptyProperties ['k'] + 1))) :=
  ⟨by decide, by decide, by decide, by decide, by decide,
    parse_continues_after_error 0 ['x'] ['k'] ['A'] ['B'] ['C'] emptyProperties
      (by decide) (by decide) (by decide) (by decide) (by decide) (by decide) (by decide)⟩

set_option maxRecDepth 100000 in
/-- C11 as stated fails on `@pset(x)@counter(k) `: `parseMath` reports a syntax error and
its partial output is `@counter(k) `, yet `parse` returns `0 ` and leaves `k` at 1: the
later pass `parseCounter` has run. -/
theorem parse_continues_after_error_counterexample :
    (parseMath "@pset(x)@counter(k) ".toList emptyProperties).map
        (fun r => (r.syntaxError, r.outBuffer)) = some (true, "@counter(k) ".toList) ∧
    (parse 1 "@pset(x)@counter(k) ".toList emptyProperties []).map
        (fun r => (r.1, getProperty r.2 ['k'])) = some ("0 ".toList, 1) := by
  refine ⟨?_, ?_⟩ <;> decide

set_option maxRecDepth 100000 in
/-- C17: what the code does on a zero divisor. `divOp` and `modOp` divide with no test of
the second operand, so `@pdiv`, `@pmod`, `@div` and `@mod` with a second operand that is
the literal 0 or an undefined property divide by zero: the pass does not return (`none`
is the runtime fault). With a divisor other than 0 the same directives return. -/
theorem division_by_zero_examples :
    divOp 7 0 = none ∧ modOp 7 0 = none ∧
    (parseMath "@pdiv(x, 0) ".toList (setProperty emptyProperties ['x'] 7)).isNone = true ∧
    (parseMath "@pmod(x, y) ".toList (setProperty emptyProperties ['x'] 7)).isNone = true ∧
    (parseCounter "@div(x, 0) ".toList (setProperty emptyProperties ['x'] 7)).isNone = true ∧
    (parseCounter "@mod(x, y) ".toList (setProperty emptyProperties ['x'] 7)).isNone = true ∧
    (parseMath "@pdiv(x, 2) ".toList (setProperty emptyProperties ['x'] 7)).map
        (fun r => (r.syntaxError, r.outBuffer, getProperty r.properties ['x'])) =
      some (false, " ".toList, 3) ∧
    (parseCounter "@mod(x, 2) ".toList (setProperty emptyProperties ['x'] 7)).map
        (fun r => (r.syntaxError, r.outBuffer, getProperty r.properties ['x'])) =
      some (false, " ".toList, 1) := by
  refine ⟨?_, ?_, ?_, ?_, ?_, ?_, ?_, ?_⟩ <;> decide

/-! ## Bounds on the scanners, for every buffer -/

theorem startsWith_length : ∀ (s n : Str), startsWith s n = true → n.length ≤ s.length
  | _, [], _ => by simp
  | [], _ :: _, h => by simp [startsWith] at h
  | c :: cs, a :: ns, h => by
    simp only [startsWith, Bool.and_eq_true] at h
    have := startsWith_length cs ns h.2
    simp; omega

theorem findAt_fits (n : Str) : ∀ (s : Str) (i r : Nat), findAt n s i = some r →
    r + n.length ≤ i + s.length
  | [], i, r, h => by
    simp only [findAt] at h
    split at h
    · rename_i he
      have : n = [] := by cases n <;> simp_all
      simp at h; subst this; simp; omega
    · simp at h
  | c :: cs, i, r, h => by
    simp only [findAt] at h
    split at h
    · rename_i hs
      have := startsWith_length _ _ hs
      simp at h; simp at this ⊢; omega
    · have := findAt_fits n cs (i + 1) r h
      simp; omega

theorem find_fromStart_fits {buf : Str} {s p : Nat} (a : Char) (n : Str) (hs : s ≤ buf.length)
    (h : (SubStringRef.fromStart buf s).find (a :: n) 0 = some p) :
    s + p + (n.length + 1) ≤ buf.length := by
  rw [find_fromStart a n hs rfl] at h
  have := findAt_fits _ _ _ _ h
  simp at this
  omega

theorem evaluateExpressionEndLoop_bound : ∀ (cs : Str) (i : Nat) (nesting : Int),
    (evaluateExpressionEndLoop cs i nesting).2.2 = true →
      (evaluateExpressionEndLoop cs i nesting).1 < i + cs.length ∧
      (0 ≤ nesting → i + 1 ≤ (evaluateExpressionEndLoop cs i nesting).1)
  | [], i, nesting, h => by simp [evaluateExpressionEndLoop] at h
  | c :: cs, i, nesting, h => by
    unfold evaluateExpressionEndLoop at h ⊢
    split
    · rename_i hn
      rw [if_pos hn] at h
      by_cases hcs : cs = []
      · subst hcs
        simp [evaluateExpressionEndLoop] at h
      · cases cs with
        | nil => exact absurd rfl hcs
        | cons d ds =>
          have ih := evaluateExpressionEndLoop_bound (d :: ds) (i + 1) _ h
          refine ⟨by have := ih.1; simp at this ⊢; omega, fun _ => ?_⟩
          by_cases hn2 : 0 ≤ (if c = '(' then nesting + 1 else if c = ')' then nesting - 1
              else nesting)
          · have := ih.2 hn2; omega
          · unfold evaluateExpressionEndLoop
            rw [if_neg hn2]
    · rename_i hn
      exact ⟨by simp, fun h0 => absurd h0 hn⟩

theorem evaluateExpressionEnd_bound {buf : Str} {s e : Nat} (hs : s ≤ buf.length)
    (h : evaluateExpressionEnd (SubStringRef.fromStart buf s) = some e) :
    s + e + 1 < buf.length := by
  unfold evaluateExpressionEnd at h
  have hb := evaluateExpressionEndLoop_bound (SubStringRef.fromStart buf s).content 0 0
  generalize evaluateExpressionEndLoop (SubStringRef.fromStart buf s).content 0 0 = r at h hb
  obtain ⟨i, n, b⟩ := r
  simp only [Bool.and_eq_true, decide_eq_true_eq] at h
  split at h
  · rename_i hc
    have hb' := hb hc.1
    have hlen : (SubStringRef.fromStart buf s).content.length = buf.length - s := by
      simp [SubStringRef.content, SubStringRef.fromStart]
    simp only [Option.some.injEq] at h
    have h1 := hb'.1
    have h2 := hb'.2 (le_refl _)
    simp only at h1 h2
    omega
  · cases h

theorem evaluateExpression_view {buf : Str} {s : Nat} (properties : PropertyMap)
    (hs : s ≤ buf.length) :
    ∃ s2, (evaluateExpression (SubStringRef.fromStart buf s) properties).2.1
        = SubStringRef.fromStart buf s2 ∧ s ≤ s2 ∧ s2 ≤ buf.length := by
  unfold evaluateExpression
  cases h : evaluateExpressionEnd (SubStringRef.fromStart buf s) with
  | none => exact ⟨s, rfl, le_refl _, hs⟩
  | some e =>
    have := evaluateExpressionEnd_bound hs h
    exact ⟨s + e + 1, rfl, by omega, by omega⟩

theorem findBlockEndLoop_mono (buf : Str) (en : Nat) : ∀ (fuel it : Nat) (nesting : Int)
    (it2 : Nat) (n2 : Int), findBlockEndLoop buf en fuel it nesting = some (it2, n2) → it ≤ it2
  | 0, _, _, _, _, h => by simp [findBlockEndLoop] at h
  | fuel + 1, it, nesting, it2, n2, h => by
    unfold findBlockEndLoop at h
    split at h
    · simp only [Option.some.injEq, Prod.mk.injEq] at h; omega
    · split at h
      · cases h
      · split at h
        · simp only at h
          split at h
          · have := findBlockEndLoop_mono buf en fuel _ _ _ _ h; omega
          · split at h
            · have := findBlockEndLoop_mono buf en fuel _ _ _ _ h; omega
            · have := findBlockEndLoop_mono buf en fuel _ _ _ _ h; omega
        · have := findBlockEndLoop_mono buf en fuel _ _ _ _ h; omega

theorem findBlockEnd_view {buf : Str} {s : Nat} {err err2 : Bool} {block : SubStringRef}
    (hs : s ≤ buf.length)
    (h : findBlockEnd (SubStringRef.fromStart buf s) err = some (block, err2)) :
    block.mOriginal = buf ∧ block.mStart = s ∧ block.mEnd ≤ buf.length ∧
      s ≤ block.mEnd + 4 := by
  unfold findBlockEnd at h
  split at h
  · cases h
  · rename_i it nesting hl
    have hm := findBlockEndLoop_mono _ _ _ _ _ _ _ hl
    simp only [SubStringRef.fromStart] at hm
    split at h
    · simp only [Option.some.injEq, Prod.mk.injEq] at h
      obtain ⟨h1, _⟩ := h
      subst h1
      refine ⟨rfl, rfl, ?_, ?_⟩
      · exact Nat.min_le_right _ _
      · show s ≤ min (it - 4) buf.length + 4
        omega
    · simp only [Option.some.injEq, Prod.mk.injEq] at h
      obtain ⟨h1, _⟩ := h
      subst h1
      exact ⟨rfl, rfl, le_refl _, by show s ≤ buf.length + 4; omega⟩

/-! ## Every pass of parseProperties that finds a directive shortens the text -/

theorem copy_length_le (buf : Str) (s n : Nat) :
    (copy (SubStringRef.fromStart buf s) n).length ≤ min n (buf.length - s) := by
  simp [copy, SubStringRef.fromStart]

theorem parsePropertiesLoop_inv (properties : PropertyMap) (buf : Str) :
    ∀ (fuel s : Nat) (pos : Option Nat) (out : Str) (err : Bool) (c d : Nat)
      (sub2 : SubStringRef) (out2 : Str) (err2 : Bool),
      s ≤ buf.length → out.length + c ≤ s → (∀ p, pos = some p → s + p + d ≤ buf.length) →
      d ≤ 10 →
      parsePropertiesLoop properties fuel (SubStringRef.fromStart buf s) pos out err
        = some (sub2, out2, err2) →
      ∃ s2, sub2 = SubStringRef.fromStart buf s2 ∧ s2 ≤ buf.length ∧
        out2.length + c + (if pos.isSome ∧ err = false then d else 0) ≤ s2
  | 0, _, _, _, _, _, _, _, _, _, _, _, _, _, h => by simp [parsePropertiesLoop] at h
  | fuel + 1, s, none, out, err, c, d, sub2, out2, err2, hs, hout, _, _, h => by
    simp only [parsePropertiesLoop, Option.some.injEq, Prod.mk.injEq] at h
    obtain ⟨h1, h2, _⟩ := h
    subst h1 h2
    exact ⟨s, rfl, hs, by simp; omega⟩
  | fuel + 1, s, some p, out, err, c, d, sub2, out2, err2, hs, hout, hp, hd, h => by
    rw [parsePropertiesLoop] at h
    split at h
    · rename_i herr
      simp only [Option.some.injEq, Prod.mk.injEq] at h
      obtain ⟨h1, h2, _⟩ := h
      subst h1 h2
      exact ⟨s, rfl, hs, by simp [herr]; omega⟩
    · rename_i herr
      have hp' := hp p rfl
      have hset : (SubStringRef.fromStart buf s).setStart
          ((SubStringRef.fromStart buf s).getStart + p + 10)
          = SubStringRef.fromStart buf (min (s + p + 10) buf.length) := rfl
      rw [hset] at h
      have hs1 : min (s + p + 10) buf.length ≤ buf.length := Nat.min_le_right _ _
      obtain ⟨s2, hv, hs12, hs2⟩ := evaluateExpression_view properties hs1
      simp only at h
      split at h
      · cases h
      · rename_i block errB hfb
        rw [hv] at hfb h
        obtain ⟨hb1, hb2, hb3, hb4⟩ := findBlockEnd_view hs2 hfb
        have hset3 : (SubStringRef.fromStart buf s2).setStart (block.getEnd + 4)
            = SubStringRef.fromStart buf (min (block.mEnd + 4) buf.length) := rfl
        rw [hset3] at h
        have hcopy1 := copy_length_le buf s p
        have hcopyB : (copy block block.getSize).length ≤ block.mEnd - s2 := by
          have e : block = ⟨buf, s2, block.mEnd⟩ := by
            cases block; simp only at hb1 hb2; subst hb1 hb2; rfl
          rw [e]
          simp [copy, SubStringRef.getSize]
        have hs3 : min (block.mEnd + 4) buf.length ≤ buf.length := Nat.min_le_right _ _
        have hout3 : (if ((evaluateExpression (SubStringRef.fromStart buf
              (min (s + p + 10) buf.length)) properties).1 && !errB) = true then
              out ++ copy (SubStringRef.fromStart buf s) p ++ copy block block.getSize
            else out ++ copy (SubStringRef.fromStart buf s) p).length + (c + d)
            ≤ min (block.mEnd + 4) buf.length := by
          split
          · simp only [List.length_append]; omega
          · simp only [List.length_append]; omega
        obtain ⟨s4, h41, h42, h43⟩ := parsePropertiesLoop_inv properties buf fuel _ _ _ _
          (c + d) 0 sub2 out2 err2 hs3 hout3 (fun q _ => by
            rename_i hq
            have := find_fromStart_fits '@' ("property".toList) hs3 hq
            omega) (by omega) h
        refine ⟨s4, h41, h42, ?_⟩
        have : err = false := by simpa using herr
        simp only [Option.isSome_some, this, and_self, if_true]
        omega

/-- Every pass of `parseProperties` that returns gives an output no longer than its input,
and at least 9 bytes shorter when the input holds `@property`. -/
theorem parsePropertiesPass_length (buf : Str) (properties : PropertyMap) (out : Str)
    (err : Bool) (h : parsePropertiesPass buf properties = some (out, err)) :
    out.length ≤ buf.length ∧
    ((strFind buf ("@property".toList) 0).isSome = true → out.length + 9 ≤ buf.length) := by
  unfold parsePropertiesPass at h
  simp only at h
  split at h
  · cases h
  · rename_i sub2 out2 err2 hl
    simp only [Option.some.injEq, Prod.mk.injEq] at h
    obtain ⟨h1, _⟩ := h
    subst h1
    have hfit : ∀ p, (SubStringRef.fromStart buf 0).find ("@property".toList) 0 = some p →
        0 + p + 9 ≤ buf.length := fun p hp => by
      have := find_fromStart_fits '@' ("property".toList) (Nat.zero_le _) hp
      simpa using this
    obtain ⟨s2, hv, hs2, hlen⟩ := parsePropertiesLoop_inv properties buf _ 0 _ [] false 0 9
      sub2 out2 err2 (Nat.zero_le _) (by simp) hfit (by omega) hl
    subst hv
    have hc := copy_length_le buf s2 (SubStringRef.fromStart buf s2).getSize
    refine ⟨by simp only [List.length_append]; omega, fun hfind => ?_⟩
    have hsome : ((SubStringRef.fromStart buf 0).find ("@property".toList) 0).isSome = true := by
      have e : (SubStringRef.fromStart buf 0).find ("@property".toList) 0
          = findAt ("@property".toList) buf 0 := find_zero_fromStart_zero buf '@' _
      rw [e, ← strFind_zero]; exact hfind
    simp only [hsome, true_and, if_true] at hlen
    simp only [List.length_append]
    omega

/-! ## The recursion of parseProperties -/

theorem parsePropertiesWhile_done (out : Str) (err : Bool) (properties : PropertyMap)
    (h : (!err && (strFind out ("@property".toList) 0).isSome) = false) :
    ∀ fuel, parsePropertiesWhile fuel out err properties = some ⟨err, out, properties⟩
  | 0 => by rw [parsePropertiesWhile, h]; rfl
  | fuel + 1 => by rw [parsePropertiesWhile, h]; rfl

theorem parseProperties_post (properties : PropertyMap) : ∀ fuel : Nat,
    (∀ (buf : Str) (r : PassResult), parseProperties fuel buf properties = some r →
      (!r.syntaxError && (strFind r.outBuffer ("@property".toList) 0).isSome) = false) ∧
    (∀ (out : Str) (err : Bool) (r : PassResult),
      parsePropertiesWhile fuel out err properties = some r →
      (!r.syntaxError && (strFind r.outBuffer ("@property".toList) 0).isSome) = false)
  | 0 => by
    refine ⟨fun buf r h => by simp [parseProperties] at h, fun out err r h => ?_⟩
    rw [parsePropertiesWhile] at h
    split at h
    · cases h
    · rename_i hc
      simp only [Option.some.injEq] at h
      subst h
      simpa using hc
  | fuel + 1 => by
    have ih := parseProperties_post properties fuel
    refine ⟨fun buf r h => ?_, fun out err r h => ?_⟩
    · rw [parseProperties] at h
      split at h
      · cases h
      · exact ih.2 _ _ _ h
    · rw [parsePropertiesWhile] at h
      split at h
      · split at h
        · cases h
        · exact ih.2 _ _ _ h
      · rename_i hc
        simp only [Option.some.injEq] at h
        subst h
        simpa using hc

theorem parsePropertiesWhile_stable (properties : PropertyMap) (out : Str) (err : Bool)
    (m k : Nat)
    (hrec : (!err && (strFind out ("@property".toList) 0).isSome) = true →
      ∃ j, m = j + 1 ∧ parseProperties (j + k) out properties = parseProperties j out properties) :
    parsePropertiesWhile (m + k) out err properties = parsePropertiesWhile m out err properties := by
  cases hc : (!err && (strFind out ("@property".toList) 0).isSome) with
  | false =>
    rw [parsePropertiesWhile_done out err properties hc, parsePropertiesWhile_done out err properties hc]
  | true =>
    obtain ⟨j, hm, hp⟩ := hrec hc
    subst hm
    rw [show j + 1 + k = (j + k) + 1 by omega, parsePropertiesWhile, parsePropertiesWhile, hc]
    simp only [if_true]
    rw [hp]
    cases hr : parseProperties j out properties with
    | none => rfl
    | some r =>
      simp only
      have hpost := (parseProperties_post properties j).1 out r hr
      rw [parsePropertiesWhile_done _ _ properties hpost, parsePropertiesWhile_done _ _ properties hpost]

theorem strFind_fits (buf n : Str) (h : (strFind buf n 0).isSome = true) :
    n.length ≤ buf.length := by
  rw [strFind_zero] at h
  cases hf : findAt n buf 0 with
  | none => rw [hf] at h; cases h
  | some r =>
    have := findAt_fits n buf 0 r hf
    omega

/-- A call of `parseProperties` on a buffer that holds `@property` and has at most
`9 * (m + 1) + 8` bytes needs no more than `2 * m + 1` levels of recursion: more fuel gives
the same result. -/
theorem parseProperties_stable (properties : PropertyMap) : ∀ (m : Nat) (buf : Str) (k : Nat),
    buf.length / 9 ≤ m + 1 →
      parseProperties (2 * m + 1 + k) buf properties = parseProperties (2 * m + 1) buf properties
  | m, buf, k, hlen => by
    rw [show 2 * m + 1 + k = (2 * m + k) + 1 by omega, parseProperties, parseProperties]
    cases hp : parsePropertiesPass buf properties with
    | none => rfl
    | some r =>
      obtain ⟨out, err⟩ := r
      simp only
      apply parsePropertiesWhile_stable
      intro hc
      simp only [Bool.and_eq_true] at hc
      have hin : (strFind buf ("@property".toList) 0).isSome = true ∨
          (strFind buf ("@property".toList) 0).isSome = false := by
        cases (strFind buf ("@property".toList) 0).isSome <;> simp
      have hout9 := strFind_fits out _ hc.2
      simp only [String.toList, List.length_cons, List.length_nil] at hout9
      have hshort : out.length + 9 ≤ buf.length := by
        rcases hin with hin | hin
        · exact (parsePropertiesPass_length buf properties out err hp).2 hin
        · exfalso
          have hnone : findAt ("@property".toList) buf 0 = none := by
            rw [strFind_zero] at hin
            cases hf : findAt ("@property".toList) buf 0 with
            | none => rfl
            | some r => rw [hf] at hin; cases hin
          rw [parsePropertiesPass_of_find_none buf properties hnone] at hp
          simp only [Option.some.injEq, Prod.mk.injEq] at hp
          rw [← hp.1, strFind_zero, hnone] at hc
          simp at hc
      have hm : 1 ≤ m := by
        by_contra hm0
        have : m = 0 := by omega
        subst this
        omega
      obtain ⟨j, rfl⟩ : ∃ j, m = j + 1 := ⟨m - 1, by omega⟩
      refine ⟨2 * j + 1, by omega, ?_⟩
      exact parseProperties_stable properties j out k (by omega)

theorem parseProperties_fuel (properties : PropertyMap) (buf : Str) (k : Nat) :
    parseProperties (buf.length + 1 + k) buf properties
      = parseProperties (buf.length + 1) buf properties := by
  by_cases hlen : buf.length / 9 = 0
  · have h0 := parseProperties_stable properties 0 buf (buf.length + k) (by omega)
    have h1 := parseProperties_stable properties 0 buf buf.length (by omega)
    rw [show buf.length + 1 + k = 2 * 0 + 1 + (buf.length + k) by omega, h0,
      show buf.length + 1 = 2 * 0 + 1 + buf.length by omega, h1]
  · have hle : 2 * (buf.length / 9 - 1) + 1 ≤ buf.length + 1 := by omega
    have h0 := parseProperties_stable properties (buf.length / 9 - 1) buf
      (buf.length + 1 + k - (2 * (buf.length / 9 - 1) + 1)) (by omega)
    have h1 := parseProperties_stable properties (buf.length / 9 - 1) buf
      (buf.length + 1 - (2 * (buf.length / 9 - 1) + 1)) (by omega)
    rw [show 2 * (buf.length / 9 - 1) + 1 + (buf.length + 1 + k - (2 * (buf.length / 9 - 1) + 1))
      = buf.length + 1 + k by omega] at h0
    rw [show 2 * (buf.length / 9 - 1) + 1 + (buf.length + 1 - (2 * (buf.length / 9 - 1) + 1))
      = buf.length + 1 by omega] at h1
    rw [h0, h1]

/-! ## The passes of parseProperties return, except past an opener that ends the text -/

theorem startsWith_prefix : ∀ (s n : Str), startsWith s n = true → ∃ rest, s = n ++ rest
  | s, [], _ => ⟨s, rfl⟩
  | [], _ :: _, h => by simp [startsWith] at h
  | c :: cs, a :: ns, h => by
    simp only [startsWith, Bool.and_eq_true, beq_iff_eq] at h
    obtain ⟨rest, hr⟩ := startsWith_prefix cs ns h.2
    exact ⟨rest, by rw [h.1, hr]; rfl⟩

theorem startsWith_of_findAt (n : Str) : ∀ (s : Str) (i : Nat), findAt n s i = some i →
    startsWith s n = true
  | [], i, h => by
    simp only [findAt] at h
    split at h
    · rename_i he
      cases n with
      | nil => rfl
      | cons a t => simp at he
    · cases h
  | c :: cs, i, h => by
    simp only [findAt] at h
    split at h
    · assumption
    · have := findAt_ge n cs (i + 1) i h
      omega

theorem drop_of_find_zero {buf : Str} {st : Nat} (a : Char) (n : Str) (hst : st ≤ buf.length)
    (h : (SubStringRef.fromStart buf st).find (a :: n) 0 = some 0) :
    ∃ rest, buf.drop st = (a :: n) ++ rest := by
  rw [find_fromStart a n hst rfl] at h
  exact startsWith_prefix _ _ (startsWith_of_findAt _ _ _ h)

theorem findBlockName_spec (sub : SubStringRef) (len : Nat)
    (h : findBlockName sub blockNames = some len) :
    ∃ (a : Char) (n : Str), (a :: n) ∈ blockNames ∧ len = n.length + 1 ∧
      sub.find (a :: n) 0 = some 0 := by
  simp only [findBlockName, blockNames] at h
  split at h
  · rename_i h1
    exact ⟨'f', "oreach".toList, by simp [blockNames], by simpa using h.symm, h1⟩
  · split at h
    · rename_i h1
      exact ⟨'p', "roperty".toList, by simp [blockNames], by simpa using h.symm, h1⟩
    · split at h
      · rename_i h1
        exact ⟨'p', "iece".toList, by simp [blockNames], by simpa using h.symm, h1⟩
      · cases h

theorem findBlockEndLoop_isSome (buf : Str) (hbuf : ¬ endsWithOpener buf) :
    ∀ (fuel it : Nat) (nesting : Int), it ≤ buf.length → buf.length - it + 1 ≤ fuel →
      (findBlockEndLoop buf buf.length fuel it nesting).isSome = true
  | 0, _, _, _, hf => by omega
  | fuel + 1, it, nesting, hit, hf => by
    unfold findBlockEndLoop
    split
    · rfl
    · rename_i hc
      have hlt : it < buf.length := by
        rcases Nat.lt_or_ge it buf.length with h | h
        · exact h
        · exact absurd (Or.inl (by omega)) hc
      cases hg : buf.get? it with
      | none =>
        have := List.get?_eq_none.mp hg
        omega
      | some c =>
        simp only
        split
        · rename_i hat
          subst hat
          split
          · rename_i hend
            have := find_fromStart_fits 'e' ("nd".toList) (show it + 1 ≤ buf.length by omega)
              hend
            simp only [String.toList, List.length_cons, List.length_nil] at this
            exact findBlockEndLoop_isSome buf hbuf fuel _ _ (by omega) (by omega)
          · split
            · rename_i len hname
              obtain ⟨a, n, hmem, hlen, hfind⟩ := findBlockName_spec _ _ hname
              have hfit := find_fromStart_fits a n (show it + 1 ≤ buf.length by omega) hfind
              by_cases hover : it + 1 + len + 1 ≤ buf.length
              · exact findBlockEndLoop_isSome buf hbuf fuel _ _ hover (by omega)
              · exfalso
                apply hbuf
                obtain ⟨rest, hrest⟩ := drop_of_find_zero a n (show it + 1 ≤ buf.length by omega)
                  hfind
                have hl := congrArg List.length hrest
                simp only [List.length_drop, List.length_append, List.length_cons] at hl
                have hnil : rest = [] := List.length_eq_zero.mp (by omega)
                subst hnil
                refine ⟨a :: n, hmem, ⟨buf.take it, ?_⟩⟩
                have hd : buf.drop it = '@' :: buf.drop (it + 1) := by
                  have h1 := List.drop_eq_getElem_cons hlt
                  have h2 : buf[it] = '@' := by
                    have := List.get?_eq_getElem?  buf it
                    rw [hg] at this
                    have h3 := List.getElem?_eq_getElem hlt
                    rw [h3] at this
                    exact (Option.some.inj this).symm
                  rw [h1, h2]
                conv_rhs => rw [← List.take_append_drop it buf, hd, hrest]
                simp
            · exact findBlockEndLoop_isSome buf hbuf fuel _ _ (by omega) (by omega)
        · exact findBlockEndLoop_isSome buf hbuf fuel _ _ (by omega) (by omega)

theorem findBlockEnd_isSome (buf : Str) (hbuf : ¬ endsWithOpener buf) (s : Nat) (err : Bool)
    (hs : s ≤ buf.length) : (findBlockEnd (SubStringRef.fromStart buf s) err).isSome = true := by
  unfold findBlockEnd
  have := findBlockEndLoop_isSome buf hbuf (buf.length + 1) s 0 hs (by omega)
  simp only [SubStringRef.fromStart]
  cases h : findBlockEndLoop buf buf.length (buf.length + 1) s 0 with
  | none => rw [h] at this; cases this
  | some r =>
    obtain ⟨it, n⟩ := r
    simp only
    split <;> rfl

theorem parsePropertiesLoop_isSome (properties : PropertyMap) (buf : Str)
    (hbuf : ¬ endsWithOpener buf) :
    ∀ (fuel s : Nat) (pos : Option Nat) (out : Str) (err : Bool), s ≤ buf.length →
      buf.length - s + 1 ≤ fuel → (∀ p, pos = some p → s + p + 9 ≤ buf.length) →
      (parsePropertiesLoop properties fuel (SubStringRef.fromStart buf s) pos out err).isSome
        = true
  | 0, _, _, _, _, _, hf, _ => by omega
  | fuel + 1, s, none, out, err, _, _, _ => rfl
  | fuel + 1, s, some p, out, err, hs, hf, hp => by
    rw [parsePropertiesLoop]
    split
    · rfl
    · have hp' := hp p rfl
      have hset : (SubStringRef.fromStart buf s).setStart
          ((SubStringRef.fromStart buf s).getStart + p + 10)
          = SubStringRef.fromStart buf (min (s + p + 10) buf.length) := rfl
      rw [hset]
      have hs1 : min (s + p + 10) buf.length ≤ buf.length := Nat.min_le_right _ _
      obtain ⟨s2, hv, hs12, hs2⟩ := evaluateExpression_view properties hs1
      simp only
      rw [hv]
      have hfb := findBlockEnd_isSome buf hbuf s2
        (evaluateExpression (SubStringRef.fromStart buf (min (s + p + 10) buf.length))
          properties).2.2 hs2
      cases hb : findBlockEnd (SubStringRef.fromStart buf s2)
          (evaluateExpression (SubStringRef.fromStart buf (min (s + p + 10) buf.length))
            properties).2.2 with
      | none => rw [hb] at hfb; cases hfb
      | some r =>
        obtain ⟨block, errB⟩ := r
        obtain ⟨hb1, hb2, hb3, hb4⟩ := findBlockEnd_view hs2 hb
        simp only
        have hset3 : (SubStringRef.fromStart buf s2).setStart (block.getEnd + 4)
            = SubStringRef.fromStart buf (min (block.mEnd + 4) buf.length) := rfl
        rw [hset3]
        have hs3 : min (block.mEnd + 4) buf.length ≤ buf.length := Nat.min_le_right _ _
        exact parsePropertiesLoop_isSome properties buf hbuf fuel _ _ _ _ hs3 (by omega)
          (fun q hq => by
            have := find_fromStart_fits '@' ("property".toList) hs3 hq
            simp only [String.toList, List.length_cons, List.length_nil] at this
            omega)

/-- A pass of `parseProperties` returns on every buffer that does not end with an opener
name. -/
theorem parsePropertiesPass_isSome (properties : PropertyMap) (buf : Str)
    (hbuf : ¬ endsWithOpener buf) : (parsePropertiesPass buf properties).isSome = true := by
  unfold parsePropertiesPass
  have := parsePropertiesLoop_isSome properties buf hbuf (buf.length + 1) 0
    ((SubStringRef.fromStart buf 0).find ("@property".toList) 0) [] false (Nat.zero_le _)
    (by omega) (fun q hq => by
      have := find_fromStart_fits '@' ("property".toList) (Nat.zero_le _) hq
      simp only [String.toList, List.length_cons, List.length_nil] at this
      omega)
  simp only
  cases h : parsePropertiesLoop properties (buf.length + 1) (SubStringRef.fromStart buf 0)
      ((SubStringRef.fromStart buf 0).find ("@property".toList) 0) [] false with
  | none => rw [h] at this; cases this
  | some r => rfl

theorem parsePropertiesPass_shrinks (buf : Str) (properties : PropertyMap) (out : Str)
    (err : Bool) (hp : parsePropertiesPass buf properties = some (out, err))
    (hc : (!err && (strFind out ("@property".toList) 0).isSome) = true) :
    out.length + 9 ≤ buf.length := by
  simp only [Bool.and_eq_true] at hc
  cases hin : (strFind buf ("@property".toList) 0).isSome with
  | true => exact (parsePropertiesPass_length buf properties out err hp).2 hin
  | false =>
    exfalso
    have hnone : findAt ("@property".toList) buf 0 = none := by
      rw [strFind_zero] at hin
      cases hf : findAt ("@property".toList) buf 0 with
      | none => rfl
      | some r => rw [hf] at hin; cases hin
    rw [parsePropertiesPass_of_find_none buf properties hnone] at hp
    simp only [Option.some.injEq, Prod.mk.injEq] at hp
    rw [← hp.1, strFind_zero, hnone] at hc
    simp at hc

/-! ## The passes of one call of parseProperties -/

theorem parsePropertiesInputs_length (properties : PropertyMap) : ∀ (n : Nat) (buf : Str),
    (strFind buf ("@property".toList) 0).isSome = true →
      (parsePropertiesInputs properties n buf).length ≤ buf.length / 9 ∧
      ∀ text ∈ parsePropertiesInputs properties n buf,
        (strFind text ("@property".toList) 0).isSome = true
  | 0, buf, _ => by simp [parsePropertiesInputs]
  | n + 1, buf, hin => by
    have h9 := strFind_fits buf _ hin
    simp only [String.toList, List.length_cons, List.length_nil] at h9
    rw [parsePropertiesInputs]
    cases hp : parsePropertiesPass buf properties with
    | none =>
      simp only [List.length_cons, List.length_nil, List.mem_singleton]
      exact ⟨by omega, fun t ht => ht ▸ hin⟩
    | some r =>
      obtain ⟨out, err⟩ := r
      simp only
      by_cases hc : (!err && (strFind out ("@property".toList) 0).isSome) = true
      · rw [if_pos hc]
        have hshort := parsePropertiesPass_shrinks buf properties out err hp hc
        simp only [Bool.and_eq_true] at hc
        obtain ⟨ih1, ih2⟩ := parsePropertiesInputs_length properties n out hc.2
        refine ⟨by simp only [List.length_cons]; omega, fun t ht => ?_⟩
        rcases List.mem_cons.1 ht with rfl | ht
        · exact hin
        · exact ih2 t ht
      · rw [if_neg hc]
        simp only [List.length_cons, List.length_nil, List.mem_singleton]
        exact ⟨by omega, fun t ht => ht ▸ hin⟩

theorem parsePropertiesInputs_of_find_none (properties : PropertyMap) (n : Nat) (buf : Str)
    (hin : (strFind buf ("@property".toList) 0).isSome = false) :
    parsePropertiesInputs properties (n + 1) buf = [buf] := by
  have hnone : findAt ("@property".toList) buf 0 = none := by
    rw [strFind_zero] at hin
    cases hf : findAt ("@property".toList) buf 0 with
    | none => rfl
    | some r => rw [hf] at hin; cases hin
  rw [parsePropertiesInputs, parsePropertiesPass_of_find_none buf properties hnone]
  simp only [Bool.not_false, Bool.true_and, hin, Bool.false_eq_true, if_false]

/-- The passes of one call of `parseProperties` whose input holds `@property` number at
most `length / 9`, whatever number of passes is allowed. -/
theorem parsePropertiesInputs_count (properties : PropertyMap) (n : Nat) (buf : Str) :
    ((parsePropertiesInputs properties n buf).filter
      fun text => (strFind text ("@property".toList) 0).isSome).length ≤ buf.length / 9 := by
  cases hin : (strFind buf ("@property".toList) 0).isSome with
  | true =>
    exact le_trans (List.length_filter_le _ _) (parsePropertiesInputs_length properties n buf hin).1
  | false =>
    cases n with
    | zero => simp [parsePropertiesInputs]
    | succ n =>
      rw [parsePropertiesInputs_of_find_none properties n buf hin]
      simp only [List.filter, hin, List.length_nil]
      exact Nat.zero_le _

/-- A call of `parseProperties` whose fuel allows `m + 1` passes, on a buffer of less than
`9 * (m + 2)` bytes, returns what the last pass of its run returns. -/
theorem parseProperties_eq_lastPassResult (properties : PropertyMap) :
    ∀ (m : Nat) (buf : Str) (k : Nat), buf.length / 9 ≤ m + 1 →
      parseProperties (2 * m + 1 + k) buf properties
        = lastPassResult properties (parsePropertiesInputs properties (m + 1) buf)
  | m, buf, k, hlen => by
    rw [show 2 * m + 1 + k = (2 * m + k) + 1 by omega, parseProperties, parsePropertiesInputs]
    cases hp : parsePropertiesPass buf properties with
    | none => simp [lastPassResult, hp]
    | some r =>
      obtain ⟨out, err⟩ := r
      simp only
      by_cases hc : (!err && (strFind out ("@property".toList) 0).isSome) = true
      · rw [if_pos hc]
        have hshort := parsePropertiesPass_shrinks buf properties out err hp hc
        have hout9 := strFind_fits out _ (by simp only [Bool.and_eq_true] at hc; exact hc.2)
        simp only [String.toList, List.length_cons, List.length_nil] at hout9
        have hm : 1 ≤ m := by
          by_contra hm0
          have : m = 0 := by omega
          subst this
          omega
        obtain ⟨j, rfl⟩ : ∃ j, m = j + 1 := ⟨m - 1, by omega⟩
        have ih := parseProperties_eq_lastPassResult properties j out k (by omega)
        rw [show 2 * (j + 1) + k = (2 * j + 1 + k) + 1 by omega, parsePropertiesWhile,
          if_pos hc, ih]
        have hlast : lastPassResult properties
            (buf :: parsePropertiesInputs properties (j + 1) out)
            = lastPassResult properties (parsePropertiesInputs properties (j + 1) out) := by
          rw [parsePropertiesInputs]
          simp only [lastPassResult, List.getLast?_cons_cons]
        rw [hlast]
        cases hr : lastPassResult properties (parsePropertiesInputs properties (j + 1) out) with
        | none => rfl
        | some r =>
          simp only
          have hpost := (parseProperties_post properties _).1 out r (ih.trans hr)
          rw [parsePropertiesWhile_done _ _ properties hpost]
          have hprops : r.properties = properties := by
            unfold lastPassResult at hr
            split at hr
            · cases hr
            · cases hq : parsePropertiesPass _ properties with
              | none => rw [hq] at hr; cases hr
              | some q =>
                rw [hq] at hr
                simp only [Option.map_some', Option.some.injEq] at hr
                rw [← hr]
          cases r
          simp only at hprops
          rw [hprops]
      · rw [if_neg hc]
        have hc' : (!err && (strFind out ("@property".toList) 0).isSome) = false := by
          simpa using hc
        rw [parsePropertiesWhile_done _ _ properties hc']
        simp [lastPassResult, hp]

set_option maxRecDepth 100000 in
/-- C18 at `@property(a)x@piece`, a buffer that ends with an opener name. The expression
`a` is false, and `findBlockEnd` scans `x@piece` for the `@end` of the block: at `@piece`
it sets its iterator behind the name, which is the end of the buffer, and the `++it` of
the loop moves it one byte further, where `it != en` holds again: the scan reads bytes
outside the buffer and the pass does not return. `parseProperties` gives no result on
this buffer, whatever bound is put on its recursion. With one more byte behind the name
the scan stops at the end of the buffer and the call returns. -/
theorem parseProperties_overrun_examples :
    (fun r : Bool × SubStringRef × Bool => (r.1, r.2.1.mStart, r.2.1.mEnd, r.2.2))
      (evaluateExpression (SubStringRef.fromStart "@property(a)x@piece".toList 10)
        emptyProperties) = (false, 12, 19, false) ∧
    (findBlockEnd (SubStringRef.fromStart "@property(a)x@piece".toList 12) false).isNone
      = true ∧
    parsePropertiesPass "@property(a)x@piece".toList emptyProperties = none ∧
    (∀ fuel, parseProperties fuel "@property(a)x@piece".toList emptyProperties = none) ∧
    (parseProperties 1 "@property(a)x@piece ".toList emptyProperties).isSome = true := by
  refine ⟨by decide, by decide, by decide, fun fuel => ?_, by decide⟩
  cases fuel with
  | zero => rfl
  | succ n =>
    rw [parseProperties, show parsePropertiesPass "@property(a)x@piece".toList emptyProperties
      = none by decide]

/-- C19, amended. For every input buffer and property map: every pass of `parseProperties`
that finds `@property` in its input and returns gives an output at least 9 bytes shorter
than its input (the number of occurrences of `@property` need not decrease); the passes of
the call whose input holds `@property` number at most `length / 9`, however many passes
are allowed; and the call, given the fuel for `max 1 (length / 9)` passes or more, returns
what the last pass of that run returns: a result, unless that last pass does not return,
which happens only on a text that ends with `@foreach`, `@property` or `@piece`. -/
theorem parseProperties_pass_bound (inBuffer : Str) (properties : PropertyMap) :
    (∀ out err, parsePropertiesPass inBuffer properties = some (out, err) →
      (strFind inBuffer ("@property".toList) 0).isSome = true →
      out.length + 9 ≤ inBuffer.length) ∧
    (∀ n, ((parsePropertiesInputs properties n inBuffer).filter
        fun text => (strFind text ("@property".toList) 0).isSome).length
      ≤ inBuffer.length / 9) ∧
    (∀ k, parseProperties (2 * (inBuffer.length / 9 - 1) + 1 + k) inBuffer properties
      = lastPassResult properties
          (parsePropertiesInputs properties (inBuffer.length / 9 - 1 + 1) inBuffer)) ∧
    (∀ k, (parseProperties (2 * (inBuffer.length / 9 - 1) + 1 + k) inBuffer properties).isSome
        = true ∨
      ∃ text, (parsePropertiesInputs properties (inBuffer.length / 9 - 1 + 1)
          inBuffer).getLast? = some text ∧
        endsWithOpener text ∧ parsePropertiesPass text properties = none) := by
  have hlink := fun k => parseProperties_eq_lastPassResult properties
    (inBuffer.length / 9 - 1) inBuffer k (by omega)
  refine ⟨fun out err hp hin => (parsePropertiesPass_length inBuffer properties out err hp).2 hin,
    fun n => parsePropertiesInputs_count properties n inBuffer, hlink, fun k => ?_⟩
  rw [hlink k]
  unfold lastPassResult
  cases hl : (parsePropertiesInputs properties (inBuffer.length / 9 - 1 + 1)
      inBuffer).getLast? with
  | none =>
    rw [parsePropertiesInputs] at hl
    simp at hl
  | some text =>
    simp only
    cases hp : parsePropertiesPass text properties with
    | some r => left; rfl
    | none =>
      right
      refine ⟨text, rfl, ?_, hp⟩
      by_contra hno
      have := parsePropertiesPass_isSome properties text hno
      rw [hp] at this
      cases this

set_option maxRecDepth 100000 in
/-- C19 at a nested block of 38 bytes: the pass output is at least 9 bytes shorter, the
run has two passes, both on texts that hold `@property`, and the call returns `x z w`. -/
theorem parseProperties_pass_bound_witness :
    parsePropertiesPass "@property(a)x@property(b)y@end z@end w".toList
        (setProperty emptyProperties ['a'] 1) = some ("x@property(b)y@end z w".toList, false) ∧
    (strFind "@property(a)x@property(b)y@end z@end w".toList ("@property".toList) 0).isSome
      = true ∧
    "x@property(b)y@end z w".toList.length + 9
      ≤ "@property(a)x@property(b)y@end z@end w".toList.length ∧
    parsePropertiesInputs (setProperty emptyProperties ['a'] 1) 10
        "@property(a)x@property(b)y@end z@end w".toList
      = ["@property(a)x@property(b)y@end z@end w".toList, "x@property(b)y@end z w".toList] ∧
    (parseProperties 7 "@property(a)x@property(b)y@end z@end w".toList
        (setProperty emptyProperties ['a'] 1)).map (fun r => (r.syntaxError, r.outBuffer))
      = some (false, "x z w".toList) :=
  ⟨by decide, by decide,
   (parseProperties_pass_bound "@property(a)x@property(b)y@end z@end w".toList
      (setProperty emptyProperties ['a'] 1)).1 _ false (by decide) (by decide),
   by decide, by decide⟩

set_option maxRecDepth 100000 in
/-- C19 as stated fails on `@prop@property(x)@enderty(y)z@end w`, which holds `@property`
once: the first pass removes the block and joins `@prop` and `erty(y)z@end w`, so its
output holds `@property` once again, and a second pass runs on a text that holds
`@property`: two such passes, one occurrence in the original input. -/
theorem parseProperties_pass_bound_counterexample :
    countOccurrences ("@property".toList) "@prop@property(x)@enderty(y)z@end w".toList = 1 ∧
    parsePropertiesPass "@prop@property(x)@enderty(y)z@end w".toList emptyProperties
      = some ("@property(y)z@end w".toList, false) ∧
    countOccurrences ("@property".toList) "@property(y)z@end w".toList = 1 ∧
    parsePropertiesPass "@property(y)z@end w".toList emptyProperties
      = some (" w".toList, false) ∧
    (parseProperties 3 "@prop@property(x)@enderty(y)z@end w".toList emptyProperties).map
      (fun r => (r.syntaxError, r.outBuffer)) = some (false, " w".toList) := by
  refine ⟨?_, ?_, ?_, ?_, ?_⟩ <;> decide

/-! ## insertPieces on structured text -/

theorem renderSegments_append (a b : List Segment) :
    renderSegments (a ++ b) = renderSegments a ++ renderSegments b := by
  induction a with
  | nil => rfl
  | cons s rest ih => simp [renderSegments, ih]

theorem insertPiecesLoop_segments (pieces : PiecesMap) (buf tail : Str) (htail : '@' ∉ tail)
    (hne : tail ≠ []) :
    ∀ (segs : List Segment) (fuel st : Nat) (P out : Str) (args : List Str),
      segmentsWellFormed segs = true → '@' ∉ P → st ≤ buf.length →
      buf.drop st = P ++ (renderSegments segs ++ tail) →
      (renderSegments segs).length + 1 ≤ fuel →
      ∃ st2 out2,
        insertPiecesLoop pieces fuel (SubStringRef.fromStart buf st)
          ((SubStringRef.fromStart buf st).find ("@insertpiece".toList) 0) args out false
          = some (SubStringRef.fromStart buf st2, out2, false) ∧
        st2 ≤ buf.length ∧
        out2 ++ buf.drop st2 = out ++ (P ++ (expandSegments pieces segs ++ tail))
  | [], fuel, st, P, out, args, _, hP, hst, hbuf, hfuel => by
    have hfree : '@' ∉ P ++ (renderSegments [] ++ tail) := by
      simp only [renderSegments, List.nil_append, List.mem_append, not_or]
      exact ⟨hP, htail⟩
    have hfind : (SubStringRef.fromStart buf st).find ("@insertpiece".toList) 0 = none := by
      show (SubStringRef.fromStart buf st).find ('@' :: "insertpiece".toList) 0 = none
      rw [find_fromStart _ _ hst hbuf, findAt_atFree _ _ _ hfree]
    refine ⟨st, out, ?_, hst, ?_⟩
    · rw [hfind, insertPiecesLoop_none pieces fuel (by omega)]
    · rw [hbuf]; simp [renderSegments, expandSegments]
  | .text t :: segs, fuel, st, P, out, args, hwf, hP, hst, hbuf, hfuel => by
    simp only [segmentsWellFormed, List.all_cons, Bool.and_eq_true, Segment.wellFormed,
      Bool.not_eq_true', List.contains_eq_any_beq, List.any_eq_false, beq_iff_eq] at hwf
    have ht : '@' ∉ t := fun hmem => hwf.1 '@' hmem rfl
    have hPt : '@' ∉ P ++ t := by
      simp only [List.mem_append, not_or]; exact ⟨hP, ht⟩
    obtain ⟨st2, out2, h1, h2, h3⟩ := insertPiecesLoop_segments pieces buf tail htail hne segs
      fuel st (P ++ t) out args hwf.2 hPt hst
      (by rw [hbuf]; simp [renderSegments, Segment.render])
      (by simp only [renderSegments, Segment.render, List.length_append] at hfuel; omega)
    exact ⟨st2, out2, h1, h2, by rw [h3]; simp [expandSegments]⟩
  | .directive n :: segs, fuel, st, P, out, args, hwf, hP, hst, hbuf, hfuel => by
    simp only [segmentsWellFormed, List.all_cons, Bool.and_eq_true, Segment.wellFormed] at hwf
    obtain ⟨hn, hwf2⟩ := hwf
    have h0 : buf.drop st = P ++ ("@insertpiece(".toList ++
        (argsText [n] ++ ')' :: (renderSegments segs ++ tail))) := by
      rw [hbuf]; simp [renderSegments, Segment.render, argsText]
    have hRne : renderSegments segs ++ tail ≠ [] := by
      simp [hne]
    have h13 : ("@insertpiece(".toList).length = 13 := rfl
    have hal : (argsText [n]).length = n.length := rfl
    have hlen := length_of_drop_eq hst h0
    simp only [List.length_append, List.length_cons, h13, hal] at hlen
    have hf1 : (renderSegments (Segment.directive n :: segs)).length
        = 13 + (n.length + 1) + (renderSegments segs).length := by
      simp only [renderSegments, Segment.render, List.length_append, List.length_cons, h13,
        List.length_nil]
    obtain ⟨f, rfl⟩ : ∃ f, fuel = f + 1 := ⟨fuel - 1, by omega⟩
    have h1 : buf.drop (st + P.length + 13) = argsText [n] ++ ')' ::
        (renderSegments segs ++ tail) := by
      have a := drop_add_of_drop_eq h0
      have b := drop_add_of_drop_eq a
      simpa using b
    have h2 : buf.drop (st + P.length + 13 + (argsText [n]).length + 1)
        = [] ++ (renderSegments segs ++ tail) := by
      have a := drop_add_of_drop_eq h1
      exact drop_succ_of_drop_eq a
    have hfind : (SubStringRef.fromStart buf st).find ("@insertpiece".toList) 0
        = some P.length := by
      show (SubStringRef.fromStart buf st).find ('@' :: "insertpiece".toList) 0
        = some P.length
      rw [find_fromStart _ _ hst h0, findAt_append_atFree _ _ _ _ hP]
      have := findAt_hit ("@insertpiece".toList)
        ('(' :: (argsText [n] ++ ')' :: (renderSegments segs ++ tail))) (0 + P.length)
        (by decide)
      rw [Nat.zero_add] at this ⊢
      exact this
    have hcopy : copy (SubStringRef.fromStart buf st) P.length = P := copy_fromStart h0
    have hset1 : (SubStringRef.fromStart buf st).setStart
        ((SubStringRef.fromStart buf st).getStart + P.length + 13)
        = SubStringRef.fromStart buf (st + P.length + 13) := by
      rw [setStart_fromStart (by simp [SubStringRef.getStart, SubStringRef.fromStart]; omega)]
      simp [SubStringRef.getStart, SubStringRef.fromStart]
    have hargs := evaluateParamArgs_argsText [n] args (by simp) (by simpa using hn)
      (show st + P.length + 13 ≤ buf.length by omega) h1 hRne
    obtain ⟨st2, out2, i1, i2, i3⟩ := insertPiecesLoop_segments pieces buf tail htail hne segs
      f (st + P.length + 13 + (argsText [n]).length + 1) []
      (out ++ P ++ (pieces n).getD []) [n] hwf2 (by simp) (by rw [hal]; omega) h2
      (by rw [hf1] at hfuel; omega)
    refine ⟨st2, out2, ?_, i2, ?_⟩
    · rw [hfind, insertPiecesLoop]
      simp only [Bool.false_eq_true, if_false, hcopy, hset1, hargs, List.length_singleton,
        ne_eq, not_true_eq_false, decide_False, Bool.or_self, List.get?_cons_zero]
      rw [← i1]
      cases pieces n <;> simp
    · rw [i3]; simp [expandSegments]

/-- One pass of `insertPieces` on a structured text that ends with a non-empty text
without `@`: every directive is replaced by the body of its piece. -/
theorem insertPiecesPass_segments (pieces : PiecesMap) (segs : List Segment) (tail : Str)
    (hwf : segmentsWellFormed segs = true) (htail : '@' ∉ tail) (hne : tail ≠ []) :
    insertPiecesPass (renderSegments segs ++ tail) pieces =
      some (expandSegments pieces segs ++ tail, false) := by
  obtain ⟨st2, out2, h1, h2, h3⟩ := insertPiecesLoop_segments pieces
    (renderSegments segs ++ tail) tail htail hne segs
    ((renderSegments segs ++ tail).length + 1) 0 [] [] [] hwf (by simp) (Nat.zero_le _) rfl
    (by simp only [List.length_append]; omega)
  rw [insertPiecesPass]
  simp only [h1]
  rw [copy_fromStart_all h2 rfl, h3]
  simp

theorem expandSegments_eq_render (pieces : PiecesMap) (rank : Str → Nat)
    (bodySegments : Str → List Segment) (h : structuredPieces pieces rank bodySegments) :
    ∀ segs : List Segment, expandSegments pieces segs
      = renderSegments (substituteSegments pieces bodySegments segs)
  | [] => rfl
  | .text t :: segs => by
    simp only [expandSegments, substituteSegments, renderSegments, Segment.render,
      expandSegments_eq_render pieces rank bodySegments h segs]
  | .directive n :: segs => by
    simp only [expandSegments, substituteSegments, renderSegments_append,
      expandSegments_eq_render pieces rank bodySegments h segs]
    cases hp : pieces n with
    | none => simp [renderSegments]
    | some body => simp [(h n body hp).1]

theorem segmentsWellFormed_substitute (pieces : PiecesMap) (rank : Str → Nat)
    (bodySegments : Str → List Segment) (h : structuredPieces pieces rank bodySegments) :
    ∀ segs : List Segment, segmentsWellFormed segs = true →
      segmentsWellFormed (substituteSegments pieces bodySegments segs) = true
  | [], _ => rfl
  | .text t :: segs, hwf => by
    simp only [segmentsWellFormed, List.all_cons, Bool.and_eq_true] at hwf
    have ih := segmentsWellFormed_substitute pieces rank bodySegments h segs hwf.2
    simp only [segmentsWellFormed] at ih
    simp only [substituteSegments, segmentsWellFormed, List.all_cons, Bool.and_eq_true]
    exact ⟨hwf.1, ih⟩
  | .directive n :: segs, hwf => by
    simp only [segmentsWellFormed, List.all_cons, Bool.and_eq_true] at hwf
    have ih := segmentsWellFormed_substitute pieces rank bodySegments h segs hwf.2
    simp only [segmentsWellFormed] at ih
    simp only [substituteSegments, segmentsWellFormed, List.all_append, Bool.and_eq_true]
    refine ⟨?_, ih⟩
    cases hp : pieces n with
    | none => simp
    | some body =>
      have := (h n body hp).2.1
      simpa [segmentsWellFormed] using this

theorem segmentsLevel_append (pieces : PiecesMap) (rank : Str → Nat) :
    ∀ a b : List Segment, segmentsLevel pieces rank (a ++ b)
      = max (segmentsLevel pieces rank a) (segmentsLevel pieces rank b)
  | [], b => by simp [segmentsLevel]
  | .text t :: a, b => by
    show segmentsLevel pieces rank (a ++ b) = _
    rw [segmentsLevel_append pieces rank a b]
    rfl
  | .directive n :: a, b => by
    show max _ (segmentsLevel pieces rank (a ++ b)) = _
    rw [segmentsLevel_append pieces rank a b]
    simp only [segmentsLevel]
    omega

theorem segmentsLevel_le (pieces : PiecesMap) (rank : Str → Nat) (L : Nat) :
    ∀ segs : List Segment,
      (∀ q, Segment.directive q ∈ segs → (pieces q).isSome = true → rank q < L) →
      segmentsLevel pieces rank segs ≤ L
  | [], _ => by simp [segmentsLevel]
  | .text t :: segs, h => by
    simp only [segmentsLevel]
    exact segmentsLevel_le pieces rank L segs (fun q hq => h q (by simp [hq]))
  | .directive n :: segs, h => by
    simp only [segmentsLevel]
    have ih := segmentsLevel_le pieces rank L segs (fun q hq => h q (by simp [hq]))
    have hn := h n (by simp)
    split
    · rename_i hs
      have := hn hs
      omega
    · omega

theorem segmentsLevel_substitute (pieces : PiecesMap) (rank : Str → Nat)
    (bodySegments : Str → List Segment) (h : structuredPieces pieces rank bodySegments) :
    ∀ segs : List Segment,
      segmentsLevel pieces rank (substituteSegments pieces bodySegments segs)
        ≤ segmentsLevel pieces rank segs - 1
  | [] => by simp [segmentsLevel, substituteSegments]
  | .text t :: segs => by
    simp only [substituteSegments, segmentsLevel]
    exact segmentsLevel_substitute pieces rank bodySegments h segs
  | .directive n :: segs => by
    have ih := segmentsLevel_substitute pieces rank bodySegments h segs
    simp only [substituteSegments, segmentsLevel, segmentsLevel_append]
    cases hp : pieces n with
    | none =>
      simp only [Option.isSome_none, Bool.false_eq_true, if_false, segmentsLevel]
      omega
    | some body =>
      have hb := segmentsLevel_le pieces rank (rank n) (bodySegments n) (h n body hp).2.2
      simp only [Option.isSome_some, if_true]
      omega

theorem expandSegments_atFree (pieces : PiecesMap) (rank : Str → Nat) :
    ∀ segs : List Segment, segmentsWellFormed segs = true →
      segmentsLevel pieces rank segs = 0 → '@' ∉ expandSegments pieces segs
  | [], _, _ => by simp [expandSegments]
  | .text t :: segs, hwf, hl => by
    simp only [segmentsWellFormed, List.all_cons, Bool.and_eq_true, Segment.wellFormed,
      Bool.not_eq_true', List.contains_eq_any_beq, List.any_eq_false, beq_iff_eq] at hwf
    have ht : '@' ∉ t := fun hmem => hwf.1 '@' hmem rfl
    have ih := expandSegments_atFree pieces rank segs hwf.2 (by simpa [segmentsLevel] using hl)
    simp only [expandSegments, List.mem_append, not_or]
    exact ⟨ht, ih⟩
  | .directive n :: segs, hwf, hl => by
    simp only [segmentsWellFormed, List.all_cons, Bool.and_eq_true] at hwf
    simp only [segmentsLevel] at hl
    have hn : pieces n = none := by
      cases hp : pieces n with
      | none => rfl
      | some body => rw [hp] at hl; simp at hl
    have ih := expandSegments_atFree pieces rank segs hwf.2 (by omega)
    simp only [expandSegments, hn, Option.getD_none, List.nil_append]
    exact ih

/-- On a structured text over a structured piece library without cycles, `insertPieces`
returns with no error after at most `L + 1` passes, where `L` bounds the level of the
text. -/
theorem insertPieces_segments (pieces : PiecesMap) (rank : Str → Nat)
    (bodySegments : Str → List Segment) (h : structuredPieces pieces rank bodySegments)
    (tail : Str) (htail : '@' ∉ tail) (hne : tail ≠ []) :
    ∀ (L : Nat) (segs : List Segment), segmentsWellFormed segs = true →
      segmentsLevel pieces rank segs ≤ L →
      ∃ out, strFind out ("@insertpiece".toList) 0 = none ∧
        ∀ k, insertPieces (2 * L + 1 + k) (renderSegments segs ++ tail) pieces
          = some (false, out)
  | L, segs, hwf, hL => by
    have hpass := insertPiecesPass_segments pieces segs tail hwf htail hne
    cases hc : findAt ("@insertpiece".toList) (expandSegments pieces segs ++ tail) 0 with
    | none =>
      refine ⟨expandSegments pieces segs ++ tail, by rw [strFind_zero]; exact hc, fun k => ?_⟩
      rw [show 2 * L + 1 + k = (2 * L + k) + 1 by omega, insertPieces, hpass]
      exact insertPiecesWhile_of_find_none _ _ _ _ hc
    | some r =>
      have hL1 : 1 ≤ L := by
        by_contra h0
        have hfree := expandSegments_atFree pieces rank segs hwf (by omega)
        have : '@' ∉ expandSegments pieces segs ++ tail := by
          simp only [List.mem_append, not_or]; exact ⟨hfree, htail⟩
        have hnone := findAt_atFree ("insertpiece".toList) _ 0 this
        have hc2 : findAt ('@' :: "insertpiece".toList) (expandSegments pieces segs ++ tail) 0
            = some r := hc
        rw [hnone] at hc2
        cases hc2
      obtain ⟨L2, rfl⟩ : ∃ L2, L = L2 + 1 := ⟨L - 1, by omega⟩
      have hsub := segmentsLevel_substitute pieces rank bodySegments h segs
      obtain ⟨out, ho1, ho2⟩ := insertPieces_segments pieces rank bodySegments h tail htail hne
        L2 (substituteSegments pieces bodySegments segs)
        (segmentsWellFormed_substitute pieces rank bodySegments h segs hwf) (by omega)
      refine ⟨out, ho1, fun k => ?_⟩
      rw [show 2 * (L2 + 1) + 1 + k = ((2 * L2 + 1 + k) + 1) + 1 by omega, insertPieces, hpass]
      simp only
      rw [insertPiecesWhile, strFind_zero, hc]
      simp only [Bool.not_false, Option.isSome_some, Bool.and_self, if_true]
      rw [expandSegments_eq_render pieces rank bodySegments h segs, ho2 k]
      simp only
      rw [strFind_zero] at ho1
      exact insertPiecesWhile_of_find_none _ _ _ _ ho1

theorem structuredPieces_chain : structuredPieces chainPieces chainRank chainBodySegments := by
  intro p body hp
  by_cases ha : p = ['a']
  · subst ha
    simp only [chainPieces, insertPiece, if_true, Option.some.injEq] at hp
    subst hp
    refine ⟨by decide, by decide, fun q hq hs => ?_⟩
    simp only [chainBodySegments, if_true, List.mem_cons, Segment.directive.injEq,
      List.mem_singleton, List.not_mem_nil, or_false, false_or] at hq
    rcases hq with hq | hq | hq
    · cases hq
    · subst hq; decide
    · cases hq
  · by_cases hb : p = ['b']
    · subst hb
      simp only [chainPieces, insertPiece] at hp
      rw [if_neg (by decide)] at hp
      simp only [if_true, Option.some.injEq] at hp
      subst hp
      refine ⟨by decide, by decide, fun q hq hs => ?_⟩
      simp [chainBodySegments] at hq
    · simp only [chainPieces, insertPiece, emptyPieces, if_neg ha, if_neg hb] at hp
      cases hp

theorem parseCounterScan_keyword {buf rest : Str} {st : Nat} (k : Nat) (hk : k < 8) (P : Str)
    (hP : '@' ∉ P) (hst : st ≤ buf.length)
    (hbuf : buf.drop st = P ++ '@' :: (counterName k ++ '(' :: rest))
    (hsmall : buf.length < 18446744073709551616) :
    parseCounterScan buf (SubStringRef.fromStart buf st) = (some P.length, some k) := by
  obtain ⟨op, hop, hname, hlen, hnc⟩ := counterName_spec k hk
  have hl := length_of_drop_eq hst hbuf
  simp only [List.length_append, List.length_cons] at hl
  have hd1 : buf.drop (st + P.length + 1) = counterName k ++ '(' :: rest := by
    have a := drop_add_of_drop_eq hbuf
    exact drop_succ_of_drop_eq a
  have hfind : (SubStringRef.fromStart buf st).find ("@".toList) 0 = some P.length := by
    show (SubStringRef.fromStart buf st).find ('@' :: []) 0 = some P.length
    rw [find_fromStart _ _ hst hbuf, findAt_append_atFree _ _ _ _ hP]
    simp [findAt, startsWith]
  have hffo : (SubStringRef.fromStart buf st).findFirstOf (" \t(".toList) (P.length + 1)
      = some (P.length + 1 + (counterName k).length) := by
    simp only [SubStringRef.findFirstOf, SubStringRef.fromStart, strFindFirstOf]
    rw [show st + (P.length + 1) = st + P.length + 1 by omega, hd1,
      findFirstOfAt_skip _ _ '(' (by decide) _ _ hnc]
    simp only
    rw [if_neg (by omega)]
    congr 1
    omega
  have hmod : ((SubStringRef.fromStart buf st).getStart + (P.length + 1 + (counterName k).length))
      % 18446744073709551616 = st + P.length + 1 + (counterName k).length := by
    simp only [SubStringRef.getStart, SubStringRef.fromStart]
    rw [Nat.mod_eq_of_lt (by omega)]
    omega
  have hcontent : (⟨buf, (SubStringRef.fromStart buf st).getStart + P.length + 1,
      st + P.length + 1 + (counterName k).length⟩ : SubStringRef).content
      = counterName k := by
    simp only [SubStringRef.content, SubStringRef.fromStart, SubStringRef.getStart, hd1]
    rw [show st + P.length + 1 + (counterName k).length - (st + P.length + 1)
      = (counterName k).length by omega]
    simp
  rw [parseCounterScan]
  simp only [hfind, hffo, hmod, matchKeyword_counterName _ k hk hcontent]

theorem repeatText_length (t : Str) : ∀ n, (repeatText n t).length = n * t.length
  | 0 => by simp [repeatText]
  | n + 1 => by
    simp only [repeatText, List.length_append, repeatText_length t n]
    rw [Nat.succ_mul]; omega

theorem parseCounterLoop_value (buf p T : Str) (properties : PropertyMap)
    (hp : isName p = true) (hT : '@' ∉ T) (hTne : T ≠ [])
    (hsmall : buf.length < 18446744073709551616) :
    ∀ (n fuel st : Nat) (out : Str) (args : List Str), st ≤ buf.length →
      buf.drop st = repeatText n ("@value(".toList ++ (p ++ [')'])) ++ T → n + 1 ≤ fuel →
      parseCounterLoop buf fuel (SubStringRef.fromStart buf st)
          (parseCounterScan buf (SubStringRef.fromStart buf st)).1
          (parseCounterScan buf (SubStringRef.fromStart buf st)).2 args properties out false
        = some (SubStringRef.fromStart buf
            (st + (repeatText n ("@value(".toList ++ (p ++ [')']))).length),
          ⟨false, out ++ repeatText n (decimalInt (getProperty properties p)), properties⟩)
  | 0, fuel, st, out, args, hst, hbuf, hfuel => by
    simp only [repeatText, List.nil_append] at hbuf
    rw [parseCounterScan_atFree hst hbuf hT, parseCounterLoop_none buf fuel (by omega)]
    simp [repeatText]
  | n + 1, fuel, st, out, args, hst, hbuf, hfuel => by
    obtain ⟨f, rfl⟩ : ∃ f, fuel = f + 1 := ⟨fuel - 1, by omega⟩
    have hRne : repeatText n ("@value(".toList ++ (p ++ [')'])) ++ T ≠ [] := by simp [hTne]
    have h0 : buf.drop st = [] ++ '@' :: (counterName 1 ++ '(' :: (argsText [p] ++ ')' ::
        (repeatText n ("@value(".toList ++ (p ++ [')'])) ++ T))) := by
      rw [hbuf]
      simp [repeatText, counterName, c_counterOperations, argsText]
    have hl := length_of_drop_eq hst h0
    have hcn : (counterName 1).length = 5 := rfl
    have hal : (argsText [p]).length = p.length := rfl
    simp only [List.length_append, List.length_cons, List.length_nil, hcn, hal] at hl
    have hscan := parseCounterScan_keyword 1 (by decide) [] (by simp) hst h0 hsmall
    have hd1 : buf.drop (st + 7) = argsText [p] ++ ')' ::
        (repeatText n ("@value(".toList ++ (p ++ [')'])) ++ T) := by
      have a : buf.drop st = "@value(".toList ++ (argsText [p] ++ ')' ::
          (repeatText n ("@value(".toList ++ (p ++ [')'])) ++ T)) := by
        rw [h0]; simp [counterName, c_counterOperations]
      exact drop_add_of_drop_eq a
    have hd2 : buf.drop (st + 7 + (argsText [p]).length + 1)
        = repeatText n ("@value(".toList ++ (p ++ [')'])) ++ T := by
      have a := drop_add_of_drop_eq hd1
      exact drop_succ_of_drop_eq a
    have hcopy : copy (SubStringRef.fromStart buf st) 0 = [] := by simp [copy]
    have hset1 : (SubStringRef.fromStart buf st).setStart
        ((SubStringRef.fromStart buf st).getStart + 0 + 7)
        = SubStringRef.fromStart buf (st + 7) := by
      rw [setStart_fromStart (by simp [SubStringRef.getStart, SubStringRef.fromStart]; omega)]
      simp [SubStringRef.getStart, SubStringRef.fromStart]
    have hargs := evaluateParamArgs_argsText [p] args (by simp) (by simpa using hp)
      (show st + 7 ≤ buf.length by omega) hd1 hRne
    have ih := parseCounterLoop_value buf p T properties hp hT hTne hsmall n f
      (st + 7 + (argsText [p]).length + 1) (out ++ decimalInt (getProperty properties p)) [p]
      (by rw [hal]; omega) hd2 (by omega)
    rw [hscan]
    simp only [List.length_nil]
    simp only [parseCounterLoop, Bool.false_eq_true, if_false, Option.bind,
      c_counterOperations, List.get?, hcopy, hset1, hargs, List.append_nil,
      List.length_singleton, ne_eq, not_true_eq_false, decide_False, Bool.or_self, le_refl,
      if_true, List.get?_cons_zero]
    rw [if_neg (by decide), ih]
    simp only [repeatText, List.length_append, List.length_cons, List.length_nil, hal,
      List.append_assoc]
    have h7 : ("@value(".toList).length = 7 := rfl
    rw [h7]
    have e : st + 7 + p.length + 1 +
        (repeatText n ("@value(".toList ++ (p ++ [')']))).length
        = st + (7 + (p.length + 1) +
          (repeatText n ("@value(".toList ++ (p ++ [')']))).length) := by omega
    rw [e]
    have e2 : 7 + (p.length + (0 + 1 + (repeatText n ("@value(".toList ++ (p ++ [')']))).length))
        = 7 + (p.length + 1) + (repeatText n ("@value(".toList ++ (p ++ [')']))).length := by
      omega
    rw [e2]

theorem parseCounter_value_directives (p T : Str) (n : Nat) (properties : PropertyMap)
    (hp : isName p = true) (hT : '@' ∉ T) (hTne : T ≠ [])
    (hsmall : (repeatText n ("@value(".toList ++ (p ++ [')'])) ++ T).length
      < 18446744073709551616) :
    parseCounter (repeatText n ("@value(".toList ++ (p ++ [')'])) ++ T) properties =
      some ⟨false, repeatText n (decimalInt (getProperty properties p)) ++ T, properties⟩ := by
  generalize hb : repeatText n ("@value(".toList ++ (p ++ [')'])) ++ T = buf at hsmall
  have hloop := parseCounterLoop_value buf p T properties hp hT hTne hsmall n (buf.length + 1)
    0 [] [] (Nat.zero_le _) (by rw [← hb]; rfl)
    (by
      have := repeatText_length ("@value(".toList ++ (p ++ [')'])) n
      have h2 : 1 ≤ ("@value(".toList ++ (p ++ [')'])).length := by simp
      have h3 : n ≤ n * ("@value(".toList ++ (p ++ [')'])).length := Nat.le_mul_of_pos_right n h2
      rw [← hb]; simp only [List.length_append]; omega)
  have hdrop : buf.drop (0 + (repeatText n ("@value(".toList ++ (p ++ [')']))).length) = T := by
    apply drop_add_of_drop_eq
    rw [← hb]; rfl
  have hle : 0 + (repeatText n ("@value(".toList ++ (p ++ [')']))).length ≤ buf.length := by
    rw [← hb]; simp
  rw [parseCounter]
  simp only
  rw [hloop]
  simp only [List.nil_append]
  rw [copy_fromStart_all hle hdrop]

/-- C21: `@value` reads without writing. For every property name `p`, every `n`, every
property map and every non-empty tail `T` without `@`, `parseCounter` on `n` successive
`@value(p)` directives followed by `T` (a buffer shorter than 2^64 bytes) returns no
error, the output is `n` copies of the signed decimal text of the value of `p` followed
by `T`, and the property map is the one it was given. -/
theorem parseCounter_value_reads (p T : Str) (n : Nat) (properties : PropertyMap)
    (hp : isName p = true) (hT : '@' ∉ T) (hTne : T ≠ [])
    (hsmall : (repeatText n ("@value(".toList ++ (p ++ [')'])) ++ T).length
      < 18446744073709551616) :
    parseCounter (repeatText n ("@value(".toList ++ (p ++ [')'])) ++ T) properties =
      some ⟨false, repeatText n (decimalInt (getProperty properties p)) ++ T, properties⟩ :=
  parseCounter_value_directives p T n properties hp hT hTne hsmall

set_option maxRecDepth 100000 in
/-- C21 at three directives `@value(x)` followed by `T`, with `x` at -5: the output is
`-5-5-5T`. -/
theorem parseCounter_value_reads_witness :
    isName ['x'] = true ∧ '@' ∉ ['T'] ∧
    repeatText 3 ("@value(".toList ++ (['x'] ++ [')'])) ++ ['T']
      = "@value(x)@value(x)@value(x)T".toList ∧
    repeatText 3 (decimalInt (getProperty (setProperty emptyProperties ['x'] (-5)) ['x']))
      ++ ['T'] = "-5-5-5T".toList ∧
    parseCounter (repeatText 3 ("@value(".toList ++ (['x'] ++ [')'])) ++ ['T'])
        (setProperty emptyProperties ['x'] (-5)) =
      some ⟨false,
        repeatText 3 (decimalInt (getProperty (setProperty emptyProperties ['x'] (-5)) ['x']))
          ++ ['T'],
        setProperty emptyProperties ['x'] (-5)⟩ :=
  ⟨by decide, by decide, by decide, by decide,
   parseCounter_value_reads ['x'] ['T'] 3 (setProperty emptyProperties ['x'] (-5))
     (by decide) (by decide) (by decide) (by decide)⟩

set_option maxRecDepth 100000 in
/-- C23: what `parseCounter` does when an `@` that starts no counter keyword comes first.
Only the first `@` of the text is tested: when it starts no keyword the search ends, the
`@value(x)` behind it is not expanded and the buffer is returned as it is; the same
happens after a directive. With no `@` in front the directive is expanded. -/
theorem parseCounter_first_at_examples :
    (parseCounter "a@b @value(x) ".toList (setProperty emptyProperties ['x'] 5)).map
        (fun r => (r.syntaxError, r.outBuffer)) = some (false, "a@b @value(x) ".toList) ∧
    (parseCounter "@ @value(x) ".toList (setProperty emptyProperties ['x'] 5)).map
        (fun r => (r.syntaxError, r.outBuffer)) = some (false, "@ @value(x) ".toList) ∧
    (parseCounter "@value(x) @b @value(x) ".toList (setProperty emptyProperties ['x'] 5)).map
        (fun r => (r.syntaxError, r.outBuffer)) = some (false, "5 @b @value(x) ".toList) ∧
    (parseCounter "ab @value(x) ".toList (setProperty emptyProperties ['x'] 5)).map
        (fun r => (r.syntaxError, r.outBuffer)) = some (false, "ab 5 ".toList) ∧
    (parseMath "a@b @pset(x, 1) ".toList emptyProperties).map
        (fun r => (r.syntaxError, r.outBuffer, getProperty r.properties ['x'])) =
      some (false, "a@b  ".toList, 1) := by
  refine ⟨?_, ?_, ?_, ?_, ?_⟩ <;> decide

set_option maxRecDepth 100000 in
/-- C22: what `findBlockEnd` does when `@` follows an opener name at once. After an opener
the scan resumes two bytes behind the name, so in `x@piece@end y@end z` the `@end` right
behind `@piece` is never seen: the second `@end` brings the nesting back to 0 only, the
end of the buffer is reached, the view is left as it was and the flag is set to false.
When another byte follows the opener name the closing `@end` is found: in
`x@piece(n)@end y@end z` the end of the view is set to 16 and the flag is kept. -/
theorem findBlockEnd_nesting_examples :
    (findBlockEnd (SubStringRef.fromStart "x@piece@end y@end z".toList 0) true).map
        (fun r => (r.1.mStart, r.1.mEnd, r.2)) = some (0, 19, false) ∧
    (findBlockEnd (SubStringRef.fromStart "x@piece(n)@end y@end z".toList 0) true).map
        (fun r => (r.1.mStart, r.1.mEnd, r.2)) = some (0, 16, true) ∧
    (findBlockEnd (SubStringRef.fromStart "x@piece(n)@end y@end z".toList 0) false).map
        (fun r => (r.1.mStart, r.1.mEnd, r.2)) = some (0, 16, false) ∧
    (parsePropertiesPass "@property(a)x@piece@end y@end z".toList
        (setProperty emptyProperties ['a'] 1)) =
      some ("x@piece@end y@end z".toList, false) := by
  refine ⟨?_, ?_, ?_, ?_⟩ <;> decide

/-! ## An operator and the bytes around it -/

theorem getLast?_of_isExprName {w : Str} (h : isExprName w = true) :
    ∃ d, w.getLast? = some d ∧ d ≠ '&' ∧ d ≠ '|' := by
  simp only [isExprName, Bool.and_eq_true] at h
  cases hw : w.getLast? with
  | none =>
    rw [List.getLast?_eq_none_iff] at hw
    subst hw
    simp at h
  | some d =>
    have hmem : d ∈ w := List.mem_of_getLast?_eq_some hw
    have := isExprNameChar_ne (List.all_eq_true.mp h.2 d hmem)
    exact ⟨d, rfl, this.2.2.2.2.2.2.2.1, this.2.2.2.2.2.2.2.2⟩



theorem scanStep_operator_first (c d : Char) (hc : c = '&' ∨ c = '|') (v : Str) (n : Bool)
    (cs : List Expression) (w : Str) (neg : Bool) (parents : List Expression)
    (hd : w.getLast? = some d) (hcd : c ≠ d) :
    scanStep ⟨.mk v n (cs ++ [.mk w neg []]), parents, true, false, false⟩ c =
      ⟨.mk v n ((cs ++ [.mk w neg []]) ++ [.mk [c] false []]), parents, true, false, false⟩ := by
  have hl : lastValueChar (.mk v n (cs ++ [.mk w neg []])) = some d := by
    rw [lastValueChar_append_singleton]; exact hd
  have h1 : c ≠ '(' := by rcases hc with rfl | rfl <;> decide
  have h2 : c ≠ ')' := by rcases hc with rfl | rfl <;> decide
  have h3 : ¬ (c = ' ' ∨ c = '\t' ∨ c = '\n' ∨ c = '\r') := by
    rcases hc with rfl | rfl <;> decide
  have h4 : c ≠ '!' := by rcases hc with rfl | rfl <;> decide
  unfold scanStep
  rw [if_neg h1, if_neg h2, if_neg h3, if_neg h4]
  simp only [if_true, hl, Expression.children, isEmpty_append_singleton, Bool.or_false,
    Bool.not_false, Bool.and_true, hc, decide_True, Bool.true_and, ne_eq, hcd, not_false_eq_true,
    Expression.pushChild, Expression.empty, modifyBack_append_singleton, Expression.pushValue,
    List.nil_append, Bool.false_eq_true, Bool.and_false, Bool.or_self]




theorem scanStep_operator_second (c : Char) (hc : c = '&' ∨ c = '|') (v : Str) (n : Bool)
    (cs : List Expression) (parents : List Expression) :
    scanStep ⟨.mk v n (cs ++ [.mk [c] false []]), parents, true, false, false⟩ c =
      ⟨.mk v n (cs ++ [.mk [c, c] false []]), parents, true, false, false⟩ := by
  have hl : lastValueChar (.mk v n (cs ++ [.mk [c] false []])) = some c := by
    rw [lastValueChar_append_singleton]; rfl
  have h1 : c ≠ '(' := by rcases hc with rfl | rfl <;> decide
  have h2 : c ≠ ')' := by rcases hc with rfl | rfl <;> decide
  have h3 : ¬ (c = ' ' ∨ c = '\t' ∨ c = '\n' ∨ c = '\r') := by
    rcases hc with rfl | rfl <;> decide
  have h4 : c ≠ '!' := by rcases hc with rfl | rfl <;> decide
  unfold scanStep
  rw [if_neg h1, if_neg h2, if_neg h3, if_neg h4]
  simp only [if_true, hl, Expression.children, isEmpty_append_singleton, Bool.or_false,
    Bool.not_false, Bool.and_true, hc, decide_True, Bool.true_and, ne_eq, not_true_eq_false,
    decide_False, Bool.false_eq_true, if_false, modifyBack_append_singleton,
    Expression.pushValue, List.singleton_append, Bool.and_false, Bool.or_self]

/-- The scanning loop on an operator that follows a name with no white space between: the
operator starts a node of its own. -/
theorem scanLoop_operator_started (rest : Str) (v : Str) (n : Bool) (cs : List Expression)
    (w : Str) (neg : Bool) (parents : List Expression) (isAnd : Bool)
    (hw : isExprName w = true) :
    scanLoop ((if isAnd then "&&".toList else "||".toList) ++ rest)
        ⟨.mk v n (cs ++ [.mk w neg []]), parents, true, false, false⟩ =
      scanLoop rest
        ⟨.mk v n ((cs ++ [.mk w neg []]) ++
            [.mk (if isAnd then "&&".toList else "||".toList) false []]),
          parents, true, false, false⟩ := by
  obtain ⟨d, hd, hd1, hd2⟩ := getLast?_of_isExprName hw
  cases isAnd
  · show scanLoop ('|' :: '|' :: rest) _ = _
    rw [scanLoop_cons _ _ _ rfl, scanStep_operator_first '|' d (Or.inr rfl) v n cs w neg parents
      hd (fun e => hd2 e.symm), scanLoop_cons _ _ _ rfl,
      scanStep_operator_second '|' (Or.inr rfl)]
    rfl
  · show scanLoop ('&' :: '&' :: rest) _ = _
    rw [scanLoop_cons _ _ _ rfl, scanStep_operator_first '&' d (Or.inl rfl) v n cs w neg parents
      hd (fun e => hd1 e.symm), scanLoop_cons _ _ _ rfl,
      scanStep_operator_second '&' (Or.inl rfl)]
    rfl

theorem content_of_drop {buf t rest : Str} {st : Nat} (h : buf.drop st = t ++ rest) :
    (⟨buf, st, st + t.length⟩ : SubStringRef).content = t := by
  simp [SubStringRef.content, h]

/-- The scanning loop on a name, optional white space and an operator: two nodes. -/
theorem scanLoop_name_operator (rest a w1 : Str) (isAnd : Bool) (ha : isExprName a = true)
    (hw1 : w1.all isWhite = true) :
    scanLoop (a ++ (w1 ++ ((if isAnd then "&&".toList else "||".toList) ++ rest)))
        ⟨.mk [] false [], [], false, false, false⟩ =
      scanLoop rest
        ⟨.mk [] false [.mk a false [], .mk (if isAnd then "&&".toList else "||".toList) false []],
          [], true, false, false⟩ := by
  rw [scanLoop_name _ [] false [] false [] a ha]
  cases w1 with
  | nil =>
    rw [List.nil_append, scanLoop_operator_started rest [] false [] a false [] isAnd ha]
    rfl
  | cons c w =>
    rw [scanLoop_spaces _ _ _ true false (c :: w) (by simpa [isSpaces] using hw1),
      scanLoop_operator]
    rfl

theorem exprType_glued (b : Str) (isAnd : Bool) (hb : isExprName b = true) :
    exprType (.mk ((if isAnd then "&&".toList else "||".toList) ++ b) false [])
      = ExpressionType.EXPR_VAR := by
  have hne : b ≠ [] := by
    intro e; rw [e] at hb; simp [isExprName] at hb
  have hlen : 0 < b.length := List.length_pos.mpr hne
  have hop : (if isAnd then "&&".toList else "||".toList).length = 2 := by
    cases isAnd <;> rfl
  have h1 : (if isAnd then "&&".toList else "||".toList) ++ b ≠ "&&".toList := by
    intro e
    have := congrArg List.length e
    rw [List.length_append, hop, show ("&&".toList).length = 2 from rfl] at this
    omega
  have h2 : (if isAnd then "&&".toList else "||".toList) ++ b ≠ "||".toList := by
    intro e
    have := congrArg List.length e
    rw [List.length_append, hop, show ("||".toList).length = 2 from rfl] at this
    omega
  unfold exprType
  simp only [Expression.value, Expression.children]
  rw [if_neg h1, if_neg h2]
  simp

theorem noParen_operator (isAnd : Bool) :
    ∀ c ∈ (if isAnd then "&&".toList else "||".toList), c ≠ '(' ∧ c ≠ ')' := by
  cases isAnd <;> decide

theorem evaluateExpressionRecursive_root_of (properties : PropertyMap)
    (children : List Expression) (rs : List Bool) (err : Bool) (hne : children ≠ [])
    (h : evaluateOperands properties children true false = (rs, err)) :
    evaluateExpressionRecursive properties [.mk [] false children] false =
      (if err then true else (true && foldResults children rs true true), err) := by
  have ht : exprType (.mk [] false children) = ExpressionType.EXPR_OBJECT := by
    cases children with
    | nil => exact absurd rfl hne
    | cons c cs => simp [exprType, Expression.value, Expression.children]
  have hc : evaluateChildren properties (.mk [] false children) false
      = (if err then true else foldResults children rs true true, err) := by
    rw [evaluateChildren, h]
  rw [evaluateExpressionRecursive, evaluateOperands, ht, hc]
  cases err <;>
    simp [ExpressionType.isOperator, evaluateOperands_nil, foldResults, ht, Expression.negated]

/-- The function `evaluateExpression` on a name, optional white space, an operator and a
second name with no white space between the operator and that name: the second name is
made part of the operator token and a syntax error is reported. -/
theorem evaluateExpression_glued (a b w1 : Str) (isAnd : Bool) (properties : PropertyMap)
    (buf rest : Str) (st : Nat) (ha : isExprName a = true) (hb : isExprName b = true)
    (hw1 : w1.all isWhite = true) (hst : st ≤ buf.length) (hrest : rest ≠ [])
    (hbuf : buf.drop st =
      a ++ (w1 ++ ((if isAnd then "&&".toList else "||".toList) ++ b)) ++ ')' :: rest) :
    (evaluateExpression (SubStringRef.fromStart buf st) properties).2.2 = true := by
  have ha2 := ha
  have hb2 := hb
  simp only [isExprName, Bool.and_eq_true] at ha2 hb2
  have hnp : ∀ c ∈ a ++ (w1 ++ ((if isAnd then "&&".toList else "||".toList) ++ b)),
      c ≠ '(' ∧ c ≠ ')' := by
    intro c hc
    simp only [List.mem_append] at hc
    rcases hc with hc | hc | hc | hc
    · exact noParen_of_exprName ha2.2 c hc
    · exact noParen_of_white hw1 c hc
    · exact noParen_operator isAnd c hc
    · exact noParen_of_exprName hb2.2 c hc
  have hend := evaluateExpressionEnd_of_loop hst hbuf hrest
    (evaluateExpressionEndLoop_noParen _ _ 0 0 hnp (le_refl _))
  have hcontent : (⟨buf, st, st +
      (a ++ (w1 ++ ((if isAnd then "&&".toList else "||".toList) ++ b))).length⟩ :
      SubStringRef).content
      = a ++ (w1 ++ ((if isAnd then "&&".toList else "||".toList) ++ b)) :=
    content_of_drop hbuf
  have hscan : scanLoop (a ++ (w1 ++ ((if isAnd then "&&".toList else "||".toList) ++ b)))
      ⟨.mk [] false [], [], false, false, false⟩ =
      ⟨.mk [] false [.mk a false [],
          .mk ((if isAnd then "&&".toList else "||".toList) ++ b) false []],
        [], true, false, false⟩ := by
    have h1 := scanLoop_name_operator (b ++ []) a w1 isAnd ha hw1
    have h2 := scanLoop_name_started [] [] false [.mk a false []] false [] b
      (if isAnd then "&&".toList else "||".toList) hb2.2
    simp only [List.append_nil] at h1 h2
    rw [h1]
    have h3 : ([.mk a false [], .mk (if isAnd then "&&".toList else "||".toList) false []] :
        List Expression) = [.mk a false []] ++
          [.mk (if isAnd then "&&".toList else "||".toList) false []] := rfl
    rw [h3, h2]
    rfl
  have hops : evaluateOperands properties [.mk a false [],
      .mk ((if isAnd then "&&".toList else "||".toList) ++ b) false []] true false
      = ([decide (getProperty properties a ≠ 0)], true) := by
    rw [evaluateOperands_name properties a false ha, evaluateOperands, exprType_glued b isAnd hb]
    simp [ExpressionType.isOperator]
  have hrec := evaluateExpressionRecursive_root_of properties _ _ _ (by simp) hops
  rw [evaluateExpression, hend]
  simp only [SubStringRef.fromStart, SubStringRef.getStart, hcontent, Expression.empty, hscan,
    hrec, List.isEmpty_nil, Bool.not_true, Bool.or_self, Bool.false_eq_true, if_false]

/-- The function `evaluateExpression` on a name, optional white space, `&&`, white space
and a second name: no error, and the value is the conjunction of the two names. -/
theorem evaluateExpression_spaced (a b w1 w2 : Str) (properties : PropertyMap)
    (buf rest : Str) (st : Nat) (ha : isExprName a = true) (hb : isExprName b = true)
    (hw1 : w1.all isWhite = true) (hw2 : isSpaces w2 = true) (hst : st ≤ buf.length)
    (hrest : rest ≠ [])
    (hbuf : buf.drop st = a ++ (w1 ++ ("&&".toList ++ (w2 ++ b))) ++ ')' :: rest) :
    evaluateExpression (SubStringRef.fromStart buf st) properties =
      (decide (getProperty properties a ≠ 0) && decide (getProperty properties b ≠ 0),
        SubStringRef.fromStart buf (st + (a ++ (w1 ++ ("&&".toList ++ (w2 ++ b)))).length + 1),
        false) := by
  have ha2 := ha
  have hb2 := hb
  have hw2' := hw2
  simp only [isExprName, Bool.and_eq_true] at ha2 hb2
  simp only [isSpaces, Bool.and_eq_true] at hw2'
  have hnp : ∀ c ∈ a ++ (w1 ++ ("&&".toList ++ (w2 ++ b))), c ≠ '(' ∧ c ≠ ')' := by
    intro c hc
    simp only [List.mem_append] at hc
    rcases hc with hc | hc | hc | hc | hc
    · exact noParen_of_exprName ha2.2 c hc
    · exact noParen_of_white hw1 c hc
    · exact noParen_operator true c hc
    · exact noParen_of_white hw2'.2 c hc
    · exact noParen_of_exprName hb2.2 c hc
  have hend := evaluateExpressionEnd_of_loop hst hbuf hrest
    (evaluateExpressionEndLoop_noParen _ _ 0 0 hnp (le_refl _))
  have hcontent : (⟨buf, st, st + (a ++ (w1 ++ ("&&".toList ++ (w2 ++ b)))).length⟩ :
      SubStringRef).content = a ++ (w1 ++ ("&&".toList ++ (w2 ++ b))) :=
    content_of_drop hbuf
  have hscan : scanLoop (a ++ (w1 ++ ("&&".toList ++ (w2 ++ b))))
      ⟨.mk [] false [], [], false, false, false⟩ =
      ⟨.mk [] false [.mk a false [], .mk ("&&".toList) false [], .mk b false []],
        [], true, false, false⟩ := by
    have h1 := scanLoop_name_operator (w2 ++ b) a w1 true ha hw1
    simp only [if_true] at h1
    rw [h1, scanLoop_spaces _ _ _ true false w2 hw2]
    have h2 := scanLoop_name [] [] false [.mk a false [], .mk ("&&".toList) false []] false []
      b hb
    simp only [List.append_nil] at h2
    rw [h2]
    rfl
  have hops : evaluateOperands properties
      [.mk a false [], .mk ("&&".toList) false [], .mk b false []] true false
      = ([decide (getProperty properties a ≠ 0), false,
          decide (getProperty properties b ≠ 0)], false) := by
    have ho := evaluateOperands_operator properties true [.mk b false []]
    simp only [if_true] at ho
    rw [evaluateOperands_name properties a false ha, ho,
      evaluateOperands_name properties b false hb, evaluateOperands_nil]
  have hfold : foldResults [.mk a false [], .mk ("&&".toList) false [], .mk b false []]
      [decide (getProperty properties a ≠ 0), false, decide (getProperty properties b ≠ 0)]
      true true
      = (decide (getProperty properties a ≠ 0) && decide (getProperty properties b ≠ 0)) := by
    have hto := exprType_operator true
    simp only [if_true] at hto
    have n1 : ExpressionType.EXPR_VAR ≠ ExpressionType.EXPR_OPERATOR_OR := by decide
    have n2 : ExpressionType.EXPR_VAR ≠ ExpressionType.EXPR_OPERATOR_AND := by decide
    have n3 : ExpressionType.EXPR_OPERATOR_AND ≠ ExpressionType.EXPR_OPERATOR_OR := by decide
    simp only [foldResults, exprType_name a false ha, exprType_name b false hb, hto,
      Expression.negated, Bool.true_and, if_true, if_false, Bool.false_eq_true, n1, n2, n3]
  have hrec := evaluateExpressionRecursive_root_of properties _ _ _ (by simp) hops
  rw [hfold] at hrec
  rw [evaluateExpression, hend]
  simp only [SubStringRef.fromStart, SubStringRef.getStart, hcontent, Expression.empty, hscan,
    hrec, List.isEmpty_nil, Bool.not_true, Bool.or_self, Bool.false_eq_true, if_false,
    Bool.true_and]

/-- An operator must be followed by white space. Let `a` and `b` be non-empty names
made of bytes other than white space, `(`, `)`, `!`, `&`, `|`, and let the expression
stand at the start of the view, closed by `)` with at least one byte after it. On `a`,
optional white space, `&&` or `||`, and `b` right behind the operator (`a&&b`, `a &&b`,
`a||b`, `a ||b`), `evaluateExpression` reports a syntax error. On `a`, optional white
space, `&&`, white space and `b` (`a&& b`, `a && b`) it reports no error, moves the view
behind the `)` and returns the conjunction of `get(a) != 0` and `get(b) != 0`. -/
theorem evaluateExpression_operator_spacing (a b : Str) (properties : PropertyMap)
    (buf rest : Str) (st : Nat) (ha : isExprName a = true) (hb : isExprName b = true)
    (hst : st ≤ buf.length) (hrest : rest ≠ []) :
    (∀ (isAnd : Bool) (w1 : Str), w1.all isWhite = true →
      buf.drop st =
        a ++ (w1 ++ ((if isAnd then "&&".toList else "||".toList) ++ b)) ++ ')' :: rest →
      (evaluateExpression (SubStringRef.fromStart buf st) properties).2.2 = true) ∧
    (∀ (w1 w2 : Str), w1.all isWhite = true → isSpaces w2 = true →
      buf.drop st = a ++ (w1 ++ ("&&".toList ++ (w2 ++ b))) ++ ')' :: rest →
      evaluateExpression (SubStringRef.fromStart buf st) properties =
        (decide (getProperty properties a ≠ 0) && decide (getProperty properties b ≠ 0),
          SubStringRef.fromStart buf
            (st + (a ++ (w1 ++ ("&&".toList ++ (w2 ++ b)))).length + 1),
          false)) :=
  ⟨fun isAnd w1 hw1 hbuf =>
      evaluateExpression_glued a b w1 isAnd properties buf rest st ha hb hw1 hst hrest hbuf,
   fun w1 w2 hw1 hw2 hbuf =>
      evaluateExpression_spaced a b w1 w2 properties buf rest st ha hb hw1 hw2 hst hrest hbuf⟩

set_option maxRecDepth 100000 in
/-- The operator spacing rule at `a&&b)x`, `a ||b)x` and `a&& b)x` with both names set
to 1. -/
theorem evaluateExpression_operator_spacing_witness :
    isExprName ['a'] = true ∧ isExprName ['b'] = true ∧
    (evaluateExpression (SubStringRef.fromStart "a&&b)x".toList 0)
      (setProperty (setProperty emptyProperties ['a'] 1) ['b'] 1)).2.2 = true ∧
    (evaluateExpression (SubStringRef.fromStart "a ||b)x".toList 0)
      (setProperty (setProperty emptyProperties ['a'] 1) ['b'] 1)).2.2 = true ∧
    evaluateExpression (SubStringRef.fromStart "a&& b)x".toList 0)
        (setProperty (setProperty emptyProperties ['a'] 1) ['b'] 1) =
      (decide (getProperty (setProperty (setProperty emptyProperties ['a'] 1) ['b'] 1) ['a']
          ≠ 0) &&
        decide (getProperty (setProperty (setProperty emptyProperties ['a'] 1) ['b'] 1) ['b']
          ≠ 0),
        SubStringRef.fromStart "a&& b)x".toList
          (0 + (['a'] ++ ([] ++ ("&&".toList ++ ([' '] ++ ['b'])))).length + 1),
        false) :=
  ⟨by decide, by decide,
   (evaluateExpression_operator_spacing ['a'] ['b'] _ "a&&b)x".toList ['x'] 0
      (by decide) (by decide) (by decide) (by decide)).1 true [] (by decide) (by decide),
   (evaluateExpression_operator_spacing ['a'] ['b'] _ "a ||b)x".toList ['x'] 0
      (by decide) (by decide) (by decide) (by decide)).1 false [' '] (by decide) (by decide),
   (evaluateExpression_operator_spacing ['a'] ['b'] _ "a&& b)x".toList ['x'] 0
      (by decide) (by decide) (by decide) (by decide)).2 [] [' '] (by decide) (by decide)
      (by decide)⟩

set_option maxRecDepth 100000 in
/-- C24 at the expressions `a && b` and `a&& b` with both properties set to 1, the
closing `)` being the last byte of the buffer: `evaluateExpression` sets the error flag,
returns false and leaves the view at its start, although the operator is followed by
white space. `evaluateExpressionEnd` accepts a `)` only when `it != en` holds behind it,
so it reports the parenthesis as unmatched. With one more byte behind the `)` the same
expressions are accepted, give true and move the view behind the `)`, and `a&&b` and
`a ||b` are still rejected. Each triple is the value, the start of the view on return and
the error flag. -/
theorem evaluateExpression_operator_examples :
    evaluateExpressionEnd (SubStringRef.fromStart "a && b)".toList 0) = none ∧
    (fun r : Bool × SubStringRef × Bool => (r.1, r.2.1.getStart, r.2.2))
      (evaluateExpression (SubStringRef.fromStart "a && b)".toList 0)
        (setProperty (setProperty emptyProperties ['a'] 1) ['b'] 1)) = (false, 0, true) ∧
    (fun r : Bool × SubStringRef × Bool => (r.1, r.2.1.getStart, r.2.2))
      (evaluateExpression (SubStringRef.fromStart "a&& b)".toList 0)
        (setProperty (setProperty emptyProperties ['a'] 1) ['b'] 1)) = (false, 0, true) ∧
    evaluateExpressionEnd (SubStringRef.fromStart "a && b) ".toList 0) = some 6 ∧
    (fun r : Bool × SubStringRef × Bool => (r.1, r.2.1.getStart, r.2.2))
      (evaluateExpression (SubStringRef.fromStart "a && b) ".toList 0)
        (setProperty (setProperty emptyProperties ['a'] 1) ['b'] 1)) = (true, 7, false) ∧
    (fun r : Bool × SubStringRef × Bool => (r.1, r.2.1.getStart, r.2.2))
      (evaluateExpression (SubStringRef.fromStart "a&& b) ".toList 0)
        (setProperty (setProperty emptyProperties ['a'] 1) ['b'] 1)) = (true, 6, false) ∧
    (evaluateExpression (SubStringRef.fromStart "a&&b) ".toList 0)
        (setProperty (setProperty emptyProperties ['a'] 1) ['b'] 1)).2.2 = true ∧
    (evaluateExpression (SubStringRef.fromStart "a ||b) ".toList 0)
        (setProperty (setProperty emptyProperties ['a'] 1) ['b'] 1)).2.2 = true := by
  refine ⟨?_, ?_, ?_, ?_, ?_, ?_, ?_, ?_⟩ <;> decide

end Ogre
